import Mathlib

/-!
UTXO cache core (`src/src/coins.cpp`).

A shallow embedding of the layered coins cache: the per-transaction record
`CCoins`, the cache entry with its `DIRTY`/`FRESH` flags, the view hierarchy
(`CCoinsView`, `CCoinsViewBacked`, `CCoinsViewCache`) and the cache operations
`FetchCoin`, `GetCoin`, `AddCoin`, `SpendCoin`, `AccessCoin`, `BatchWrite`,
`Flush`, `ModifyCoins` and the release of a `CCoinsModifier`.

Stateful C++ methods become functions that take the state and return the new
state next to their result.  A cache is kept apart from the view it is backed
by, so an operation on a cache returns the new cache and the new backing view
(a lookup that misses walks down the stack and memoises on every level).
A call ends in a `Result`: it returns, throws `std::logic_error`, fails an
`assert`, or indexes a vector past its end.

The types declared in headers outside `src/` (`CTxOut`, `Coin`, `CCoins` and
its small methods) are modelled from the specification; what else the headers
provide (the script test, the memory measures, the scan bound) is the
parameter `Env`.

The file has two parts: the definitions, then the lemmas and the theorems.
-/

namespace Coins

/-! ## Value types -/

/-- A 256-bit hash (`uint256`); `0` is the null hash. -/
abbrev uint256 := Nat

/-- Width of `size_t`, the type of `cachedCoinsUsage`. -/
def SIZE_MOD : Nat := 2 ^ 64

/-- Width of `uint32_t` / `unsigned int`, the type of an output index. -/
def UINT32_MOD : Nat := 2 ^ 32

/-- Unsigned `a -= b` on `size_t`. -/
def subSize (a b : Nat) : Nat := (a + (SIZE_MOD - b % SIZE_MOD)) % SIZE_MOD

/-- Unsigned `a += b` on `size_t`. -/
def addSize (a b : Nat) : Nat := (a + b) % SIZE_MOD

/-- Modelled from the spec: the transaction output `CTxOut` (declared outside
`src/`): a value in satoshis and a script, with a null sentinel.  The sentinel
is the value `-1` with an empty script. -/
structure CTxOut where
  nValue : Int
  scriptPubKey : List Nat
deriving DecidableEq, Repr

namespace CTxOut

/-- Modelled from the spec: the null output, what `CTxOut()` and `SetNull()` give. -/
def null : CTxOut := { nValue := -1, scriptPubKey := [] }

/-- Modelled from the spec: `IsNull()`, the test for the null sentinel. -/
def IsNull (o : CTxOut) : Bool := o.nValue == -1

end CTxOut

/-- An outpoint `COutPoint(hash, n)`. -/
structure COutPoint where
  hash : uint256
  n : Nat
deriving DecidableEq, Repr

/-- Modelled from the spec: a single output with its creation height and
coinbase flag, `Coin(out, nHeight, fCoinBase)` (declared outside `src/`). -/
structure Coin where
  out : CTxOut
  nHeight : Nat
  fCoinBase : Bool
deriving DecidableEq, Repr

namespace Coin

/-- Modelled from the spec: `is_spent()` holds iff `out` is null. -/
def IsSpent (c : Coin) : Bool := c.out.IsNull

end Coin

/-- The default-constructed `Coin`, `static const Coin coinEmpty`. -/
def coinEmpty : Coin := { out := CTxOut.null, nHeight := 0, fCoinBase := false }

/-- Modelled from the spec: the per-transaction record `CCoins` (the spec's
`CoinRecord`, declared in `coins.h`, outside `src/`): outputs indexed by output
index, height and coinbase flag. -/
structure CCoins where
  fCoinBase : Bool
  vout : List CTxOut
  nHeight : Nat
deriving DecidableEq, Repr

namespace CCoins

/-- The default-constructed record `CCoins()`: no outputs. -/
def empty : CCoins := { fCoinBase := false, vout := [], nHeight := 0 }

/-- Modelled from the spec: `Clear()` resets the record to the empty one. -/
def Clear (_c : CCoins) : CCoins := empty

/-- Modelled from the spec: `cleanup` removes the trailing null outputs. -/
def Cleanup (c : CCoins) : CCoins :=
  { c with vout := c.vout.rdropWhile CTxOut.IsNull }

/-- Modelled from the spec: `is_available(i)` iff `i < len(outputs)` and
`outputs[i]` is not null. -/
def IsAvailable (c : CCoins) (nPos : Nat) : Bool :=
  decide (nPos < c.vout.length) && !(c.vout.getD nPos CTxOut.null).IsNull

/-- Modelled from the spec: the record is pruned/spent iff the transaction has
no remaining unspent output, i.e. every output is null (the source comment in
`HaveCoin` sets this test apart from the cheaper `vout.empty()`). -/
def IsSpent (c : CCoins) : Bool := c.vout.all CTxOut.IsNull

/-- What `CCoins::Spend(nPos)` does, lines 37-44: the returned flag and the record afterwards. -/
def Spend (c : CCoins) (nPos : Nat) : Bool × CCoins :=
  if decide (nPos ≥ c.vout.length) || (c.vout.getD nPos CTxOut.null).IsNull then
    (false, c)
  else
    (true, Cleanup { c with vout := c.vout.set nPos CTxOut.null })

/-- The record has no trailing null output: `vout` is empty or ends in a non-null output. -/
def Canonical (c : CCoins) : Prop :=
  ∀ o, c.vout.getLast? = some o → o.IsNull = false

instance (c : CCoins) : Decidable (Canonical c) :=
  decidable_of_iff (c.vout.getLast?.all (fun o => !o.IsNull) = true) (by
    unfold Canonical
    cases c.vout.getLast? with
    | none => simp
    | some x => simp)

end CCoins

/-- The `std::vector::resize(k)` on a vector of outputs: truncate, or pad with null outputs. -/
def resize (v : List CTxOut) (k : Nat) : List CTxOut :=
  v.take k ++ List.replicate (k - v.length) CTxOut.null

/-! ## Cache entries and the cache map -/

/-- Flag `CCoinsCacheEntry::DIRTY = (1 << 0)`. -/
def DIRTY : Nat := 1

/-- Flag `CCoinsCacheEntry::FRESH = (1 << 1)`. -/
def FRESH : Nat := 2

/-- The cache slot `CCoinsCacheEntry`: a record and its flag bits. -/
structure CCoinsCacheEntry where
  coins : CCoins
  flags : Nat
deriving DecidableEq, Repr

namespace CCoinsCacheEntry

/-- The default-constructed entry `CCoinsCacheEntry()`: empty record, no flags. -/
def empty : CCoinsCacheEntry := { coins := CCoins.empty, flags := 0 }

/-- The test `flags & DIRTY`. -/
def isDirty (e : CCoinsCacheEntry) : Bool := e.flags &&& DIRTY != 0

/-- The test `flags & FRESH`. -/
def isFresh (e : CCoinsCacheEntry) : Bool := e.flags &&& FRESH != 0

end CCoinsCacheEntry

/-- The map `CCoinsMap` from txid to cache entry: an association list with
unique keys (the hasher and its salt play no part in the contents). -/
abbrev CCoinsMap := AList (fun _ : uint256 => CCoinsCacheEntry)

/-- Modelled from the spec: a transaction input `CTxIn` (declared outside
`src/`), of which the cache reads the outpoint it spends. -/
structure CTxIn where
  prevout : COutPoint
deriving DecidableEq, Repr

/-- Modelled from the spec: a transaction `CTransaction` (declared outside
`src/`) as the cache reads it: its hash, its inputs and its outputs. -/
structure CTransaction where
  hash : uint256
  vin : List CTxIn
  vout : List CTxOut
deriving DecidableEq, Repr

/-- What the headers outside `src/` provide to the cache code. -/
structure Env where
  /-- The script test `CScript::IsUnspendable()`. -/
  IsUnspendable : List Nat → Bool
  /-- The test `CTransaction::IsCoinBase()`. -/
  IsCoinBase : CTransaction → Bool
  /-- The test `CTransaction::IsCoinGenerated()`. -/
  IsCoinGenerated : CTransaction → Bool
  /-- The dynamic memory held by a record, `CCoins::DynamicMemoryUsage()`. -/
  DynamicMemoryUsage : CCoins → Nat
  /-- The structural overhead of a map, `memusage::DynamicUsage(cacheCoins)`. -/
  MapUsage : CCoinsMap → Nat
  /-- The scan bound of `AccessByTxid`. -/
  MAX_OUTPUTS_PER_BLOCK : Nat

/-- How a call ends: it returns, it throws `std::logic_error` (leaving a state
behind), an `assert` fails, or it indexes a vector past its end. -/
inductive Result (α : Type) where
  | ok (a : α)
  | thrown (a : α)
  | abort
  | undefined
deriving DecidableEq, Repr

/-- The data members of a `CCoinsViewCache` (its `base` pointer is kept apart). -/
structure CCoinsViewCache where
  hasModifier : Bool
  hashBlock : uint256
  cacheCoins : CCoinsMap
  cachedCoinsUsage : Nat
deriving DecidableEq

namespace CCoinsViewCache

/-- The state after the constructor, line 90: no modifier, null best block,
empty map.  The constructor does not initialise `cachedCoinsUsage`; the model
starts the counter at 0. -/
def new : CCoinsViewCache :=
  { hasModifier := false, hashBlock := 0, cacheCoins := ∅, cachedCoinsUsage := 0 }

end CCoinsViewCache

/-- The views of `coins.cpp`: the base class `CCoinsView` (every query fails),
a `CCoinsViewBacked` with a null or a non-null backend, and a
`CCoinsViewCache` over its backend. -/
inductive CCoinsView where
  | plain
  | backedNull
  | backed (base : CCoinsView)
  | cache (c : CCoinsViewCache) (base : CCoinsView)
deriving DecidableEq

/-! ## Read path -/

/-- The entry `FetchCoin` creates for a record `tmp` pulled from the backend,
lines 109-115: no flags, or `FRESH` when the record is spent. -/
def fetched (tmp : CCoins) : CCoinsCacheEntry :=
  { coins := tmp, flags := if tmp.IsSpent then FRESH else 0 }

/-- The body of `CCoinsViewCache::FetchCoin`, lines 101-117, given what
`base->GetCoin(txid, tmp)` answers (used on a miss only): the entry the
returned iterator points to (`none` for `end()`), the cache and the backend
afterwards. -/
def FetchCoinWith {β : Type} (c : CCoinsViewCache) (txid : uint256) (b : β)
    (r : Option CCoins × β) : Option CCoinsCacheEntry × CCoinsViewCache × β :=
  match c.cacheCoins.lookup txid with
  | some e => (some e, c, b)
  | none =>
    match r.1 with
    | none => (none, c, r.2)
    | some tmp =>
      (some (fetched tmp), { c with cacheCoins := c.cacheCoins.insert txid (fetched tmp) }, r.2)

/-- The virtual `GetCoin(txid, coins)` of each view, lines 46, 53-57 and
119-127: the record found (`none` for `false`) and the view afterwards. -/
def CCoinsView.GetCoin : CCoinsView → uint256 → Option CCoins × CCoinsView
  | .plain, _ => (none, .plain)
  | .backedNull, _ => (none, .backedNull)
  | .backed base, txid =>
    let r := GetCoin base txid
    (r.1, .backed r.2)
  | .cache c base, txid =>
    let r := FetchCoinWith c txid base (GetCoin base txid)
    (r.1.map CCoinsCacheEntry.coins, .cache r.2.1 r.2.2)

/-- The method `CCoinsViewCache::FetchCoin` of a cache `c` over the view `base`. -/
def FetchCoin (c : CCoinsViewCache) (base : CCoinsView) (txid : uint256) :
    Option CCoinsCacheEntry × CCoinsViewCache × CCoinsView :=
  FetchCoinWith c txid base (base.GetCoin txid)

/-- The method `CCoinsViewCache::GetCoin`, lines 119-127. -/
def GetCoin (c : CCoinsViewCache) (base : CCoinsView) (txid : uint256) :
    Option CCoins × CCoinsViewCache × CCoinsView :=
  match FetchCoin c base txid with
  | (some e, c1, b1) => (some e.coins, c1, b1)
  | (none, c1, b1) => (none, c1, b1)

/-- The method `CCoinsViewCache::AccessCoins`, lines 206-214 (`none` for `nullptr`). -/
def AccessCoins (c : CCoinsViewCache) (base : CCoinsView) (txid : uint256) :
    Option CCoins × CCoinsViewCache × CCoinsView :=
  match FetchCoin c base txid with
  | (none, c1, b1) => (none, c1, b1)
  | (some e, c1, b1) => (some e.coins, c1, b1)

/-- The coin `AccessCoin` returns for the entry found (`none` for `end()`), lines 220-224. -/
def AccessCoin.coin (it : Option CCoinsCacheEntry) (n : Nat) : Coin :=
  match it with
  | none => coinEmpty
  | some e =>
    if !e.coins.IsAvailable n then coinEmpty
    else
      { out := e.coins.vout.getD n CTxOut.null, nHeight := e.coins.nHeight,
        fCoinBase := e.coins.fCoinBase }

/-- The method `CCoinsViewCache::AccessCoin`, lines 218-225. -/
def AccessCoin (c : CCoinsViewCache) (base : CCoinsView) (outpoint : COutPoint) :
    Coin × CCoinsViewCache × CCoinsView :=
  let r := FetchCoin c base outpoint.hash
  (AccessCoin.coin r.1 outpoint.n, r.2.1, r.2.2)

/-- The method `CCoinsViewCache::HaveCoin(txid)`, lines 227-235. -/
def HaveCoin (c : CCoinsViewCache) (base : CCoinsView) (txid : uint256) :
    Bool × CCoinsViewCache × CCoinsView :=
  match FetchCoin c base txid with
  | (none, c1, b1) => (false, c1, b1)
  | (some e, c1, b1) => (!e.coins.vout.isEmpty, c1, b1)

/-- The method `CCoinsViewCache::HaveCoin(outpoint)`, lines 237-240. -/
def HaveCoinAt (c : CCoinsViewCache) (base : CCoinsView) (outpoint : COutPoint) :
    Bool × CCoinsViewCache × CCoinsView :=
  match FetchCoin c base outpoint.hash with
  | (none, c1, b1) => (false, c1, b1)
  | (some e, c1, b1) => (e.coins.IsAvailable outpoint.n, c1, b1)

/-- The method `CCoinsViewCache::GetCacheSize`, lines 298-301. -/
def GetCacheSize (c : CCoinsViewCache) : Nat := c.cacheCoins.entries.length

/-- The method `CCoinsViewCache::DynamicMemoryUsage`, lines 97-99. -/
def DynamicMemoryUsage (E : Env) (c : CCoinsViewCache) : Nat :=
  addSize (E.MapUsage c.cacheCoins) c.cachedCoinsUsage

/-! ## Write path -/

/-- The entry the iterator `it` of `AddCoin` points to after the `emplace` of
line 159: the entry found, or a default-constructed one. -/
def AddCoin.it (c : CCoinsViewCache) (txid : uint256) : CCoinsCacheEntry :=
  (c.cacheCoins.lookup txid).getD CCoinsCacheEntry.empty

/-- The map after the `emplace` of line 159. -/
def AddCoin.emplace (c : CCoinsViewCache) (txid : uint256) : CCoinsMap :=
  if (c.cacheCoins.lookup txid).isNone then c.cacheCoins.insert txid CCoinsCacheEntry.empty
  else c.cacheCoins

/-- The counter after lines 161-163: the old record is subtracted unless the entry is new. -/
def AddCoin.usage1 (E : Env) (c : CCoinsViewCache) (txid : uint256) : Nat :=
  if (c.cacheCoins.lookup txid).isNone then c.cachedCoinsUsage
  else subSize c.cachedCoinsUsage (E.DynamicMemoryUsage (AddCoin.it c txid).coins)

/-- The outputs after lines 170-172: grown to `outpoint.n + 1` (an `unsigned int` sum) if shorter. -/
def AddCoin.grow (vout : List CTxOut) (n : Nat) : List CTxOut :=
  if vout.length ≤ n then resize vout ((n + 1) % UINT32_MOD) else vout

/-- The flag `fresh` of lines 160-169. -/
def AddCoin.fresh (it : CCoinsCacheEntry) (possible_overwrite : Bool) : Bool :=
  !possible_overwrite && (it.coins.IsSpent && !it.isDirty)

/-- The entry after the stores of lines 173-176. -/
def AddCoin.store (it : CCoinsCacheEntry) (n : Nat) (coin : Coin) (possible_overwrite : Bool) :
    CCoinsCacheEntry :=
  { coins :=
      { vout := (AddCoin.grow it.coins.vout n).set n coin.out, nHeight := coin.nHeight,
        fCoinBase := coin.fCoinBase },
    flags := it.flags ||| (DIRTY ||| (if AddCoin.fresh it possible_overwrite then FRESH else 0)) }

/-- The method `CCoinsViewCache::AddCoin`, lines 154-178.  The result `thrown`
carries the cache as the `throw` of line 166 leaves it; `undefined` is the
store of line 173 past the end of `vout`. -/
def AddCoin (E : Env) (c : CCoinsViewCache) (outpoint : COutPoint) (coin : Coin)
    (possible_overwrite : Bool) : Result CCoinsViewCache :=
  if coin.IsSpent then .abort
  else if E.IsUnspendable coin.out.scriptPubKey then .ok c
  else if !possible_overwrite && (AddCoin.it c outpoint.hash).coins.IsAvailable outpoint.n then
    .thrown { c with cacheCoins := AddCoin.emplace c outpoint.hash,
                     cachedCoinsUsage := AddCoin.usage1 E c outpoint.hash }
  else if outpoint.n < (AddCoin.grow (AddCoin.it c outpoint.hash).coins.vout outpoint.n).length then
    .ok { c with
            cacheCoins := (AddCoin.emplace c outpoint.hash).insert outpoint.hash
              (AddCoin.store (AddCoin.it c outpoint.hash) outpoint.n coin possible_overwrite),
            cachedCoinsUsage := addSize (AddCoin.usage1 E c outpoint.hash)
              (E.DynamicMemoryUsage
                (AddCoin.store (AddCoin.it c outpoint.hash) outpoint.n coin
                  possible_overwrite).coins) }
  else .undefined

/-- The coin `SpendCoin` writes to `*moveout`, lines 194-196 (`none` when the slot is not available). -/
def SpendCoin.moveout (it : CCoinsCacheEntry) (n : Nat) : Option Coin :=
  if it.coins.IsAvailable n then
    some { out := it.coins.vout.getD n CTxOut.null, nHeight := it.coins.nHeight,
           fCoinBase := it.coins.fCoinBase }
  else none

/-- The cache after lines 193-203 of `SpendCoin`, for the entry `it` found at `outpoint.hash`. -/
def SpendCoin.update (E : Env) (c : CCoinsViewCache) (it : CCoinsCacheEntry)
    (outpoint : COutPoint) : CCoinsViewCache :=
  if (it.coins.Spend outpoint.n).2.IsSpent && it.isFresh then
    { c with cacheCoins := c.cacheCoins.erase outpoint.hash,
             cachedCoinsUsage := subSize c.cachedCoinsUsage (E.DynamicMemoryUsage it.coins) }
  else
    { c with
        cacheCoins := c.cacheCoins.insert outpoint.hash
          { coins := (it.coins.Spend outpoint.n).2, flags := it.flags ||| DIRTY },
        cachedCoinsUsage :=
          addSize (subSize c.cachedCoinsUsage (E.DynamicMemoryUsage it.coins))
            (E.DynamicMemoryUsage (it.coins.Spend outpoint.n).2) }

/-- The method `CCoinsViewCache::SpendCoin`, lines 190-204.  The first
component is the coin written to `*moveout` when the pointer is given (`none`
when nothing is written). -/
def SpendCoin (E : Env) (c : CCoinsViewCache) (base : CCoinsView) (outpoint : COutPoint) :
    Option Coin × CCoinsViewCache × CCoinsView :=
  match FetchCoin c base outpoint.hash with
  | (none, c1, b1) => (none, c1, b1)
  | (some it, c1, b1) => (SpendCoin.moveout it outpoint.n, SpendCoin.update E c1 it outpoint, b1)

/-- One turn of the loop of `CCoinsViewCache::BatchWrite`, lines 258-283, on the
child entry `it` with key `txid`: the receiving map afterwards, or `abort` when
the `assert` of line 266 fails. -/
def BatchWriteEntry (cacheCoins : CCoinsMap) (txid : uint256) (it : CCoinsCacheEntry) :
    Result CCoinsMap :=
  if it.isDirty then
    match cacheCoins.lookup txid with
    | none =>
      if !it.coins.IsSpent then
        if it.isFresh then
          .ok (cacheCoins.insert txid { coins := it.coins, flags := DIRTY ||| FRESH })
        else .abort
      else .ok cacheCoins
    | some us =>
      if us.isFresh && it.coins.IsSpent then .ok (cacheCoins.erase txid)
      else .ok (cacheCoins.insert txid { coins := it.coins, flags := us.flags ||| DIRTY })
  else .ok cacheCoins

/-- The loop of `CCoinsViewCache::BatchWrite`, lines 257-286, over the entries of the child map. -/
def BatchWriteLoop :
    List (Sigma fun _ : uint256 => CCoinsCacheEntry) → CCoinsMap → Result CCoinsMap
  | [], cacheCoins => .ok cacheCoins
  | it :: rest, cacheCoins =>
    match BatchWriteEntry cacheCoins it.1 it.2 with
    | .ok m => BatchWriteLoop rest m
    | _ => .abort

/-- The method `CCoinsViewCache::BatchWrite`, lines 254-289: the returned flag,
the child map as the call leaves it (every entry erased) and the receiving
cache afterwards. -/
def CCoinsViewCache.BatchWrite (c : CCoinsViewCache) (mapCoins : CCoinsMap)
    (hashBlockIn : uint256) : Result (Bool × CCoinsMap × CCoinsViewCache) :=
  if c.hasModifier then .abort
  else
    match BatchWriteLoop mapCoins.entries c.cacheCoins with
    | .ok m => .ok (true, ∅, { c with cacheCoins := m, hashBlock := hashBlockIn })
    | _ => .abort

/-- The virtual `BatchWrite(mapCoins, hashBlock)` of each view, lines 49, 76-80 and 254-289. -/
def CCoinsView.BatchWrite :
    CCoinsView → CCoinsMap → uint256 → Result (Bool × CCoinsMap × CCoinsView)
  | .plain, mapCoins, _ => .ok (false, mapCoins, .plain)
  | .backedNull, mapCoins, _ => .ok (false, mapCoins, .backedNull)
  | .backed base, mapCoins, hashBlock =>
    match BatchWrite base mapCoins hashBlock with
    | .ok r => .ok (r.1, r.2.1, .backed r.2.2)
    | _ => .abort
  | .cache c base, mapCoins, hashBlock =>
    match c.BatchWrite mapCoins hashBlock with
    | .ok r => .ok (r.1, r.2.1, .cache r.2.2 base)
    | _ => .abort

/-- The method `CCoinsViewCache::Flush`, lines 291-296: the returned flag, the
cache and its backend afterwards. -/
def Flush (c : CCoinsViewCache) (base : CCoinsView) :
    Result (Bool × CCoinsViewCache × CCoinsView) :=
  match base.BatchWrite c.cacheCoins c.hashBlock with
  | .ok r => .ok (r.1, { c with cacheCoins := ∅ }, r.2.2)
  | _ => .abort

/-- The virtual `GetBestBlock()` of each view, lines 48, 65-69 and 242-247. -/
def CCoinsView.GetBestBlock : CCoinsView → uint256 × CCoinsView
  | .plain => (0, .plain)
  | .backedNull => (0, .backedNull)
  | .backed base =>
    let r := GetBestBlock base
    (r.1, .backed r.2)
  | .cache c base =>
    if c.hashBlock = 0 then
      let r := GetBestBlock base
      (r.1, .cache { c with hashBlock := r.1 } r.2)
    else (c.hashBlock, .cache c base)

/-- The method `CCoinsViewCache::SetBestBlock`, lines 249-252. -/
def SetBestBlock (c : CCoinsViewCache) (hashBlockIn : uint256) : CCoinsViewCache :=
  { c with hashBlock := hashBlockIn }

/-! ## The scoped modifier -/

/-- The method `CCoinsViewCache::ModifyCoins`, lines 129-153, with the
constructor of the returned `CCoinsModifier`, lines 354-358: the cache (the
modifier points at `txid`) and the backend afterwards. -/
def ModifyCoins (c : CCoinsViewCache) (base : CCoinsView) (txid : uint256) :
    Result (CCoinsViewCache × CCoinsView) :=
  if c.hasModifier then .abort
  else
    match c.cacheCoins.lookup txid with
    | some e =>
      .ok ({ c with cacheCoins := c.cacheCoins.insert txid { e with flags := e.flags ||| DIRTY },
                    hasModifier := true }, base)
    | none =>
      match base.GetCoin txid with
      | (some coins, b1) =>
        .ok ({ c with cacheCoins := c.cacheCoins.insert txid
                        { coins := coins, flags := CCoinsCacheEntry.empty.flags ||| DIRTY },
                      hasModifier := true }, b1)
      | (none, b1) =>
        let coins := CCoins.Clear CCoinsCacheEntry.empty.coins
        if !coins.IsSpent then
          .thrown ({ c with cacheCoins := c.cacheCoins.insert txid
                              { coins := coins, flags := CCoinsCacheEntry.empty.flags } }, b1)
        else
          let flags1 :=
            if CCoinsCacheEntry.empty.isFresh then CCoinsCacheEntry.empty.flags
            else CCoinsCacheEntry.empty.flags ||| FRESH
          .ok ({ c with cacheCoins := c.cacheCoins.insert txid
                          { coins := coins, flags := flags1 ||| DIRTY },
                        hasModifier := true }, b1)

/-- What the holder of a `CCoinsModifier` pointing at `it` does through
`operator->`: it replaces the record of that entry. -/
def CCoinsModifier.assign (c : CCoinsViewCache) (it : uint256) (coins : CCoins) :
    CCoinsViewCache :=
  match c.cacheCoins.lookup it with
  | none => c
  | some e => { c with cacheCoins := c.cacheCoins.insert it { e with coins := coins } }

/-- The destructor `CCoinsModifier::~CCoinsModifier`, lines 360-368, of the
modifier pointing at `it` (`undefined` when the iterator points at no entry). -/
def CCoinsModifier.release (c : CCoinsViewCache) (it : uint256) : Result CCoinsViewCache :=
  if !c.hasModifier then .abort
  else
    match c.cacheCoins.lookup it with
    | none => .undefined
    | some e =>
      let coins1 := e.coins.Cleanup
      if e.isFresh && coins1.IsSpent then
        .ok { c with hasModifier := false, cacheCoins := c.cacheCoins.erase it }
      else
        .ok { c with hasModifier := false,
                     cacheCoins := c.cacheCoins.insert it { e with coins := coins1 } }

/-! ## Concrete inputs -/

/-- The null outpoint of a coinbase input: null hash and index `(uint32_t) -1`. -/
def COutPoint.nullPoint : COutPoint := { hash := 0, n := 4294967295 }

/-- A concrete environment: a script is unspendable when it starts with
`OP_RETURN` (0x6a), a record holds 40 bytes per output, a map 64 bytes per
entry; a transaction is a coinbase when its one input spends the null
outpoint, and coin-generated when it is a coinbase or a coinstake (first input
not null, at least two outputs, the first of them empty). -/
def sampleEnv : Env :=
  { IsUnspendable := fun script => script.head? == some 106
    IsCoinBase := fun tx => tx.vin == [{ prevout := COutPoint.nullPoint }]
    IsCoinGenerated := fun tx =>
      tx.vin == [{ prevout := COutPoint.nullPoint }] ||
        ((tx.vin.head?.any fun i => i.prevout != COutPoint.nullPoint) &&
          decide (2 ≤ tx.vout.length) &&
          (tx.vout.head?.any fun o => o == { nValue := 0, scriptPubKey := [] }))
    DynamicMemoryUsage := fun coins => 40 * coins.vout.length
    MapUsage := fun m => 64 * m.entries.length
    MAX_OUTPUTS_PER_BLOCK := 111111 }

/-- A coin of value 50 created at height 10. -/
def coin50 : Coin := { out := { nValue := 50, scriptPubKey := [81] }, nHeight := 10, fCoinBase := false }

/-- A coin of value 99 created at height 11. -/
def coin99 : Coin := { out := { nValue := 99, scriptPubKey := [82] }, nHeight := 11, fCoinBase := false }

/-- A coin of value 5 whose script starts with `OP_RETURN`. -/
def coinUnspendable : Coin :=
  { out := { nValue := 5, scriptPubKey := [106, 1] }, nHeight := 10, fCoinBase := false }

/-- A cache holding the record of transaction 7, one unspent output of value 50 at height 10, no flags. -/
def cacheWith7 : CCoinsViewCache :=
  { CCoinsViewCache.new with
    cacheCoins := (∅ : CCoinsMap).insert 7
      { coins := { fCoinBase := false, vout := [coin50.out], nHeight := 10 }, flags := 0 } }

/-- A backend that holds output 0 of transaction 7 as unspent: a cache over the plain view. -/
def liveParent : CCoinsView := .cache cacheWith7 .plain

/-- The merge rule of `batch_write` as the specification words it (§4.4): what
the receiver holds for a key afterwards, given the child's entry `C` and the
receiver's entry `P` for that key (`none` for absent). -/
def mergeRule (C P : Option CCoinsCacheEntry) : Option CCoinsCacheEntry :=
  match C with
  | none => P
  | some C =>
    if !C.isDirty then P
    else
      match P with
      | none =>
        if C.coins.IsSpent then none else some { coins := C.coins, flags := DIRTY ||| FRESH }
      | some P =>
        if P.isFresh && C.coins.IsSpent then none
        else some { coins := C.coins, flags := P.flags ||| DIRTY }

/-- A child map for `batch_write`: key 1 dirty and fresh with a live record,
key 2 dirty and pruned, key 3 not dirty, key 4 dirty with a live record, key 5
dirty and pruned. -/
def sampleChildMap : CCoinsMap :=
  ((((∅ : CCoinsMap).insert 1
      { coins := { fCoinBase := false, vout := [coin50.out], nHeight := 10 }, flags := 3 }).insert 2
      { coins := CCoins.empty, flags := 1 }).insert 3
      { coins := { fCoinBase := false, vout := [coin99.out], nHeight := 11 }, flags := 0 }).insert 4
      { coins := { fCoinBase := false, vout := [coin99.out], nHeight := 11 }, flags := 1 } |>.insert 5
      { coins := CCoins.empty, flags := 1 }

/-- A receiving cache for `batch_write`: key 3 and key 4 hold a live record
without flags, key 5 holds a live record with `FRESH`. -/
def sampleReceiver : CCoinsViewCache :=
  { CCoinsViewCache.new with
    cacheCoins := (((∅ : CCoinsMap).insert 3
      { coins := { fCoinBase := false, vout := [coin50.out], nHeight := 10 }, flags := 0 }).insert 4
      { coins := { fCoinBase := false, vout := [coin50.out], nHeight := 10 }, flags := 0 }).insert 5
      { coins := { fCoinBase := false, vout := [coin50.out], nHeight := 10 }, flags := 2 } }

/-- Every record held in the map has no trailing null output. -/
def CanonicalMap (m : CCoinsMap) : Prop :=
  ∀ k e, m.lookup k = some e → e.coins.Canonical

/-- A cache with a live modifier on transaction 7, whose record was left with a
trailing null output by the holder of the modifier. -/
def cacheModified : CCoinsViewCache :=
  { CCoinsViewCache.new with
    hasModifier := true
    cacheCoins := (∅ : CCoinsMap).insert 7
      { coins := { fCoinBase := false, vout := [coin50.out, CTxOut.null], nHeight := 10 },
        flags := DIRTY } }

/-! ## Sequences of calls on a cache -/

/-- A call on a cache: `AddCoin`, `SpendCoin` or `AccessCoin`. -/
inductive Op where
  | add (outpoint : COutPoint) (coin : Coin) (possible_overwrite : Bool)
  | spend (outpoint : COutPoint)
  | access (outpoint : COutPoint)
deriving DecidableEq

/-- One call on the cache `c` over `base`: the cache and the backend afterwards. -/
def applyOp (E : Env) (c : CCoinsViewCache) (base : CCoinsView) :
    Op → Result (CCoinsViewCache × CCoinsView)
  | .add outpoint coin possible_overwrite =>
    match AddCoin E c outpoint coin possible_overwrite with
    | .ok c1 => .ok (c1, base)
    | .thrown c1 => .thrown (c1, base)
    | .abort => .abort
    | .undefined => .undefined
  | .spend outpoint => .ok (SpendCoin E c base outpoint).2
  | .access outpoint => .ok (AccessCoin c base outpoint).2

/-- A sequence of calls on the cache `c` over `base`, stopped by the first call that does not return. -/
def applyOps (E : Env) : List Op → CCoinsViewCache → CCoinsView →
    Result (CCoinsViewCache × CCoinsView)
  | [], c, base => .ok (c, base)
  | op :: rest, c, base =>
    match applyOp E c base op with
    | .ok r => applyOps E rest r.1 r.2
    | other => other

/-- The top cache of the view `v` has an entry for `txid` in its map. -/
def CCoinsView.holds : CCoinsView → uint256 → Bool
  | .cache p _, txid => (p.cacheCoins.lookup txid).isSome
  | _, _ => false

/-- A call on the cache `c` over `base` is admissible unless it is an
`add_coin` with `possible_overwrite = true` on a txid for which neither the map
of `c` nor the map of its parent cache has an entry. -/
def Op.admissible (c : CCoinsViewCache) (base : CCoinsView) : Op → Bool
  | .add outpoint _ true => (c.cacheCoins.lookup outpoint.hash).isSome || base.holds outpoint.hash
  | _ => true

/-- Every call of the sequence is admissible in the state it is made in. -/
def admissibleRun (E : Env) : List Op → CCoinsViewCache → CCoinsView → Prop
  | [], _, _ => True
  | op :: rest, c, base =>
    op.admissible c base = true ∧
      match applyOp E c base op with
      | .ok r => admissibleRun E rest r.1 r.2
      | _ => True

/-- The `FRESH` flags of the cache `p` are sound for its backend `b`: the
backend holds no unspent output for a key whose entry has `FRESH`. -/
def FreshSound (p : CCoinsViewCache) (b : CCoinsView) : Prop :=
  ∀ k P r, p.cacheCoins.lookup k = some P → P.isFresh = true → (b.GetCoin k).1 = some r →
    r.IsSpent = true

/-- How a child cache `ch` stands to its parent cache `p` over `b` between
calls: the parent has no live modifier and sound `FRESH` flags; it knows every
key whose child entry lacks `FRESH`; it holds the same record as every child
entry that is not dirty; and no dirty pruned child entry has `FRESH`. -/
structure Linked (ch p : CCoinsViewCache) (b : CCoinsView) : Prop where
  nomod : p.hasModifier = false
  sound : FreshSound p b
  known : ∀ k e, ch.cacheCoins.lookup k = some e → e.isFresh = false →
    ∃ P, p.cacheCoins.lookup k = some P
  clean : ∀ k e, ch.cacheCoins.lookup k = some e → e.isDirty = false →
    ∃ P, p.cacheCoins.lookup k = some P ∧ P.coins = e.coins
  pruned : ∀ k e, ch.cacheCoins.lookup k = some e → e.isDirty = true →
    e.coins.IsSpent = true → e.isFresh = false

/-- A parent cache whose entry for transaction 7 carries `FRESH` although the
backend `liveParent` holds output (7,0) as unspent. -/
def staleFreshParent : CCoinsViewCache :=
  { CCoinsViewCache.new with
    cacheCoins := (∅ : CCoinsMap).insert 7
      { coins := { fCoinBase := false, vout := [coin50.out], nHeight := 10 }, flags := FRESH } }

/-- The usage counter recomputed from scratch: the sum of the records' dynamic
memory usage over the entries in the map, as a `size_t`. -/
def recomputedUsage (E : Env) (c : CCoinsViewCache) : Nat :=
  (c.cacheCoins.entries.map (fun it => E.DynamicMemoryUsage it.2.coins)).sum % SIZE_MOD

/-- A sequence of calls: a coin of value 7 added at (3,0), overwritten by a
coin of value 8, `coin50` added at (4,0) and spent again. -/
def sampleOps : List Op :=
  [.add ⟨3, 0⟩ ⟨⟨7, [81]⟩, 5, false⟩ false, .add ⟨3, 0⟩ ⟨⟨8, [81]⟩, 6, false⟩ true,
   .add ⟨4, 0⟩ coin50 false, .spend ⟨4, 0⟩]

/-! ## The mask size of a record -/

/-- The inner loop of `CCoins::CalcMaskSize`, lines 23-28, from bit `i` of byte
`b` on: the flag `fZero` when the loop ends (`none` when the fuel runs out). -/
def CalcMaskSize.inner (vout : List CTxOut) (b : Nat) : Nat → Nat → Bool → Option Bool
  | 0, _, _ => none
  | fuel + 1, i, fZero =>
    if i < 8 ∧ 2 + b * 8 + i < vout.length then
      CalcMaskSize.inner vout b fuel (i + 1)
        (if !(vout.getD (2 + b * 8 + i) CTxOut.null).IsNull then false else fZero)
    else some fZero

/-- The outer loop of `CCoins::CalcMaskSize`, lines 21-33, from byte `b` on:
`nLastUsedByte` and `nNonzeroBytes` when the loop ends (`none` when the fuel
runs out). -/
def CalcMaskSize.outer (vout : List CTxOut) : Nat → Nat → Nat → Nat → Option (Nat × Nat)
  | 0, _, _, _ => none
  | fuel + 1, b, nLastUsedByte, nNonzeroBytes =>
    if 2 + b * 8 < vout.length then
      match CalcMaskSize.inner vout b 9 0 true with
      | none => none
      | some fZero =>
        if !fZero then CalcMaskSize.outer vout fuel (b + 1) (b + 1) (nNonzeroBytes + 1)
        else CalcMaskSize.outer vout fuel (b + 1) nLastUsedByte nNonzeroBytes
    else some (nLastUsedByte, nNonzeroBytes)

/-- The method `CCoins::CalcMaskSize(nBytes, nNonzeroBytes)`, lines 18-35: the
two counters afterwards.  The loops get the fuel `vout.size() + 1` and 9; the
counters are kept as natural numbers (a vector of outputs is far shorter than
`2^32`). -/
def CCoins.CalcMaskSize (c : CCoins) (nBytes nNonzeroBytes : Nat) : Option (Nat × Nat) :=
  match CalcMaskSize.outer c.vout (c.vout.length + 1) 0 0 nNonzeroBytes with
  | none => none
  | some r => some (nBytes + r.1, r.2)

/-- Bit `j` of mask byte `b` stands for output `2 + 8 * b + j`; the byte has a
set bit when one of its eight outputs exists and is not null. -/
def CCoins.maskByteSet (c : CCoins) (b : Nat) : Bool :=
  (List.range 8).any fun j => c.IsAvailable (2 + 8 * b + j)

/-! ## Block-level helpers -/

/-- The function `AddCoins(cache, tx, nHeight)`, lines 180-188, from output `i` on. -/
def AddCoins.loop (E : Env) (tx : CTransaction) (nHeight : Nat) :
    List CTxOut → Nat → CCoinsViewCache → Result CCoinsViewCache
  | [], _, cache => .ok cache
  | out :: rest, i, cache =>
    match AddCoin E cache { hash := tx.hash, n := i }
        { out := out, nHeight := nHeight, fCoinBase := E.IsCoinBase tx } (E.IsCoinBase tx) with
    | .ok c1 => AddCoins.loop E tx nHeight rest (i + 1) c1
    | other => other

/-- The function `AddCoins(cache, tx, nHeight)`, lines 180-188. -/
def AddCoins (E : Env) (cache : CCoinsViewCache) (tx : CTransaction) (nHeight : Nat) :
    Result CCoinsViewCache :=
  AddCoins.loop E tx nHeight tx.vout 0 cache

/-- The loop of `AccessByTxid`, lines 375-379, from `iter.n = n` on: the coin
returned, the cache and its backend afterwards (`none` when the fuel runs out).
The index is an `unsigned int`, so `++iter.n` wraps. -/
def AccessByTxid.scan (E : Env) (txid : uint256) :
    Nat → Nat → CCoinsViewCache → CCoinsView → Option (Coin × CCoinsViewCache × CCoinsView)
  | 0, _, _, _ => none
  | fuel + 1, n, view, base =>
    if n < E.MAX_OUTPUTS_PER_BLOCK then
      if !(AccessCoin view base { hash := txid, n := n }).1.IsSpent then
        some (AccessCoin view base { hash := txid, n := n })
      else
        AccessByTxid.scan E txid fuel ((n + 1) % UINT32_MOD)
          (AccessCoin view base { hash := txid, n := n }).2.1
          (AccessCoin view base { hash := txid, n := n }).2.2
    else some (coinEmpty, view, base)

/-- The function `AccessByTxid(view, txid)`, lines 372-381, with fuel for
`MAX_OUTPUTS_PER_BLOCK` probes and the test that ends the loop. -/
def AccessByTxid (E : Env) (view : CCoinsViewCache) (base : CCoinsView) (txid : uint256) :
    Option (Coin × CCoinsViewCache × CCoinsView) :=
  AccessByTxid.scan E txid (E.MAX_OUTPUTS_PER_BLOCK + 1) 0 view base

/-- The method `CCoinsViewCache::GetOutputFor`, lines 303-308 (`abort` when the `assert` fails). -/
def GetOutputFor (c : CCoinsViewCache) (base : CCoinsView) (input : CTxIn) :
    Result (CTxOut × CCoinsViewCache × CCoinsView) :=
  match (AccessCoins c base input.prevout.hash).1 with
  | none => .abort
  | some coins =>
    if coins.IsAvailable input.prevout.n then
      .ok (coins.vout.getD input.prevout.n CTxOut.null,
        (AccessCoins c base input.prevout.hash).2.1, (AccessCoins c base input.prevout.hash).2.2)
    else .abort

/-- A signed 64-bit result (`CAmount` is `int64_t`): the integer `x` brought
into `[-2^63, 2^63)` modulo `2^64`.  Signed overflow is undefined in the
language; the model takes the two's-complement result the compiled addition and
multiplication give. -/
def wrap64 (x : Int) : Int :=
  (x + 9223372036854775808) % 18446744073709551616 - 9223372036854775808

/-- The loop of `CCoinsViewCache::GetValueIn`, lines 316-317, over the inputs
left; `nResult += ..` is an addition of `CAmount`, a signed 64-bit integer. -/
def GetValueIn.loop :
    List CTxIn → Int → CCoinsViewCache → CCoinsView → Result (Int × CCoinsViewCache × CCoinsView)
  | [], nResult, c, base => .ok (nResult, c, base)
  | input :: rest, nResult, c, base =>
    match GetOutputFor c base input with
    | .ok r => GetValueIn.loop rest (wrap64 (nResult + r.1.nValue)) r.2.1 r.2.2
    | _ => .abort

/-- The method `CCoinsViewCache::GetValueIn`, lines 310-320. -/
def GetValueIn (E : Env) (c : CCoinsViewCache) (base : CCoinsView) (tx : CTransaction) :
    Result (Int × CCoinsViewCache × CCoinsView) :=
  if E.IsCoinBase tx then .ok (0, c, base)
  else GetValueIn.loop tx.vin 0 c base

/-- The loop of `CCoinsViewCache::HaveInputs`, lines 325-331, over the inputs left. -/
def HaveInputs.loop :
    List CTxIn → CCoinsViewCache → CCoinsView → Bool × CCoinsViewCache × CCoinsView
  | [], c, base => (true, c, base)
  | input :: rest, c, base =>
    match (AccessCoins c base input.prevout.hash).1 with
    | none =>
      (false, (AccessCoins c base input.prevout.hash).2.1,
        (AccessCoins c base input.prevout.hash).2.2)
    | some coins =>
      if !coins.IsAvailable input.prevout.n then
        (false, (AccessCoins c base input.prevout.hash).2.1,
          (AccessCoins c base input.prevout.hash).2.2)
      else
        HaveInputs.loop rest (AccessCoins c base input.prevout.hash).2.1
          (AccessCoins c base input.prevout.hash).2.2

/-- The method `CCoinsViewCache::HaveInputs`, lines 322-334. -/
def HaveInputs (E : Env) (c : CCoinsViewCache) (base : CCoinsView) (tx : CTransaction) :
    Bool × CCoinsViewCache × CCoinsView :=
  if !E.IsCoinBase tx then HaveInputs.loop tx.vin c base
  else (true, c, base)

/-- What `CCoinsViewCache::GetPriority` returns: the constant `0.0`, or
`tx.ComputePriority(dResult)` for the age sum `dResult` it hands over (the
integer that the `double` holds). -/
inductive Priority where
  | zero
  | computed (dResult : Int)
deriving DecidableEq, Repr

/-- The number of halvings that bring `n` below 2, i.e. the position of its
highest set bit; `fuel` bounds the halvings (`n` itself is enough). -/
def highBit : Nat → Nat → Nat
  | 0, _ => 0
  | fuel + 1, n => if n < 2 then 0 else highBit fuel (n / 2) + 1

/-- The `double` nearest to the integer `x`, as the integer that `double`
holds: IEEE 754 binary64 has 53 significant bits, so an integer of magnitude up
to `2^53` is kept as it is, and a larger one is rounded to a multiple of
`2^e`, where `e` is its bit length minus 53, to the nearest such multiple with
ties going to the even one.  This is both the conversion of an `int64_t` to
`double` and the rounding of the sum of two integer-valued `double`s.  The
overflow to infinity at `2^1024` is not modelled: no sum of 64-bit products
over the inputs of a transaction comes near it. -/
def roundDouble (x : Int) : Int :=
  if x.natAbs ≤ 9007199254740992 then x
  else
    let e := highBit x.natAbs x.natAbs - 52
    let q := x.natAbs / 2 ^ e
    let r := x.natAbs % 2 ^ e
    let m : Nat :=
      (if 2 ^ (e - 1) < r ∨ (r = 2 ^ (e - 1) ∧ q % 2 = 1) then q + 1 else q) * 2 ^ e
    if x < 0 then -(m : Int) else (m : Int)

/-- The loop of `CCoinsViewCache::GetPriority`, lines 342-350, over the inputs
left: `dResult` and `inChainInputValue` afterwards (`abort` when the `assert`
fails).  The product of line 347 is formed in `int64_t` (a `CAmount` times an
`int`), converted to `double` and added to the `double` `dResult`; line 348 is
an addition of `CAmount`.  Both heights are `int`; with
`0 ≤ coins.nHeight < nHeight` their difference does not overflow. -/
def GetPriority.loop (nHeight : Int) :
    List CTxIn → Int → Int → CCoinsViewCache → CCoinsView →
      Result (Int × Int × CCoinsViewCache × CCoinsView)
  | [], dResult, inChainInputValue, c, base => .ok (dResult, inChainInputValue, c, base)
  | txin :: rest, dResult, inChainInputValue, c, base =>
    match (AccessCoins c base txin.prevout.hash).1 with
    | none => .abort
    | some coins =>
      if !coins.IsAvailable txin.prevout.n then
        GetPriority.loop nHeight rest dResult inChainInputValue
          (AccessCoins c base txin.prevout.hash).2.1 (AccessCoins c base txin.prevout.hash).2.2
      else if (coins.nHeight : Int) < nHeight then
        GetPriority.loop nHeight rest
          (roundDouble (dResult +
            roundDouble (wrap64 ((coins.vout.getD txin.prevout.n CTxOut.null).nValue *
              (nHeight - (coins.nHeight : Int))))))
          (wrap64 (inChainInputValue + (coins.vout.getD txin.prevout.n CTxOut.null).nValue))
          (AccessCoins c base txin.prevout.hash).2.1 (AccessCoins c base txin.prevout.hash).2.2
      else
        GetPriority.loop nHeight rest dResult inChainInputValue
          (AccessCoins c base txin.prevout.hash).2.1 (AccessCoins c base txin.prevout.hash).2.2

/-- The method `CCoinsViewCache::GetPriority`, lines 336-352: the priority
returned and `inChainInputValue`, the cache and its backend afterwards. -/
def GetPriority (E : Env) (c : CCoinsViewCache) (base : CCoinsView) (tx : CTransaction)
    (nHeight : Int) : Result (Priority × Int × CCoinsViewCache × CCoinsView) :=
  if E.IsCoinGenerated tx then .ok (.zero, 0, c, base)
  else
    match GetPriority.loop nHeight tx.vin 0 0 c base with
    | .ok r => .ok (.computed r.1, r.2.1, r.2.2.1, r.2.2.2)
    | _ => .abort

/-- A cache holding the record of transaction 9: output 0 spent, output 1 is
`coin99.out`, height 11, no flags. -/
def cacheWith9 : CCoinsViewCache :=
  { CCoinsViewCache.new with
    cacheCoins := (∅ : CCoinsMap).insert 9
      { coins := { fCoinBase := false, vout := [CTxOut.null, coin99.out], nHeight := 11 },
        flags := 0 } }

/-- A record with eleven outputs of which those at index 0, 3 and 10 are unspent. -/
def sampleRecord : CCoins :=
  { fCoinBase := false
    vout := [coin50.out, CTxOut.null, CTxOut.null, coin50.out, CTxOut.null, CTxOut.null,
      CTxOut.null, CTxOut.null, CTxOut.null, CTxOut.null, coin99.out]
    nHeight := 10 }

/-- What an input's coin adds to `inChainInputValue` at height `nHeight`, in
the words of the specification: its value when it is unspent and older than
`nHeight`, and nothing otherwise. -/
def Coin.inChainValue (coin : Coin) (nHeight : Int) : Int :=
  if !coin.IsSpent && decide ((coin.nHeight : Int) < nHeight) then coin.out.nValue else 0

/-- What an input's coin adds to the age sum at height `nHeight`, in the words
of the specification: `value * (nHeight - coin.height)` when it is unspent and
older than `nHeight`, and nothing otherwise. -/
def Coin.age (coin : Coin) (nHeight : Int) : Int :=
  if !coin.IsSpent && decide ((coin.nHeight : Int) < nHeight) then
    coin.out.nValue * (nHeight - (coin.nHeight : Int))
  else 0

/-- A cache holding the record of transaction 5: one unspent output of value 100 at height 2. -/
def cacheWith5 : CCoinsViewCache :=
  { CCoinsViewCache.new with
    cacheCoins := (∅ : CCoinsMap).insert 5
      { coins := { fCoinBase := false, vout := [{ nValue := 100, scriptPubKey := [81] }],
                   nHeight := 2 },
        flags := 0 } }

/-- A transaction with the one input (5,0). -/
def txSpending5 : CTransaction :=
  { hash := 21, vin := [{ prevout := { hash := 5, n := 0 } }],
    vout := [{ nValue := 90, scriptPubKey := [81] }] }

/-- A transaction with the one input (8,0), a txid no cache of the examples knows. -/
def txSpending8 : CTransaction :=
  { hash := 22, vin := [{ prevout := { hash := 8, n := 0 } }],
    vout := [{ nValue := 1, scriptPubKey := [81] }] }

/-- A cache holding the record of transaction 6 at height 0: two outputs of
value `2^62` and one of value `10^15 + 1`. -/
def cacheWith6 : CCoinsViewCache :=
  { CCoinsViewCache.new with
    cacheCoins := (∅ : CCoinsMap).insert 6
      { coins :=
          { fCoinBase := false
            vout := [{ nValue := 4611686018427387904, scriptPubKey := [81] },
              { nValue := 4611686018427387904, scriptPubKey := [81] },
              { nValue := 1000000000000001, scriptPubKey := [81] }]
            nHeight := 0 },
        flags := 0 } }

/-- A transaction spending (6,0) and (6,1). -/
def txSpending6 : CTransaction :=
  { hash := 25, vin := [{ prevout := { hash := 6, n := 0 } }, { prevout := { hash := 6, n := 1 } }],
    vout := [{ nValue := 1, scriptPubKey := [81] }] }

/-- A transaction spending (6,2). -/
def txSpending6c : CTransaction :=
  { hash := 26, vin := [{ prevout := { hash := 6, n := 2 } }],
    vout := [{ nValue := 1, scriptPubKey := [81] }] }

/-- A coinstake: its first input is (5,0), its first output is empty. -/
def txCoinstake : CTransaction :=
  { hash := 23, vin := [{ prevout := { hash := 5, n := 0 } }],
    vout := [{ nValue := 0, scriptPubKey := [] }, { nValue := 101, scriptPubKey := [81] }] }

/-- A coinbase with one output of value 50. -/
def txCoinbase : CTransaction :=
  { hash := 24, vin := [{ prevout := COutPoint.nullPoint }], vout := [coin50.out] }

/-- The cache `c1` over `b1` answers every `get_coin` as the cache `c` over `b` does. -/
def SameObs (c1 : CCoinsViewCache) (b1 : CCoinsView) (c : CCoinsViewCache) (b : CCoinsView) :
    Prop :=
  ∀ k, (FetchCoin c1 b1 k).1.map CCoinsCacheEntry.coins =
    (FetchCoin c b k).1.map CCoinsCacheEntry.coins

/-! ## Sequences of calls of the whole interface -/

/-- A call on a cache: `GetCoin`, `AccessCoin`, the two overloads of `HaveCoin`,
`AddCoin`, `SpendCoin`, or `ModifyCoins` followed by the holder replacing the
record by `coins` and releasing the modifier. -/
inductive Call where
  | get (txid : uint256)
  | access (outpoint : COutPoint)
  | haveCoin (txid : uint256)
  | haveCoinAt (outpoint : COutPoint)
  | add (outpoint : COutPoint) (coin : Coin) (possible_overwrite : Bool)
  | spend (outpoint : COutPoint)
  | modify (txid : uint256) (coins : CCoins)
deriving DecidableEq

/-- One call on the cache `c` over `base`: the cache and the backend afterwards. -/
def applyCall (E : Env) (c : CCoinsViewCache) (base : CCoinsView) :
    Call → Result (CCoinsViewCache × CCoinsView)
  | .get txid => .ok (GetCoin c base txid).2
  | .access outpoint => .ok (AccessCoin c base outpoint).2
  | .haveCoin txid => .ok (HaveCoin c base txid).2
  | .haveCoinAt outpoint => .ok (HaveCoinAt c base outpoint).2
  | .add outpoint coin possible_overwrite =>
    match AddCoin E c outpoint coin possible_overwrite with
    | .ok c1 => .ok (c1, base)
    | .thrown c1 => .thrown (c1, base)
    | .abort => .abort
    | .undefined => .undefined
  | .spend outpoint => .ok (SpendCoin E c base outpoint).2
  | .modify txid coins =>
    match ModifyCoins c base txid with
    | .ok r =>
      match CCoinsModifier.release (CCoinsModifier.assign r.1 txid coins) txid with
      | .ok c2 => .ok (c2, r.2)
      | .thrown c2 => .thrown (c2, r.2)
      | .abort => .abort
      | .undefined => .undefined
    | other => other

/-- A sequence of calls on the cache `c` over `base`, stopped by the first call that does not return. -/
def applyCalls (E : Env) : List Call → CCoinsViewCache → CCoinsView →
    Result (CCoinsViewCache × CCoinsView)
  | [], c, base => .ok (c, base)
  | call :: rest, c, base =>
    match applyCall E c base call with
    | .ok r => applyCalls E rest r.1 r.2
    | other => other

/-- The view `v` holds `txid` as live: its `GetCoin` finds a record that is not pruned. -/
def CCoinsView.holdsLive (v : CCoinsView) (txid : uint256) : Bool :=
  match (v.GetCoin txid).1 with
  | some r => !r.IsSpent
  | none => false

/-- A call on the cache `c` over `base` is guarded unless it is an `add_coin`
of a spendable coin with `possible_overwrite = false` on a txid for which the
map of `c` has no entry while the parent holds it as live. -/
def Call.guarded (E : Env) (c : CCoinsViewCache) (base : CCoinsView) : Call → Bool
  | .add outpoint coin false =>
    E.IsUnspendable coin.out.scriptPubKey || (c.cacheCoins.lookup outpoint.hash).isSome ||
      !base.holdsLive outpoint.hash
  | _ => true

/-- Every call of the sequence is guarded in the state it is made in. -/
def guardedRun (E : Env) : List Call → CCoinsViewCache → CCoinsView → Bool
  | [], _, _ => true
  | call :: rest, c, base =>
    call.guarded E c base &&
      match applyCall E c base call with
      | .ok r => guardedRun E rest r.1 r.2
      | _ => true

/-- How a cache `c` stands to its parent view `b` between calls, where `b0` is
the parent as it was at the start: the `FRESH` flags of `c` are sound for `b`,
every entry of `c` that is not dirty holds the parent's record, and the parent
answers every `get_coin` as it did at the start. -/
structure Mirrors (c : CCoinsViewCache) (b b0 : CCoinsView) : Prop where
  sound : FreshSound c b
  clean : ∀ k e, c.cacheCoins.lookup k = some e → e.isDirty = false →
    (b.GetCoin k).1 = some e.coins
  same : ∀ k, (b.GetCoin k).1 = (b0.GetCoin k).1

/-- A sequence of calls of every kind: a read of transaction 7 from the parent,
an `add_coin` at (3,0), a `spend_coin` of (7,0), and a `modify_coins` of
transaction 9 that is released with the empty record. -/
def sampleCalls : List Call :=
  [.access ⟨7, 0⟩, .add ⟨3, 0⟩ coin99 false, .get 8, .haveCoin 7, .haveCoinAt ⟨7, 1⟩,
   .spend ⟨7, 0⟩, .modify 9 CCoins.empty, .add ⟨7, 1⟩ coin99 false]

/-! ## Flag bits -/

theorem land_DIRTY_lor_DIRTY (f : Nat) : (f ||| DIRTY) &&& DIRTY = DIRTY := by
  apply Nat.eq_of_testBit_eq
  intro i
  simp only [Nat.testBit_and, Nat.testBit_or]
  cases f.testBit i <;> simp

theorem land_FRESH_lor_DIRTY (f : Nat) : (f ||| DIRTY) &&& FRESH = f &&& FRESH := by
  rw [Nat.and_comm, Nat.and_or_distrib_left, Nat.and_comm f FRESH]
  simp [DIRTY, FRESH]

theorem land_FRESH_lor_FRESH (f : Nat) : (f ||| FRESH) &&& FRESH = FRESH := by
  apply Nat.eq_of_testBit_eq
  intro i
  simp only [Nat.testBit_and, Nat.testBit_or]
  cases f.testBit i <;> simp

theorem isDirty_lor_DIRTY (c : CCoins) (f : Nat) :
    CCoinsCacheEntry.isDirty { coins := c, flags := f ||| DIRTY } = true := by
  simp [CCoinsCacheEntry.isDirty, land_DIRTY_lor_DIRTY, DIRTY]

theorem isFresh_lor_DIRTY (c c1 : CCoins) (f : Nat) :
    CCoinsCacheEntry.isFresh { coins := c, flags := f ||| DIRTY } =
      CCoinsCacheEntry.isFresh { coins := c1, flags := f } := by
  simp [CCoinsCacheEntry.isFresh, land_FRESH_lor_DIRTY]

/-! ## Records -/

theorem null_IsNull : CTxOut.null.IsNull = true := by decide

theorem getD_rdropWhile (l : List CTxOut) (n : Nat) :
    ((l.rdropWhile CTxOut.IsNull).getD n CTxOut.null).IsNull = (l.getD n CTxOut.null).IsNull := by
  induction l using List.reverseRecOn with
  | nil => simp
  | append_singleton l a ih =>
    by_cases ha : a.IsNull = true
    · rw [List.rdropWhile_concat_pos _ _ _ ha, ih]
      simp only [List.getD_eq_getElem?_getD]
      by_cases hn : n < l.length
      · rw [List.getElem?_append_left hn]
      · have hn1 : l.length ≤ n := Nat.le_of_not_lt hn
        rw [List.getElem?_eq_none hn1]
        by_cases hn2 : n = l.length
        · subst hn2
          simp [ha, null_IsNull]
        · rw [List.getElem?_eq_none]
          simp; omega
    · rw [List.rdropWhile_concat_neg _ _ _ ha]

theorem IsAvailable_eq (c : CCoins) (n : Nat) :
    c.IsAvailable n = !(c.vout.getD n CTxOut.null).IsNull := by
  unfold CCoins.IsAvailable
  by_cases hn : n < c.vout.length
  · simp [hn]
  · have : c.vout.getD n CTxOut.null = CTxOut.null :=
      List.getD_eq_default _ _ (Nat.le_of_not_lt hn)
    rw [this]
    simp [hn, null_IsNull]

theorem IsAvailable_Cleanup (c : CCoins) (n : Nat) :
    c.Cleanup.IsAvailable n = c.IsAvailable n := by
  rw [IsAvailable_eq, IsAvailable_eq]
  simp only [CCoins.Cleanup, getD_rdropWhile]

theorem Spend_IsAvailable_self (c : CCoins) (n : Nat) : (c.Spend n).2.IsAvailable n = false := by
  unfold CCoins.Spend
  split
  · rename_i h
    rw [IsAvailable_eq]
    simp only [Bool.or_eq_true, decide_eq_true_eq] at h
    rcases h with h | h
    · rw [List.getD_eq_default _ _ h]; simp [null_IsNull]
    · rw [h]; rfl
  · rw [IsAvailable_Cleanup, IsAvailable_eq]
    rename_i h
    simp only [Bool.or_eq_true, decide_eq_true_eq, not_or, not_le] at h
    simp [List.getD_eq_getElem?_getD, List.getElem?_set, h.1, null_IsNull]

theorem Spend_IsAvailable_ne (c : CCoins) (n m : Nat) (hne : m ≠ n) :
    (c.Spend n).2.IsAvailable m = c.IsAvailable m := by
  unfold CCoins.Spend
  split
  · rfl
  · rw [IsAvailable_Cleanup, IsAvailable_eq, IsAvailable_eq]
    simp [List.getD_eq_getElem?_getD, List.getElem?_set, Ne.symm hne]

/-! ## The read path -/

theorem FetchCoin_hit {c : CCoinsViewCache} {base : CCoinsView} {txid : uint256}
    {e : CCoinsCacheEntry} (h : c.cacheCoins.lookup txid = some e) :
    FetchCoin c base txid = (some e, c, base) := by
  simp [FetchCoin, FetchCoinWith, h]

theorem FetchCoin_miss_none {c : CCoinsViewCache} {base : CCoinsView} {txid : uint256}
    (h : c.cacheCoins.lookup txid = none) (hb : (base.GetCoin txid).1 = none) :
    FetchCoin c base txid = (none, c, (base.GetCoin txid).2) := by
  simp [FetchCoin, FetchCoinWith, h, hb]

theorem FetchCoin_miss_some {c : CCoinsViewCache} {base : CCoinsView} {txid : uint256}
    {tmp : CCoins} (h : c.cacheCoins.lookup txid = none) (hb : (base.GetCoin txid).1 = some tmp) :
    FetchCoin c base txid =
      (some (fetched tmp), { c with cacheCoins := c.cacheCoins.insert txid (fetched tmp) },
        (base.GetCoin txid).2) := by
  simp [FetchCoin, FetchCoinWith, h, hb]

/-! ## The write path -/

theorem AddCoin_ok {E : Env} {c c1 : CCoinsViewCache} {o : COutPoint} {coin : Coin}
    {po : Bool} (h : AddCoin E c o coin po = .ok c1)
    (hsp : E.IsUnspendable coin.out.scriptPubKey = false) :
    coin.out.IsNull = false ∧
    (!po && (AddCoin.it c o.hash).coins.IsAvailable o.n) = false ∧
    o.n < (AddCoin.grow (AddCoin.it c o.hash).coins.vout o.n).length ∧
    c1 = { c with
            cacheCoins := (AddCoin.emplace c o.hash).insert o.hash
              (AddCoin.store (AddCoin.it c o.hash) o.n coin po),
            cachedCoinsUsage := addSize (AddCoin.usage1 E c o.hash)
              (E.DynamicMemoryUsage (AddCoin.store (AddCoin.it c o.hash) o.n coin po).coins) } := by
  unfold AddCoin at h
  by_cases h1 : coin.IsSpent = true
  · rw [if_pos h1] at h; cases h
  rw [if_neg h1, if_neg (by simp [hsp])] at h
  by_cases h3 : (!po && (AddCoin.it c o.hash).coins.IsAvailable o.n) = true
  · rw [if_pos h3] at h; cases h
  rw [if_neg h3] at h
  by_cases h4 : o.n < (AddCoin.grow (AddCoin.it c o.hash).coins.vout o.n).length
  · rw [if_pos h4] at h
    exact ⟨by simpa [Coin.IsSpent] using h1, by simpa using h3, h4, (Result.ok.inj h).symm⟩
  · rw [if_neg h4] at h; cases h

theorem store_getD (it : CCoinsCacheEntry) (n : Nat) (coin : Coin) (po : Bool)
    (hlt : n < (AddCoin.grow it.coins.vout n).length) :
    (AddCoin.store it n coin po).coins.vout.getD n CTxOut.null = coin.out := by
  simp [AddCoin.store, List.getD_eq_getElem?_getD, List.getElem?_set, hlt]

theorem store_IsAvailable (it : CCoinsCacheEntry) (n : Nat) (coin : Coin) (po : Bool)
    (hlt : n < (AddCoin.grow it.coins.vout n).length) (hnn : coin.out.IsNull = false) :
    (AddCoin.store it n coin po).coins.IsAvailable n = true := by
  rw [IsAvailable_eq, store_getD it n coin po hlt, hnn]; rfl

/-! ## C1: spend / add duality -/

/-- C1 as stated fails.  Over a backend that holds output (7,0) as unspent,
`add_coin((7,0), coin99, false)` on an empty cache completes, the following
`spend_coin` hands out `coin99` and drops the entry, and `access_coin((7,0))`
then answers the backend's unspent coin.  And a coin with an unspendable script
is added without failing, yet the following `spend_coin` hands out nothing. -/
theorem spend_add_duality_counterexample :
    (∃ c1, AddCoin sampleEnv CCoinsViewCache.new ⟨7, 0⟩ coin99 false = .ok c1 ∧
      (SpendCoin sampleEnv c1 liveParent ⟨7, 0⟩).1 = some coin99 ∧
      (AccessCoin (SpendCoin sampleEnv c1 liveParent ⟨7, 0⟩).2.1
        (SpendCoin sampleEnv c1 liveParent ⟨7, 0⟩).2.2 ⟨7, 0⟩).1 = coin50 ∧
      coin50.IsSpent = false) ∧
    (coinUnspendable.IsSpent = false ∧
      ∃ c1, AddCoin sampleEnv CCoinsViewCache.new ⟨7, 0⟩ coinUnspendable false = .ok c1 ∧
        (SpendCoin sampleEnv c1 .plain ⟨7, 0⟩).1 = none) :=
  ⟨⟨_, rfl, by decide, by decide, by decide⟩, by decide, _, rfl, by decide⟩

/-- C1 (amended): if the script of `coin` is not unspendable and
`add_coin(o, coin, false)` completes without failing, the following
`spend_coin(o, out)` sets `out` to `coin`; and if moreover the backend does not
hold slot `o.n` of `o.hash` as available, `access_coin(o)` is afterwards the
empty (spent) coin. -/
theorem spend_add_duality (E : Env) (c c1 : CCoinsViewCache) (base : CCoinsView)
    (o : COutPoint) (coin : Coin)
    (hsp : E.IsUnspendable coin.out.scriptPubKey = false)
    (hadd : AddCoin E c o coin false = .ok c1) :
    (SpendCoin E c1 base o).1 = some coin ∧
    ((∀ r, (base.GetCoin o.hash).1 = some r → r.IsAvailable o.n = false) →
      (AccessCoin (SpendCoin E c1 base o).2.1 (SpendCoin E c1 base o).2.2 o).1 = coinEmpty) := by
  obtain ⟨hnn, -, hlt, rfl⟩ := AddCoin_ok hadd hsp
  set it := AddCoin.it c o.hash with hit
  set e1 := AddCoin.store it o.n coin false with he1
  have hfetch : FetchCoin
      { c with
        cacheCoins := (AddCoin.emplace c o.hash).insert o.hash e1,
        cachedCoinsUsage := addSize (AddCoin.usage1 E c o.hash)
          (E.DynamicMemoryUsage e1.coins) } base o.hash = _ :=
    FetchCoin_hit (AList.lookup_insert _)
  have hav := store_IsAvailable it o.n coin false hlt hnn
  have hget := store_getD it o.n coin false hlt
  unfold SpendCoin
  rw [hfetch]
  dsimp only
  refine ⟨?_, ?_⟩
  · simp only [SpendCoin.moveout, ← he1, hav, if_true, hget]
    rfl
  · intro hbase
    unfold SpendCoin.update
    split_ifs with hdrop
    · -- the entry is dropped: the next access asks the backend
      unfold AccessCoin
      have hl : (AList.erase o.hash ((AddCoin.emplace c o.hash).insert o.hash e1)).lookup o.hash
          = none := AList.lookup_erase _ _
      cases hb : (base.GetCoin o.hash).1 with
      | none =>
        rw [FetchCoin_miss_none hl hb]
        rfl
      | some r =>
        rw [FetchCoin_miss_some hl hb]
        simp [AccessCoin.coin, fetched, hbase r hb]
    · unfold AccessCoin
      rw [FetchCoin_hit (AList.lookup_insert _)]
      simp [AccessCoin.coin, Spend_IsAvailable_self]

/-- Witness of `spend_add_duality`: adding `coin50` at (7,0) to an empty cache over the plain view. -/
theorem spend_add_duality_witness :
    ∃ c1, AddCoin sampleEnv CCoinsViewCache.new ⟨7, 0⟩ coin50 false = .ok c1 ∧
      (SpendCoin sampleEnv c1 .plain ⟨7, 0⟩).1 = some coin50 ∧
      (AccessCoin (SpendCoin sampleEnv c1 .plain ⟨7, 0⟩).2.1
        (SpendCoin sampleEnv c1 .plain ⟨7, 0⟩).2.2 ⟨7, 0⟩).1 = coinEmpty :=
  ⟨_, rfl,
    (spend_add_duality sampleEnv CCoinsViewCache.new _ .plain ⟨7, 0⟩ coin50 rfl rfl).1,
    (spend_add_duality sampleEnv CCoinsViewCache.new _ .plain ⟨7, 0⟩ coin50 rfl rfl).2
      (by intro r hr; cases hr)⟩

/-! ## C3: flush and a failing parent -/

/-- C3 as stated fails: over the plain view, whose `batch_write` returns false,
`flush()` returns false and yet empties the map (the entry of transaction 7 is gone). -/
theorem flush_atomic_counterexample :
    CCoinsView.plain.BatchWrite cacheWith7.cacheCoins cacheWith7.hashBlock =
        .ok (false, cacheWith7.cacheCoins, .plain) ∧
      Flush cacheWith7 .plain = .ok (false, { cacheWith7 with cacheCoins := ∅ }, .plain) ∧
      cacheWith7.cacheCoins.lookup 7 ≠ none ∧
      ({ cacheWith7 with cacheCoins := ∅ } : CCoinsViewCache).cacheCoins.lookup 7 = none :=
  ⟨rfl, rfl, by decide, rfl⟩

/-- C3 (amended): whenever the parent's `batch_write` returns (with true or
with false), `flush()` returns the same flag, the local map is empty
afterwards, and the modifier flag and the best block of the cache are what
they were before the call. -/
theorem flush_returns_and_clears (c : CCoinsViewCache) (base : CCoinsView)
    (r : Bool × CCoinsMap × CCoinsView)
    (h : base.BatchWrite c.cacheCoins c.hashBlock = .ok r) :
    ∃ c1, Flush c base = .ok (r.1, c1, r.2.2) ∧ c1.cacheCoins = ∅ ∧ GetCacheSize c1 = 0 ∧
      c1.hasModifier = c.hasModifier ∧ c1.hashBlock = c.hashBlock := by
  refine ⟨{ c with cacheCoins := ∅ }, ?_, rfl, rfl, rfl, rfl⟩
  simp only [Flush, h]

/-- Witness of `flush_returns_and_clears`: the cache holding transaction 7 over the plain view. -/
theorem flush_returns_and_clears_witness :
    ∃ c1, Flush cacheWith7 .plain = .ok (false, c1, .plain) ∧ c1.cacheCoins = ∅ ∧
      GetCacheSize c1 = 0 ∧ c1.hasModifier = cacheWith7.hasModifier ∧
      c1.hashBlock = cacheWith7.hashBlock :=
  flush_returns_and_clears cacheWith7 .plain (false, cacheWith7.cacheCoins, .plain) rfl

/-! ## C5: the merge rules of `batch_write` -/

theorem BatchWriteEntry_spec (m : CCoinsMap) (k0 : uint256) (e0 : CCoinsCacheEntry)
    (hfresh : e0.isDirty = true → m.lookup k0 = none → e0.coins.IsSpent = false →
      e0.isFresh = true) :
    ∃ m1, BatchWriteEntry m k0 e0 = .ok m1 ∧
      m1.lookup k0 = mergeRule (some e0) (m.lookup k0) ∧
      ∀ k, k ≠ k0 → m1.lookup k = m.lookup k := by
  unfold BatchWriteEntry mergeRule
  by_cases hd : e0.isDirty = true
  · simp only [hd, if_true, Bool.not_true, Bool.false_eq_true, if_false]
    cases hP : m.lookup k0 with
    | none =>
      by_cases hs : e0.coins.IsSpent = true
      · simp [hs, hP]
      · have hs1 : e0.coins.IsSpent = false := by simpa using hs
        have hf := hfresh hd hP hs1
        simp only [hs1, hf, Bool.not_false, if_true, Bool.false_eq_true, if_false]
        exact ⟨_, rfl, AList.lookup_insert _, fun k hk => AList.lookup_insert_ne hk⟩
    | some P =>
      dsimp only
      by_cases hc : (P.isFresh && e0.coins.IsSpent) = true
      · simp only [hc, if_true]
        exact ⟨_, rfl, AList.lookup_erase _ _, fun k hk => AList.lookup_erase_ne hk⟩
      · simp only [hc, if_false]
        exact ⟨_, rfl, AList.lookup_insert _, fun k hk => AList.lookup_insert_ne hk⟩
  · have hd1 : e0.isDirty = false := by simpa using hd
    simp [hd1]

theorem BatchWriteLoop_spec (l : List (Sigma fun _ : uint256 => CCoinsCacheEntry))
    (hnd : l.NodupKeys) (m : CCoinsMap)
    (hfresh : ∀ k C, l.dlookup k = some C → C.isDirty = true → m.lookup k = none →
      C.coins.IsSpent = false → C.isFresh = true) :
    ∃ m1, BatchWriteLoop l m = .ok m1 ∧
      ∀ k, m1.lookup k = mergeRule (l.dlookup k) (m.lookup k) := by
  induction l generalizing m with
  | nil => exact ⟨m, rfl, fun k => rfl⟩
  | cons it rest ih =>
    obtain ⟨k0, e0⟩ := it
    rw [List.nodupKeys_cons] at hnd
    have hk0 : rest.dlookup k0 = none := List.dlookup_eq_none.2 hnd.1
    obtain ⟨m1, hm1, hself, hother⟩ := BatchWriteEntry_spec m k0 e0
      (fun hd hP hs => hfresh k0 e0 (List.dlookup_cons_eq _ _ _) hd hP hs)
    have hfresh1 : ∀ k C, rest.dlookup k = some C → C.isDirty = true → m1.lookup k = none →
        C.coins.IsSpent = false → C.isFresh = true := by
      intro k C hC hd hP hs
      have hne : k ≠ k0 := by
        rintro rfl
        rw [hk0] at hC; cases hC
      have hne1 : k0 ≠ k := fun h => hne h.symm
      refine hfresh k C ?_ hd ?_ hs
      · rw [List.dlookup_cons_ne _ _ hne]; exact hC
      · rw [← hother k hne]; exact hP
    obtain ⟨m2, hm2, hall⟩ := ih hnd.2 m1 hfresh1
    refine ⟨m2, ?_, ?_⟩
    · simp only [BatchWriteLoop, hm1, hm2]
    · intro k
      by_cases hk : k = k0
      · subst hk
        rw [hall, hk0, hself, List.dlookup_cons_eq]
        rfl
      · rw [hall, hother k hk, List.dlookup_cons_ne _ _ hk]

theorem BatchWrite_mergeRule (c : CCoinsViewCache) (mapCoins : CCoinsMap)
    (hashBlockIn : uint256) (hmod : c.hasModifier = false)
    (hfresh : ∀ k C, mapCoins.lookup k = some C → C.isDirty = true →
      c.cacheCoins.lookup k = none → C.coins.IsSpent = false → C.isFresh = true) :
    ∃ m, c.BatchWrite mapCoins hashBlockIn =
        .ok (true, ∅, { c with cacheCoins := m, hashBlock := hashBlockIn }) ∧
      ∀ k, m.lookup k = mergeRule (mapCoins.lookup k) (c.cacheCoins.lookup k) := by
  obtain ⟨m, hm, hall⟩ :=
    BatchWriteLoop_spec mapCoins.entries mapCoins.nodupKeys c.cacheCoins hfresh
  exact ⟨m, by simp [CCoinsViewCache.BatchWrite, hmod, hm], hall⟩

/-- C5: `batch_write` on a cache without a live modifier, with a child map
whose dirty, unpruned entries for keys absent from the receiver all have
`FRESH` (the `assert` of the call), returns true, and for every key `k`, with
`C` the child's entry and `P` the receiver's entry before the call: if `C` is
absent or not dirty the receiver's entry is unchanged; if `C` is dirty, `P`
absent and `C` unpruned, the receiver holds `C`'s record with flags exactly
`DIRTY|FRESH`; if `C` is dirty and pruned and `P` is absent, or present with
`FRESH`, the receiver has no entry; in every other dirty case it holds `C`'s
record with flags `P.flags|DIRTY`. -/
theorem BatchWrite_merge_rules (c : CCoinsViewCache) (mapCoins : CCoinsMap)
    (hashBlockIn : uint256) (hmod : c.hasModifier = false)
    (hfresh : ∀ k C, mapCoins.lookup k = some C → C.isDirty = true →
      c.cacheCoins.lookup k = none → C.coins.IsSpent = false → C.isFresh = true) :
    ∃ m, c.BatchWrite mapCoins hashBlockIn =
        .ok (true, ∅, { c with cacheCoins := m, hashBlock := hashBlockIn }) ∧
      ∀ k,
        (mapCoins.lookup k = none → m.lookup k = c.cacheCoins.lookup k) ∧
        ∀ C, mapCoins.lookup k = some C →
          (C.isDirty = false → m.lookup k = c.cacheCoins.lookup k) ∧
          (C.isDirty = true →
            (c.cacheCoins.lookup k = none → C.coins.IsSpent = false →
              m.lookup k = some { coins := C.coins, flags := DIRTY ||| FRESH }) ∧
            (c.cacheCoins.lookup k = none → C.coins.IsSpent = true → m.lookup k = none) ∧
            (∀ P, c.cacheCoins.lookup k = some P → P.isFresh = true →
              C.coins.IsSpent = true → m.lookup k = none) ∧
            (∀ P, c.cacheCoins.lookup k = some P →
              ¬(P.isFresh = true ∧ C.coins.IsSpent = true) →
              m.lookup k = some { coins := C.coins, flags := P.flags ||| DIRTY })) := by
  obtain ⟨m, hm, hall⟩ := BatchWrite_mergeRule c mapCoins hashBlockIn hmod hfresh
  refine ⟨m, hm, fun k => ⟨fun hC => by rw [hall, hC]; rfl, fun C hC => ⟨fun hd => ?_, fun hd =>
    ⟨fun hP hs => ?_, fun hP hs => ?_, fun P hP hf hs => ?_, fun P hP hn => ?_⟩⟩⟩⟩
  · rw [hall, hC]; simp [mergeRule, hd]
  · rw [hall, hC, hP]; simp [mergeRule, hd, hs]
  · rw [hall, hC, hP]; simp [mergeRule, hd, hs]
  · rw [hall, hC, hP]; simp [mergeRule, hd, hs, hf]
  · rw [hall, hC, hP]
    have : (P.isFresh && C.coins.IsSpent) = false := by
      cases h1 : P.isFresh <;> cases h2 : C.coins.IsSpent <;> simp_all
    simp [mergeRule, hd, this]

/-- Witness of `BatchWrite_merge_rules`: the sample child map written into the
sample receiver; afterwards key 1 holds the child's record with flags 3, keys 2
and 5 are absent, key 3 is unchanged and key 4 holds the child's record with
flags `DIRTY`. -/
theorem BatchWrite_merge_rules_witness :
    ∃ m, sampleReceiver.BatchWrite sampleChildMap 9 =
        .ok (true, ∅, { sampleReceiver with cacheCoins := m, hashBlock := 9 }) ∧
      m.lookup 1 = some { coins := { fCoinBase := false, vout := [coin50.out], nHeight := 10 },
                          flags := DIRTY ||| FRESH } ∧
      m.lookup 2 = none ∧ m.lookup 5 = none ∧
      m.lookup 3 = sampleReceiver.cacheCoins.lookup 3 ∧
      m.lookup 4 = some { coins := { fCoinBase := false, vout := [coin99.out], nHeight := 11 },
                          flags := 0 ||| DIRTY } := by
  obtain ⟨m, hm, hall⟩ := BatchWrite_merge_rules sampleReceiver sampleChildMap 9 rfl
    (by
      intro k C hC hd hP hs
      have hk : k = 5 ∨ k = 4 ∨ k = 3 ∨ k = 2 ∨ k = 1 := by
        have : k ∈ sampleChildMap.keys := AList.mem_keys.1 (AList.lookup_isSome.1 (by simp [hC]))
        simpa [sampleChildMap, AList.keys, AList.insert, List.keys] using this
      rcases hk with rfl | rfl | rfl | rfl | rfl
      all_goals
        have hC1 := hC.symm.trans (show sampleChildMap.lookup _ = some _ from rfl)
        cases hC1
        revert hd hP hs
        decide)
  refine ⟨m, hm, ?_, ?_, ?_, ?_, ?_⟩
  · exact ((hall 1).2 _ rfl).2 rfl |>.1 rfl rfl
  · exact ((hall 2).2 _ rfl).2 rfl |>.2.1 rfl rfl
  · exact ((hall 5).2 _ rfl).2 rfl |>.2.2.1 _ rfl rfl rfl
  · exact ((hall 3).2 _ rfl).1 rfl
  · exact ((hall 4).2 _ rfl).2 rfl |>.2.2.2 _ rfl (by decide)

/-! ## C6: `add_coin` read-after-write -/

theorem AddCoin_eq_ok (E : Env) (c : CCoinsViewCache) (o : COutPoint) (coin : Coin) (po : Bool)
    (hns : coin.IsSpent = false) (hsp : E.IsUnspendable coin.out.scriptPubKey = false)
    (hguard : (!po && (AddCoin.it c o.hash).coins.IsAvailable o.n) = false)
    (hlt : o.n < (AddCoin.grow (AddCoin.it c o.hash).coins.vout o.n).length) :
    AddCoin E c o coin po =
      .ok { c with
            cacheCoins := (AddCoin.emplace c o.hash).insert o.hash
              (AddCoin.store (AddCoin.it c o.hash) o.n coin po),
            cachedCoinsUsage := addSize (AddCoin.usage1 E c o.hash)
              (E.DynamicMemoryUsage (AddCoin.store (AddCoin.it c o.hash) o.n coin po).coins) } := by
  unfold AddCoin
  rw [if_neg (by simp [hns]), if_neg (by simp [hsp]), if_neg (by simp [hguard]), if_pos hlt]

theorem AccessCoin_of_lookup {c : CCoinsViewCache} {o : COutPoint} {e : CCoinsCacheEntry}
    (base : CCoinsView) (h : c.cacheCoins.lookup o.hash = some e) :
    (AccessCoin c base o).1 = AccessCoin.coin (some e) o.n := by
  unfold AccessCoin
  rw [FetchCoin_hit h]

theorem coin_store (it : CCoinsCacheEntry) (n : Nat) (coin : Coin) (po : Bool)
    (hlt : n < (AddCoin.grow it.coins.vout n).length) (hnn : coin.out.IsNull = false) :
    AccessCoin.coin (some (AddCoin.store it n coin po)) n = coin := by
  simp only [AccessCoin.coin, store_IsAvailable it n coin po hlt hnn, store_getD it n coin po hlt]
  rfl

theorem AccessCoin_after_AddCoin {E : Env} {c c1 : CCoinsViewCache} {o : COutPoint} {coin : Coin}
    {po : Bool} (base : CCoinsView) (hsp : E.IsUnspendable coin.out.scriptPubKey = false)
    (hadd : AddCoin E c o coin po = .ok c1) : (AccessCoin c1 base o).1 = coin := by
  obtain ⟨hnn, -, hlt, rfl⟩ := AddCoin_ok hadd hsp
  rw [AccessCoin_of_lookup base (AList.lookup_insert _)]
  exact coin_store _ _ _ _ hlt hnn

/-- C6: if `add_coin(o, coin, possible_overwrite)` does not fail, for a coin
whose script is not unspendable, then `access_coin(o)` returns `coin` (its
output, height and coinbase flag) right afterwards; and a second
`add_coin(o, coin2, true)` on the same outpoint succeeds as well, after which
`access_coin(o)` returns `coin2`. -/
theorem add_coin_read_after_write (E : Env) (c c1 : CCoinsViewCache) (base : CCoinsView)
    (o : COutPoint) (coin : Coin) (po : Bool)
    (hsp : E.IsUnspendable coin.out.scriptPubKey = false)
    (hadd : AddCoin E c o coin po = .ok c1) :
    (AccessCoin c1 base o).1 = coin ∧
    ∀ coin2 : Coin, coin2.IsSpent = false → E.IsUnspendable coin2.out.scriptPubKey = false →
      ∃ c2, AddCoin E c1 o coin2 true = .ok c2 ∧ (AccessCoin c2 base o).1 = coin2 := by
  refine ⟨AccessCoin_after_AddCoin base hsp hadd, fun coin2 hns2 hsp2 => ?_⟩
  obtain ⟨-, -, hlt, rfl⟩ := AddCoin_ok hadd hsp
  have hit : AddCoin.it
      { c with
        cacheCoins := (AddCoin.emplace c o.hash).insert o.hash
          (AddCoin.store (AddCoin.it c o.hash) o.n coin po),
        cachedCoinsUsage := addSize (AddCoin.usage1 E c o.hash)
          (E.DynamicMemoryUsage (AddCoin.store (AddCoin.it c o.hash) o.n coin po).coins) } o.hash
      = AddCoin.store (AddCoin.it c o.hash) o.n coin po := by
    simp [AddCoin.it, AList.lookup_insert]
  have hlen : o.n < (AddCoin.store (AddCoin.it c o.hash) o.n coin po).coins.vout.length := by
    simpa [AddCoin.store] using hlt
  have hlt2 : o.n < (AddCoin.grow
      (AddCoin.store (AddCoin.it c o.hash) o.n coin po).coins.vout o.n).length := by
    unfold AddCoin.grow
    rw [if_neg (by omega)]
    exact hlen
  have hok := AddCoin_eq_ok E _ o coin2 true hns2 hsp2 (by simp) (by rw [hit]; exact hlt2)
  exact ⟨_, hok, AccessCoin_after_AddCoin base hsp2 hok⟩

/-- Witness of `add_coin_read_after_write` (scenario c): a coinbase coin of
value 50 at height 1 is added at (2,0) with `possible_overwrite = true`, then a
coinbase coin of value 60 at height 2; the second call succeeds and
`access_coin((2,0))` returns the second coin. -/
theorem add_coin_read_after_write_witness :
    ∃ c1 c2,
      AddCoin sampleEnv CCoinsViewCache.new ⟨2, 0⟩ ⟨⟨50, [81]⟩, 1, true⟩ true = .ok c1 ∧
      (AccessCoin c1 .plain ⟨2, 0⟩).1 = ⟨⟨50, [81]⟩, 1, true⟩ ∧
      AddCoin sampleEnv c1 ⟨2, 0⟩ ⟨⟨60, [81]⟩, 2, true⟩ true = .ok c2 ∧
      (AccessCoin c2 .plain ⟨2, 0⟩).1 = ⟨⟨60, [81]⟩, 2, true⟩ := by
  have h := add_coin_read_after_write sampleEnv CCoinsViewCache.new _ .plain ⟨2, 0⟩
    ⟨⟨50, [81]⟩, 1, true⟩ true rfl rfl
  obtain ⟨c2, h2, h3⟩ := h.2 ⟨⟨60, [81]⟩, 2, true⟩ rfl rfl
  exact ⟨_, c2, rfl, h.1, h2, h3⟩

/-! ## C7: the overwrite guard of `add_coin` -/

theorem it_IsAvailable_iff (c : CCoinsViewCache) (o : COutPoint) :
    (AddCoin.it c o.hash).coins.IsAvailable o.n = true ↔
      ∃ e, c.cacheCoins.lookup o.hash = some e ∧ e.coins.IsAvailable o.n = true := by
  unfold AddCoin.it
  cases h : c.cacheCoins.lookup o.hash with
  | none => simp [CCoinsCacheEntry.empty, CCoins.empty, CCoins.IsAvailable]
  | some e => simp

/-- C7: for an unspent coin whose script is not unspendable,
`add_coin(o, coin, possible_overwrite)` throws the logic error if and only if
`possible_overwrite` is false and slot `o.n` of the cache's entry for `o.hash`
is available; and when it throws, the map of entries is unchanged, so
`access_coin(o)` returns the coin it returned before. -/
theorem add_coin_overwrite_guard (E : Env) (c : CCoinsViewCache) (base : CCoinsView)
    (o : COutPoint) (coin : Coin) (po : Bool) (hns : coin.IsSpent = false)
    (hsp : E.IsUnspendable coin.out.scriptPubKey = false) :
    ((∃ s, AddCoin E c o coin po = .thrown s) ↔
      (po = false ∧ ∃ e, c.cacheCoins.lookup o.hash = some e ∧ e.coins.IsAvailable o.n = true)) ∧
    ∀ s, AddCoin E c o coin po = .thrown s →
      s.cacheCoins = c.cacheCoins ∧ (AccessCoin s base o).1 = (AccessCoin c base o).1 := by
  have key : ∀ s, AddCoin E c o coin po = .thrown s →
      (!po && (AddCoin.it c o.hash).coins.IsAvailable o.n) = true ∧
      s = { c with cacheCoins := AddCoin.emplace c o.hash,
                   cachedCoinsUsage := AddCoin.usage1 E c o.hash } := by
    intro s h
    unfold AddCoin at h
    rw [if_neg (by simp [hns]), if_neg (by simp [hsp])] at h
    by_cases h3 : (!po && (AddCoin.it c o.hash).coins.IsAvailable o.n) = true
    · rw [if_pos h3] at h
      exact ⟨h3, (Result.thrown.inj h).symm⟩
    · rw [if_neg h3] at h
      split_ifs at h
  refine ⟨⟨?_, ?_⟩, ?_⟩
  · rintro ⟨s, h⟩
    obtain ⟨h3, -⟩ := key s h
    simp only [Bool.and_eq_true, Bool.not_eq_true'] at h3
    exact ⟨h3.1, (it_IsAvailable_iff c o).1 h3.2⟩
  · rintro ⟨hpo, he⟩
    have h3 : (!po && (AddCoin.it c o.hash).coins.IsAvailable o.n) = true := by
      simp [hpo, (it_IsAvailable_iff c o).2 he]
    refine ⟨{ c with cacheCoins := AddCoin.emplace c o.hash,
                     cachedCoinsUsage := AddCoin.usage1 E c o.hash }, ?_⟩
    unfold AddCoin
    rw [if_neg (by simp [hns]), if_neg (by simp [hsp]), if_pos h3]
  · intro s h
    obtain ⟨h3, rfl⟩ := key s h
    simp only [Bool.and_eq_true, Bool.not_eq_true'] at h3
    obtain ⟨e, he, -⟩ := (it_IsAvailable_iff c o).1 h3.2
    have hmap : AddCoin.emplace c o.hash = c.cacheCoins := by
      simp [AddCoin.emplace, he]
    refine ⟨hmap, ?_⟩
    rw [AccessCoin_of_lookup base (show _ = some e by simp only [hmap]; exact he),
      AccessCoin_of_lookup base he]

/-- Witness of `add_coin_overwrite_guard` (scenario b): over the cache that
holds (7,0) with value 50, adding a coin of value 99 at (7,0) with
`possible_overwrite = false` throws, and `access_coin((7,0))` still returns the
coin of value 50. -/
theorem add_coin_overwrite_guard_witness :
    ∃ s, AddCoin sampleEnv cacheWith7 ⟨7, 0⟩ coin99 false = .thrown s ∧
      s.cacheCoins = cacheWith7.cacheCoins ∧ (AccessCoin s .plain ⟨7, 0⟩).1 = coin50 := by
  have h := add_coin_overwrite_guard sampleEnv cacheWith7 .plain ⟨7, 0⟩ coin99 false rfl rfl
  obtain ⟨s, hs⟩ := h.1.2 ⟨rfl, _, rfl, rfl⟩
  exact ⟨s, hs, (h.2 s hs).1, (h.2 s hs).2.trans (by decide)⟩

/-! ## C8: `spend_coin` drops or dirties the entry -/

theorem SpendCoin_of_fetch {E : Env} {c c1 : CCoinsViewCache} {base b1 : CCoinsView}
    {o : COutPoint} {it : CCoinsCacheEntry}
    (hf : FetchCoin c base o.hash = (some it, c1, b1)) :
    SpendCoin E c base o = (SpendCoin.moveout it o.n, SpendCoin.update E c1 it o, b1) := by
  unfold SpendCoin
  rw [hf]

theorem SpendCoin_of_fetch_none {E : Env} {c c1 : CCoinsViewCache} {base b1 : CCoinsView}
    {o : COutPoint} (hf : FetchCoin c base o.hash = (none, c1, b1)) :
    SpendCoin E c base o = (none, c1, b1) := by
  unfold SpendCoin
  rw [hf]

theorem update_lookup (E : Env) (c : CCoinsViewCache) (it : CCoinsCacheEntry) (o : COutPoint) :
    (SpendCoin.update E c it o).cacheCoins.lookup o.hash =
      if (it.coins.Spend o.n).2.IsSpent && it.isFresh then none
      else some { coins := (it.coins.Spend o.n).2, flags := it.flags ||| DIRTY } := by
  unfold SpendCoin.update
  split_ifs
  · exact AList.lookup_erase _ _
  · exact AList.lookup_insert _

theorem IsSpent_Cleanup_iff (c : CCoins) : c.Cleanup.IsSpent = c.IsSpent := by
  unfold CCoins.IsSpent CCoins.Cleanup
  dsimp only
  induction c.vout using List.reverseRecOn with
  | nil => simp
  | append_singleton l a ih =>
    by_cases ha : a.IsNull = true
    · rw [List.rdropWhile_concat_pos _ _ _ ha, ih]
      simp [ha]
    · rw [List.rdropWhile_concat_neg _ _ _ ha]

/-- The record `add_coin` leaves at a new key is pruned again once its one output is spent. -/
theorem Spend_store_empty (n : Nat) (coin : Coin) (po : Bool)
    (hlt : n < (AddCoin.grow CCoinsCacheEntry.empty.coins.vout n).length)
    (hnn : coin.out.IsNull = false) :
    ((AddCoin.store CCoinsCacheEntry.empty n coin po).coins.Spend n).2.IsSpent = true := by
  have hav := store_IsAvailable CCoinsCacheEntry.empty n coin po hlt hnn
  unfold CCoins.Spend
  rw [if_neg]
  · rw [IsSpent_Cleanup_iff]
    simp only [CCoins.IsSpent, AddCoin.store, List.set_set]
    rw [List.all_eq_true]
    intro x hx
    rcases List.mem_or_eq_of_mem_set hx with hx | hx
    · have hgrow : AddCoin.grow CCoinsCacheEntry.empty.coins.vout n =
          List.replicate ((n + 1) % UINT32_MOD) CTxOut.null := by
        simp [AddCoin.grow, CCoinsCacheEntry.empty, CCoins.empty, resize]
      rw [hgrow] at hx
      rw [List.eq_of_mem_replicate hx]; exact null_IsNull
    · rw [hx]; exact null_IsNull
  · rw [IsAvailable_eq] at hav
    have hlen : n < (AddCoin.store CCoinsCacheEntry.empty n coin po).coins.vout.length := by
      simpa [AddCoin.store] using hlt
    simp only [Bool.not_eq_true'] at hav
    simp only [hav, Bool.or_false, decide_eq_true_eq]
    omega

/-- C8: when `spend_coin(o)` finds an entry `it` for `o.hash` (after fetching),
the map afterwards has no entry for `o.hash` exactly when the record left by
`Spend(o.n)` (slot nulled, trailing nulls trimmed) is pruned and `it` had
`FRESH`; otherwise the entry remains, holds that record, has `DIRTY` set and
its `FRESH` bit unchanged.  And over an empty cache whose backend does not know
`T`, `add_coin((T,n), coin, false)` followed by `spend_coin((T,n))` leaves
`cache_size() == 0`. -/
theorem spend_coin_drop_or_dirty (E : Env) :
    (∀ (c c1 : CCoinsViewCache) (base b1 : CCoinsView) (o : COutPoint) (it : CCoinsCacheEntry),
      FetchCoin c base o.hash = (some it, c1, b1) →
      ((SpendCoin E c base o).2.1.cacheCoins.lookup o.hash = none ↔
        ((it.coins.Spend o.n).2.IsSpent = true ∧ it.isFresh = true)) ∧
      (¬((it.coins.Spend o.n).2.IsSpent = true ∧ it.isFresh = true) →
        ∃ e, (SpendCoin E c base o).2.1.cacheCoins.lookup o.hash = some e ∧
          e.coins = (it.coins.Spend o.n).2 ∧ e.isDirty = true ∧ e.isFresh = it.isFresh)) ∧
    (∀ (base : CCoinsView) (T : uint256) (n : Nat) (coin : Coin) (c1 : CCoinsViewCache),
      (base.GetCoin T).1 = none →
      AddCoin E CCoinsViewCache.new ⟨T, n⟩ coin false = .ok c1 →
      GetCacheSize (SpendCoin E c1 base ⟨T, n⟩).2.1 = 0) := by
  refine ⟨fun c c1 base b1 o it hf => ?_, fun base T n coin c1 hbase hadd => ?_⟩
  · rw [SpendCoin_of_fetch hf]
    dsimp only
    rw [update_lookup]
    by_cases hdrop : ((it.coins.Spend o.n).2.IsSpent && it.isFresh) = true
    · have hd := hdrop
      simp only [Bool.and_eq_true] at hd
      simp [hdrop, hd]
    · have hd := hdrop
      simp only [Bool.and_eq_true] at hd
      rw [if_neg hdrop]
      refine ⟨by simp [hd], fun _ => ⟨_, rfl, rfl, isDirty_lor_DIRTY _ _, ?_⟩⟩
      exact isFresh_lor_DIRTY _ it.coins _
  · by_cases hsp : E.IsUnspendable coin.out.scriptPubKey = true
    · -- nothing was cached, and the backend has nothing to fetch
      have hc1 : c1 = CCoinsViewCache.new := by
        unfold AddCoin at hadd
        by_cases h1 : coin.IsSpent = true
        · rw [if_pos h1] at hadd; cases hadd
        · rw [if_neg h1, if_pos hsp] at hadd
          exact (Result.ok.inj hadd).symm
      subst hc1
      rw [SpendCoin_of_fetch_none
        (FetchCoin_miss_none (show CCoinsViewCache.new.cacheCoins.lookup T = none from rfl) hbase)]
      rfl
    · have hsp1 : E.IsUnspendable coin.out.scriptPubKey = false := by simpa using hsp
      obtain ⟨hnn, -, hlt, rfl⟩ := AddCoin_ok hadd hsp1
      have hit : AddCoin.it CCoinsViewCache.new T = CCoinsCacheEntry.empty := rfl
      rw [SpendCoin_of_fetch (FetchCoin_hit (AList.lookup_insert _))]
      dsimp only at hlt ⊢
      rw [hit] at hlt ⊢
      have hspent := Spend_store_empty n coin false hlt hnn
      have hfresh : (AddCoin.store CCoinsCacheEntry.empty n coin false).isFresh = true := by
        simp [AddCoin.store, AddCoin.fresh, CCoinsCacheEntry.isFresh, CCoinsCacheEntry.isDirty,
          CCoinsCacheEntry.empty, CCoins.empty, CCoins.IsSpent, DIRTY, FRESH]
      unfold SpendCoin.update
      rw [if_pos (by simp [hspent, hfresh])]
      simp [GetCacheSize, AddCoin.emplace, CCoinsViewCache.new, AList.erase, AList.singleton]

/-- Witness of `spend_coin_drop_or_dirty` (scenario a): `coin50` added at (1,0)
to an empty cache over the plain view and spent again leaves an empty cache;
and spending (7,0) in the cache that holds transaction 7 without `FRESH` keeps
the entry, pruned and dirty. -/
theorem spend_coin_drop_or_dirty_witness :
    (∃ c1, AddCoin sampleEnv CCoinsViewCache.new ⟨1, 0⟩ coin50 false = .ok c1 ∧
      (AccessCoin c1 .plain ⟨1, 0⟩).1.out.nValue = 50 ∧
      GetCacheSize (SpendCoin sampleEnv c1 .plain ⟨1, 0⟩).2.1 = 0) ∧
    (∃ e, (SpendCoin sampleEnv cacheWith7 .plain ⟨7, 0⟩).2.1.cacheCoins.lookup 7 = some e ∧
      e.coins.vout = [] ∧ e.isDirty = true ∧ e.isFresh = false) := by
  refine ⟨⟨_, rfl, by decide,
    (spend_coin_drop_or_dirty sampleEnv).2 .plain 1 0 coin50 _ rfl rfl⟩, ?_⟩
  obtain ⟨e, he, hrec, hd, hf⟩ :=
    ((spend_coin_drop_or_dirty sampleEnv).1 cacheWith7 cacheWith7 .plain .plain ⟨7, 0⟩
      { coins := { fCoinBase := false, vout := [coin50.out], nHeight := 10 }, flags := 0 }
      rfl).2 (by decide)
  exact ⟨e, he, by rw [hrec]; decide, hd, by rw [hf]; decide⟩

/-! ## C9: no trailing null outputs -/

theorem Cleanup_Canonical (c : CCoins) : c.Cleanup.Canonical := by
  intro o ho
  have hne : c.Cleanup.vout ≠ [] := by
    intro h; rw [h] at ho; cases ho
  rw [List.getLast?_eq_getLast _ hne] at ho
  have h := List.rdropWhile_last_not CTxOut.IsNull c.vout hne
  cases ho
  simpa using h

theorem Spend_Canonical (c : CCoins) (n : Nat) (h : c.Canonical) : (c.Spend n).2.Canonical := by
  unfold CCoins.Spend
  split
  · exact h
  · exact Cleanup_Canonical _

theorem store_Canonical (it : CCoinsCacheEntry) (n : Nat) (coin : Coin) (po : Bool)
    (h : it.coins.Canonical) (hnn : coin.out.IsNull = false)
    (hlt : n < (AddCoin.grow it.coins.vout n).length) :
    (AddCoin.store it n coin po).coins.Canonical := by
  intro o ho
  simp only [AddCoin.store] at ho
  rw [List.getLast?_eq_getElem?, List.getElem?_set, List.length_set] at ho
  by_cases hlast : n = (AddCoin.grow it.coins.vout n).length - 1
  · rw [if_pos hlast, if_pos hlt] at ho
    cases ho; exact hnn
  · rw [if_neg hlast] at ho
    unfold AddCoin.grow at ho hlast hlt
    by_cases hle : it.coins.vout.length ≤ n
    · exfalso
      rw [if_pos hle] at hlast hlt
      have hmod : (n + 1) % UINT32_MOD ≤ n + 1 := Nat.mod_le _ _
      simp only [resize, List.length_append, List.length_take, List.length_replicate] at hlast hlt
      omega
    · rw [if_neg hle] at ho
      exact h o (by rw [List.getLast?_eq_getElem?]; exact ho)

theorem CanonicalMap_insert {m : CCoinsMap} {k : uint256} {e : CCoinsCacheEntry}
    (hm : CanonicalMap m) (he : e.coins.Canonical) : CanonicalMap (m.insert k e) := by
  intro k1 e1 h1
  by_cases hk : k1 = k
  · subst hk
    rw [AList.lookup_insert] at h1
    cases h1; exact he
  · rw [AList.lookup_insert_ne hk] at h1
    exact hm k1 e1 h1

theorem CanonicalMap_erase {m : CCoinsMap} {k : uint256}
    (hm : CanonicalMap m) : CanonicalMap (m.erase k) := by
  intro k1 e1 h1
  by_cases hk : k1 = k
  · subst hk
    rw [AList.lookup_erase] at h1
    cases h1
  · rw [AList.lookup_erase_ne hk] at h1
    exact hm k1 e1 h1

theorem FetchCoin_Canonical {c : CCoinsViewCache} {base : CCoinsView}
    (hc : CanonicalMap c.cacheCoins)
    (hb : ∀ k r, (base.GetCoin k).1 = some r → r.Canonical) (txid : uint256) :
    CanonicalMap (FetchCoin c base txid).2.1.cacheCoins ∧
      ∀ e, (FetchCoin c base txid).1 = some e → e.coins.Canonical := by
  cases hl : c.cacheCoins.lookup txid with
  | some e =>
    rw [FetchCoin_hit hl]
    exact ⟨hc, fun e1 he1 => by cases he1; exact hc _ _ hl⟩
  | none =>
    cases hg : (base.GetCoin txid).1 with
    | none =>
      rw [FetchCoin_miss_none hl hg]
      exact ⟨hc, fun e1 he1 => by cases he1⟩
    | some tmp =>
      rw [FetchCoin_miss_some hl hg]
      exact ⟨CanonicalMap_insert hc (hb _ _ hg), fun e1 he1 => by cases he1; exact hb _ _ hg⟩

theorem BatchWriteEntry_cases {m m1 : CCoinsMap} {k : uint256} {it : CCoinsCacheEntry}
    (h : BatchWriteEntry m k it = .ok m1) :
    m1 = m ∨ m1 = m.erase k ∨ ∃ f, m1 = m.insert k { coins := it.coins, flags := f } := by
  unfold BatchWriteEntry at h
  cases hd : it.isDirty <;> cases hs : it.coins.IsSpent <;> cases hf : it.isFresh <;>
    cases hl : m.lookup k <;> simp only [hd, hs, hf, hl, Bool.false_eq_true, if_false, if_true,
      Bool.not_true, Bool.not_false, Bool.and_false, Bool.and_true] at h
  all_goals first
    | exact Or.inl (Result.ok.inj h).symm
    | exact Or.inr (Or.inr ⟨_, (Result.ok.inj h).symm⟩)
    | (split_ifs at h
       · exact Or.inr (Or.inl (Result.ok.inj h).symm)
       · exact Or.inr (Or.inr ⟨_, (Result.ok.inj h).symm⟩))
    | cases h

theorem BatchWriteEntry_Canonical {m m1 : CCoinsMap} {k : uint256} {it : CCoinsCacheEntry}
    (hm : CanonicalMap m) (hit : it.coins.Canonical) (h : BatchWriteEntry m k it = .ok m1) :
    CanonicalMap m1 := by
  rcases BatchWriteEntry_cases h with rfl | rfl | ⟨f, rfl⟩
  · exact hm
  · exact CanonicalMap_erase hm
  · exact CanonicalMap_insert hm hit

theorem BatchWriteLoop_Canonical (l : List (Sigma fun _ : uint256 => CCoinsCacheEntry))
    (hl : ∀ it ∈ l, it.2.coins.Canonical) (m m1 : CCoinsMap) (hm : CanonicalMap m)
    (h : BatchWriteLoop l m = .ok m1) : CanonicalMap m1 := by
  induction l generalizing m with
  | nil =>
    simp only [BatchWriteLoop] at h
    cases h; exact hm
  | cons it rest ih =>
    simp only [BatchWriteLoop] at h
    cases he : BatchWriteEntry m it.1 it.2 with
    | ok m2 =>
      rw [he] at h
      exact ih (fun x hx => hl x (List.mem_cons_of_mem _ hx)) m2
        (BatchWriteEntry_Canonical hm (hl it (List.mem_cons_self _ _)) he) h
    | thrown a => rw [he] at h; cases h
    | abort => rw [he] at h; cases h
    | undefined => rw [he] at h; cases h

/-- C9: when every record in the cache's map and every record the backend's
`get_coin` returns has no trailing null output, then after a fetch
(`get_coin`, `access_coin`), an `add_coin` that does not fail, a `spend_coin`
and a `batch_write` of a child map whose records have no trailing nulls, every
record in the map again has none; and after the release of a modifier every
record has none, even when the record the modifier points at had some. -/
theorem cleanup_is_canonical (E : Env) (c : CCoinsViewCache) (base : CCoinsView)
    (hb : ∀ k r, (base.GetCoin k).1 = some r → r.Canonical) :
    (CanonicalMap c.cacheCoins →
      (∀ txid, CanonicalMap (FetchCoin c base txid).2.1.cacheCoins) ∧
      (∀ txid, CanonicalMap (GetCoin c base txid).2.1.cacheCoins) ∧
      (∀ o, CanonicalMap (AccessCoin c base o).2.1.cacheCoins) ∧
      (∀ o coin po c1, AddCoin E c o coin po = .ok c1 → CanonicalMap c1.cacheCoins) ∧
      (∀ o, CanonicalMap (SpendCoin E c base o).2.1.cacheCoins) ∧
      (∀ mapCoins hashBlockIn r, CanonicalMap mapCoins →
        c.BatchWrite mapCoins hashBlockIn = .ok r → CanonicalMap r.2.2.cacheCoins)) ∧
    (∀ it c1, (∀ k e, k ≠ it → c.cacheCoins.lookup k = some e → e.coins.Canonical) →
      CCoinsModifier.release c it = .ok c1 → CanonicalMap c1.cacheCoins) := by
  refine ⟨fun hc => ⟨fun txid => (FetchCoin_Canonical hc hb txid).1, fun txid => ?_,
    fun o => (FetchCoin_Canonical hc hb o.hash).1, fun o coin po c1 hadd => ?_, fun o => ?_,
    fun mapCoins hashBlockIn r hmap h => ?_⟩, fun it c1 hothers h => ?_⟩
  · -- get_coin leaves the state of its fetch
    have h := (FetchCoin_Canonical hc hb txid).1
    unfold GetCoin
    split <;> rename_i heq <;> rw [heq] at h <;> exact h
  · -- add_coin
    by_cases hsp : E.IsUnspendable coin.out.scriptPubKey = true
    · unfold AddCoin at hadd
      by_cases h1 : coin.IsSpent = true
      · rw [if_pos h1] at hadd; cases hadd
      · rw [if_neg h1, if_pos hsp] at hadd
        cases hadd; exact hc
    · have hsp1 : E.IsUnspendable coin.out.scriptPubKey = false := by simpa using hsp
      obtain ⟨hnn, -, hlt, rfl⟩ := AddCoin_ok hadd hsp1
      have hit : (AddCoin.it c o.hash).coins.Canonical := by
        unfold AddCoin.it
        cases hl : c.cacheCoins.lookup o.hash with
        | none => intro x hx; cases hx
        | some e => exact hc _ _ hl
      have hem : CanonicalMap (AddCoin.emplace c o.hash) := by
        unfold AddCoin.emplace
        split_ifs
        · exact CanonicalMap_insert hc (by intro x hx; cases hx)
        · exact hc
      exact CanonicalMap_insert hem (store_Canonical _ _ _ _ hit hnn hlt)
  · -- spend_coin
    obtain ⟨h1, h2⟩ := FetchCoin_Canonical hc hb o.hash
    unfold SpendCoin
    split <;> rename_i heq <;> rw [heq] at h1 h2
    · exact h1
    · dsimp only at h1 h2 ⊢
      unfold SpendCoin.update
      split_ifs
      · exact CanonicalMap_erase h1
      · exact CanonicalMap_insert h1 (Spend_Canonical _ _ (h2 _ rfl))
  · -- batch_write
    unfold CCoinsViewCache.BatchWrite at h
    split_ifs at h
    cases hloop : BatchWriteLoop mapCoins.entries c.cacheCoins with
    | ok m =>
      rw [hloop] at h
      cases h
      refine BatchWriteLoop_Canonical mapCoins.entries (fun it hit => ?_) _ m hc hloop
      obtain ⟨k, e⟩ := it
      exact hmap k e (AList.mem_lookup_iff.2 hit)
    | thrown a => rw [hloop] at h; cases h
    | abort => rw [hloop] at h; cases h
    | undefined => rw [hloop] at h; cases h
  · -- release of the modifier
    unfold CCoinsModifier.release at h
    split_ifs at h
    cases hl : c.cacheCoins.lookup it with
    | none => rw [hl] at h; cases h
    | some e =>
      rw [hl] at h
      dsimp only at h
      intro k e1 h1
      split_ifs at h
      · cases h
        by_cases hk : k = it
        · subst hk; rw [AList.lookup_erase] at h1; cases h1
        · rw [AList.lookup_erase_ne hk] at h1; exact hothers k e1 hk h1
      · cases h
        by_cases hk : k = it
        · subst hk
          rw [AList.lookup_insert] at h1
          cases h1
          exact Cleanup_Canonical _
        · rw [AList.lookup_insert_ne hk] at h1; exact hothers k e1 hk h1

theorem CanonicalMap_empty : CanonicalMap (∅ : CCoinsMap) := by
  intro k e h
  cases h

theorem liveParent_Canonical (k : uint256) (r : CCoins)
    (h : (liveParent.GetCoin k).1 = some r) : r.Canonical := by
  by_cases hk : k = 7
  · subst hk
    have h7 : (liveParent.GetCoin 7).1 =
        some { fCoinBase := false, vout := [coin50.out], nHeight := 10 } := rfl
    rw [h7] at h
    cases h
    decide
  · have hl : cacheWith7.cacheCoins.lookup k = none := by
      rw [show cacheWith7.cacheCoins = (∅ : CCoinsMap).insert 7 _ from rfl,
        AList.lookup_insert_ne hk]
      rfl
    have hn : (liveParent.GetCoin k).1 = none := by
      simp [liveParent, CCoinsView.GetCoin, FetchCoinWith, hl]
    rw [hn] at h
    cases h

/-- Witness of `cleanup_is_canonical`: spending (7,0) in an empty cache over
the backend that holds transaction 7 fetches the record and leaves it pruned
and canonical; and releasing the modifier of a record that ends in a null
output trims it. -/
theorem cleanup_is_canonical_witness :
    (CanonicalMap (SpendCoin sampleEnv CCoinsViewCache.new liveParent ⟨7, 0⟩).2.1.cacheCoins ∧
      (SpendCoin sampleEnv CCoinsViewCache.new liveParent ⟨7, 0⟩).2.1.cacheCoins.lookup 7 =
        some { coins := { fCoinBase := false, vout := [], nHeight := 10 }, flags := DIRTY }) ∧
    ∃ c1, CCoinsModifier.release cacheModified 7 = .ok c1 ∧ CanonicalMap c1.cacheCoins ∧
      c1.cacheCoins.lookup 7 =
        some { coins := { fCoinBase := false, vout := [coin50.out], nHeight := 10 },
               flags := DIRTY } :=
  ⟨⟨((cleanup_is_canonical sampleEnv CCoinsViewCache.new liveParent liveParent_Canonical).1
      CanonicalMap_empty).2.2.2.2.1 ⟨7, 0⟩, rfl⟩,
    _, rfl,
    (cleanup_is_canonical sampleEnv cacheModified .plain (by intro k r h; cases h)).2 7 _
      (by
        intro k e hk h
        rw [show cacheModified.cacheCoins = (∅ : CCoinsMap).insert 7 _ from rfl,
          AList.lookup_insert_ne hk] at h
        cases h) rfl,
    rfl⟩

/-! ## C10: fetch idempotence -/

theorem FetchCoinWith_hit {β : Type} (c : CCoinsViewCache) (txid : uint256) (b : β)
    (r : Option CCoins × β) {e : CCoinsCacheEntry} (h : c.cacheCoins.lookup txid = some e) :
    FetchCoinWith c txid b r = (some e, c, b) := by
  simp [FetchCoinWith, h]

/-- Asking any view twice for the same txid gives the same answer and leaves
the view as the first call left it. -/
theorem View_GetCoin_idem (v : CCoinsView) (txid : uint256) :
    (v.GetCoin txid).2.GetCoin txid = v.GetCoin txid := by
  induction v with
  | plain => rfl
  | backedNull => rfl
  | backed base ih =>
    simp only [CCoinsView.GetCoin, ih]
  | cache c base ih =>
    simp only [CCoinsView.GetCoin]
    cases hl : c.cacheCoins.lookup txid with
    | some e =>
      rw [FetchCoinWith_hit c txid base _ hl]
      simp only [FetchCoinWith_hit c txid base _ hl]
    | none =>
      cases hg : (base.GetCoin txid).1 with
      | none =>
        have h1 : FetchCoinWith c txid base (base.GetCoin txid) =
            (none, c, (base.GetCoin txid).2) := by
          simp [FetchCoinWith, hl, hg]
        rw [h1]
        dsimp only
        rw [ih]
        simp [FetchCoinWith, hl, hg]
      | some tmp =>
        have h1 : FetchCoinWith c txid base (base.GetCoin txid) =
            (some (fetched tmp), { c with cacheCoins := c.cacheCoins.insert txid (fetched tmp) },
              (base.GetCoin txid).2) := by
          simp [FetchCoinWith, hl, hg]
        rw [h1]
        dsimp only
        rw [FetchCoinWith_hit _ txid _ _ (AList.lookup_insert _)]

theorem FetchCoin_idem (c : CCoinsViewCache) (base : CCoinsView) (txid : uint256) :
    FetchCoin (FetchCoin c base txid).2.1 (FetchCoin c base txid).2.2 txid =
      FetchCoin c base txid := by
  cases hl : c.cacheCoins.lookup txid with
  | some e =>
    rw [FetchCoin_hit hl]
    exact FetchCoin_hit hl
  | none =>
    cases hg : (base.GetCoin txid).1 with
    | none =>
      rw [FetchCoin_miss_none hl hg]
      dsimp only
      have hg2 : ((base.GetCoin txid).2.GetCoin txid).1 = none := by
        rw [View_GetCoin_idem]; exact hg
      rw [FetchCoin_miss_none hl hg2, View_GetCoin_idem]
    | some tmp =>
      rw [FetchCoin_miss_some hl hg]
      exact FetchCoin_hit (AList.lookup_insert _)

/-- C10: `get_coin(x)` called twice in succession returns the same found/absent
answer and the same record both times, and the second call leaves the cache
(map of entries, flags, usage counter and so its memory usage) and its backend
exactly as the first call left them. -/
theorem fetch_idempotence (E : Env) (c : CCoinsViewCache) (base : CCoinsView) (x : uint256) :
    (GetCoin (GetCoin c base x).2.1 (GetCoin c base x).2.2 x).1 = (GetCoin c base x).1 ∧
    (GetCoin (GetCoin c base x).2.1 (GetCoin c base x).2.2 x).2.1 = (GetCoin c base x).2.1 ∧
    (GetCoin (GetCoin c base x).2.1 (GetCoin c base x).2.2 x).2.2 = (GetCoin c base x).2.2 ∧
    DynamicMemoryUsage E (GetCoin (GetCoin c base x).2.1 (GetCoin c base x).2.2 x).2.1 =
      DynamicMemoryUsage E (GetCoin c base x).2.1 := by
  have hstate : ∀ (c0 : CCoinsViewCache) (b0 : CCoinsView),
      (GetCoin c0 b0 x).2 = (FetchCoin c0 b0 x).2 ∧
      (GetCoin c0 b0 x).1 = (FetchCoin c0 b0 x).1.map CCoinsCacheEntry.coins := by
    intro c0 b0
    unfold GetCoin
    split <;> rename_i heq <;> rw [heq] <;> exact ⟨rfl, rfl⟩
  have h2 : GetCoin (GetCoin c base x).2.1 (GetCoin c base x).2.2 x = GetCoin c base x := by
    have hs := (hstate c base).1
    have hfst : (GetCoin c base x).2.1 = (FetchCoin c base x).2.1 := by rw [hs]
    have hsnd : (GetCoin c base x).2.2 = (FetchCoin c base x).2.2 := by rw [hs]
    rw [hfst, hsnd]
    apply Prod.ext
    · rw [(hstate _ _).2, (hstate c base).2, FetchCoin_idem]
    · rw [(hstate _ _).1, (hstate c base).1, FetchCoin_idem]
  rw [h2]
  exact ⟨rfl, rfl, rfl, rfl⟩

/-! ## C2: flush composes -/

theorem FetchCoinWith_fst {β γ : Type} (c c1 : CCoinsViewCache) (txid : uint256) (b : β) (b1 : γ)
    (r : Option CCoins × β) (r1 : Option CCoins × γ)
    (hc : c.cacheCoins.lookup txid = c1.cacheCoins.lookup txid) (h : r.1 = r1.1) :
    (FetchCoinWith c txid b r).1 = (FetchCoinWith c1 txid b1 r1).1 := by
  unfold FetchCoinWith
  rw [hc]
  cases c1.cacheCoins.lookup txid with
  | some e => rfl
  | none =>
    dsimp only
    rw [h]
    cases r1.1 <;> rfl

/-- Asking a view for one txid does not change what it answers for any txid. -/
theorem View_GetCoin_stable (v : CCoinsView) (k k1 : uint256) :
    ((v.GetCoin k).2.GetCoin k1).1 = (v.GetCoin k1).1 := by
  induction v with
  | plain => rfl
  | backedNull => rfl
  | backed base ih => simp only [CCoinsView.GetCoin, ih]
  | cache c base ih =>
    simp only [CCoinsView.GetCoin]
    congr 1
    cases hl : c.cacheCoins.lookup k with
    | some e =>
      rw [FetchCoinWith_hit c k base _ hl]
    | none =>
      cases hg : (base.GetCoin k).1 with
      | none =>
        have h1 : FetchCoinWith c k base (base.GetCoin k) = (none, c, (base.GetCoin k).2) := by
          simp [FetchCoinWith, hl, hg]
        rw [h1]
        exact FetchCoinWith_fst c c k1 _ _ _ _ rfl ih
      | some tmp =>
        have h1 : FetchCoinWith c k base (base.GetCoin k) =
            (some (fetched tmp), { c with cacheCoins := c.cacheCoins.insert k (fetched tmp) },
              (base.GetCoin k).2) := by
          simp [FetchCoinWith, hl, hg]
        rw [h1]
        dsimp only
        by_cases hk : k1 = k
        · subst hk
          rw [FetchCoinWith_hit _ k1 _ _ (AList.lookup_insert _)]
          simp [FetchCoinWith, hl, hg]
        · exact FetchCoinWith_fst _ c k1 _ _ _ _ (AList.lookup_insert_ne hk) ih

/-- What `FetchCoin` does to a cache `p` over `b`, in terms of lookups. -/
theorem FetchCoin_effect (p : CCoinsViewCache) (b : CCoinsView) (k : uint256) :
    (FetchCoin p b k).2.1.hasModifier = p.hasModifier ∧
    (∀ k1, ((FetchCoin p b k).2.2.GetCoin k1).1 = (b.GetCoin k1).1) ∧
    (FetchCoin p b k).2.1.cacheCoins.lookup k = (FetchCoin p b k).1 ∧
    (∀ k1, k1 ≠ k → (FetchCoin p b k).2.1.cacheCoins.lookup k1 = p.cacheCoins.lookup k1) ∧
    (∀ e, p.cacheCoins.lookup k = some e → (FetchCoin p b k).1 = some e) ∧
    (p.cacheCoins.lookup k = none →
      (FetchCoin p b k).1 = ((b.GetCoin k).1).map fetched) := by
  cases hl : p.cacheCoins.lookup k with
  | some e =>
    rw [FetchCoin_hit hl]
    exact ⟨rfl, fun _ => rfl, hl, fun _ _ => rfl, fun e1 h1 => (by rw [h1]), fun h => (by cases h)⟩
  | none =>
    cases hg : (b.GetCoin k).1 with
    | none =>
      rw [FetchCoin_miss_none hl hg]
      exact ⟨rfl, fun k1 => View_GetCoin_stable b k k1, hl, fun _ _ => rfl,
        fun e1 h1 => (by cases h1), fun _ => rfl⟩
    | some tmp =>
      rw [FetchCoin_miss_some hl hg]
      exact ⟨rfl, fun k1 => View_GetCoin_stable b k k1, AList.lookup_insert _,
        fun k1 hk => AList.lookup_insert_ne hk, fun e1 h1 => (by cases h1), fun _ => rfl⟩


theorem fetched_isDirty (t : CCoins) : (fetched t).isDirty = false := by
  unfold fetched CCoinsCacheEntry.isDirty
  split_ifs <;> simp [DIRTY, FRESH]

theorem fetched_isFresh (t : CCoins) : (fetched t).isFresh = t.IsSpent := by
  unfold fetched CCoinsCacheEntry.isFresh
  cases t.IsSpent <;> simp [FRESH]

theorem FetchCoin_persist {p : CCoinsViewCache} {b : CCoinsView} (k : uint256) {k1 : uint256}
    {e : CCoinsCacheEntry} (h : p.cacheCoins.lookup k1 = some e) :
    (FetchCoin p b k).2.1.cacheCoins.lookup k1 = some e := by
  obtain ⟨-, -, h3, h4, h5, -⟩ := FetchCoin_effect p b k
  by_cases hk : k1 = k
  · subst hk
    rw [h3, h5 e h]
  · rw [h4 k1 hk, h]

theorem FetchCoin_sound {p : CCoinsViewCache} {b : CCoinsView} (k : uint256)
    (h : FreshSound p b) : FreshSound (FetchCoin p b k).2.1 (FetchCoin p b k).2.2 := by
  obtain ⟨-, h2, h3, h4, h5, h6⟩ := FetchCoin_effect p b k
  intro k1 P r hP hf hr
  rw [h2] at hr
  by_cases hk : k1 = k
  · subst hk
    cases hl : p.cacheCoins.lookup k1 with
    | some e =>
      rw [h3, h5 e hl] at hP
      cases hP
      exact h k1 _ r hl hf hr
    | none =>
      rw [h3, h6 hl, hr] at hP
      cases hP
      rw [fetched_isFresh] at hf
      exact hf
  · rw [h4 k1 hk] at hP
    exact h k1 P r hP hf hr

theorem cache_GetCoin (p : CCoinsViewCache) (b : CCoinsView) (k : uint256) :
    (CCoinsView.cache p b).GetCoin k =
      ((FetchCoin p b k).1.map CCoinsCacheEntry.coins,
        .cache (FetchCoin p b k).2.1 (FetchCoin p b k).2.2) := rfl

/-- A fetch by the child keeps it linked to its parent. -/
theorem Linked_fetch {ch p : CCoinsViewCache} {b : CCoinsView} (h : Linked ch p b)
    (k : uint256) :
    ∃ p1 b1, (FetchCoin ch (.cache p b) k).2.2 = .cache p1 b1 ∧
      Linked (FetchCoin ch (.cache p b) k).2.1 p1 b1 ∧
      (FetchCoin ch (.cache p b) k).2.1.cacheCoins.lookup k = (FetchCoin ch (.cache p b) k).1 := by
  cases hl : ch.cacheCoins.lookup k with
  | some e =>
    rw [FetchCoin_hit hl]
    exact ⟨p, b, rfl, h, hl⟩
  | none =>
    obtain ⟨f1, -, f3, -, -, -⟩ := FetchCoin_effect p b k
    have hbase : ∀ {k1 e}, ch.cacheCoins.lookup k1 = some e →
        (∀ P, p.cacheCoins.lookup k1 = some P →
          (FetchCoin p b k).2.1.cacheCoins.lookup k1 = some P) :=
      fun _ P hP => FetchCoin_persist k hP
    cases hx : (FetchCoin p b k).1 with
    | none =>
      have hg : ((CCoinsView.cache p b).GetCoin k).1 = none := by
        rw [cache_GetCoin, hx]; rfl
      rw [FetchCoin_miss_none hl hg, cache_GetCoin]
      refine ⟨_, _, rfl, ⟨f1.trans h.nomod, FetchCoin_sound k h.sound, ?_, ?_, h.pruned⟩, hl⟩
      · intro k1 e he hf
        obtain ⟨P, hP⟩ := h.known k1 e he hf
        exact ⟨P, FetchCoin_persist k hP⟩
      · intro k1 e he hd
        obtain ⟨P, hP, hc⟩ := h.clean k1 e he hd
        exact ⟨P, FetchCoin_persist k hP, hc⟩
    | some x =>
      have hg : ((CCoinsView.cache p b).GetCoin k).1 = some x.coins := by
        rw [cache_GetCoin, hx]; rfl
      rw [FetchCoin_miss_some hl hg, cache_GetCoin]
      refine ⟨_, _, rfl, ⟨f1.trans h.nomod, FetchCoin_sound k h.sound, ?_, ?_, ?_⟩,
        AList.lookup_insert _⟩
      · intro k1 e he hf
        by_cases hk : k1 = k
        · subst hk
          exact ⟨x, by rw [f3, hx]⟩
        · rw [AList.lookup_insert_ne hk] at he
          obtain ⟨P, hP⟩ := h.known k1 e he hf
          exact ⟨P, FetchCoin_persist k hP⟩
      · intro k1 e he hd
        by_cases hk : k1 = k
        · subst hk
          rw [AList.lookup_insert] at he
          cases he
          exact ⟨x, by rw [f3, hx], rfl⟩
        · rw [AList.lookup_insert_ne hk] at he
          obtain ⟨P, hP, hc⟩ := h.clean k1 e he hd
          exact ⟨P, FetchCoin_persist k hP, hc⟩
      · intro k1 e he hd hs
        by_cases hk : k1 = k
        · subst hk
          rw [AList.lookup_insert] at he
          cases he
          rw [fetched_isDirty] at hd
          cases hd
        · rw [AList.lookup_insert_ne hk] at he
          exact h.pruned k1 e he hd hs


theorem IsSpent_of_IsAvailable {c : CCoins} {n : Nat} (h : c.IsAvailable n = true) :
    c.IsSpent = false := by
  unfold CCoins.IsAvailable at h
  simp only [Bool.and_eq_true, decide_eq_true_eq, Bool.not_eq_true'] at h
  by_contra hs
  have hs1 : c.IsSpent = true := by simpa using hs
  unfold CCoins.IsSpent at hs1
  rw [List.all_eq_true] at hs1
  have hmem : c.vout.getD n CTxOut.null ∈ c.vout := by
    rw [List.getD_eq_getElem _ _ h.1]
    exact List.getElem_mem _
  rw [hs1 _ hmem] at h
  exact absurd h.2 (by simp)

theorem IsAvailable_of_IsSpent {c : CCoins} (h : c.IsSpent = true) (n : Nat) :
    c.IsAvailable n = false := by
  by_contra hn
  have hn1 : c.IsAvailable n = true := by simpa using hn
  rw [IsSpent_of_IsAvailable hn1] at h
  cases h

theorem emplace_lookup_ne (c : CCoinsViewCache) {k k1 : uint256} (hk : k1 ≠ k) :
    (AddCoin.emplace c k).lookup k1 = c.cacheCoins.lookup k1 := by
  unfold AddCoin.emplace
  split_ifs
  · exact AList.lookup_insert_ne hk
  · rfl

theorem store_isFresh_false {it : CCoinsCacheEntry} {n : Nat} {coin : Coin} {po : Bool}
    (h : (AddCoin.store it n coin po).isFresh = false) :
    it.isFresh = false ∧ AddCoin.fresh it po = false := by
  unfold AddCoin.store at h
  unfold CCoinsCacheEntry.isFresh at h ⊢
  by_cases hf : AddCoin.fresh it po = true
  · exfalso
    simp only [hf, if_true] at h
    rw [← Nat.or_assoc, land_FRESH_lor_FRESH] at h
    simp [FRESH] at h
  · simp only [hf, Bool.false_eq_true, if_false, Nat.or_zero, land_FRESH_lor_DIRTY] at h
    exact ⟨h, by simpa using hf⟩

theorem store_isDirty (it : CCoinsCacheEntry) (n : Nat) (coin : Coin) (po : Bool) :
    (AddCoin.store it n coin po).isDirty = true := by
  unfold AddCoin.store CCoinsCacheEntry.isDirty
  dsimp only
  split_ifs
  · rw [Nat.or_comm DIRTY FRESH, ← Nat.or_assoc, land_DIRTY_lor_DIRTY]; simp [DIRTY]
  · rw [Nat.or_zero, land_DIRTY_lor_DIRTY]; simp [DIRTY]

/-- An admissible `add_coin` that returns keeps the child linked to its parent. -/
theorem Linked_add {E : Env} {ch ch1 p : CCoinsViewCache} {b : CCoinsView} (h : Linked ch p b)
    {o : COutPoint} {coin : Coin} {po : Bool}
    (hadm : (Op.add o coin po).admissible ch (.cache p b) = true)
    (hadd : AddCoin E ch o coin po = .ok ch1) :
    Linked ch1 p b := by
  by_cases hsp : E.IsUnspendable coin.out.scriptPubKey = true
  · unfold AddCoin at hadd
    by_cases h1 : coin.IsSpent = true
    · rw [if_pos h1] at hadd; cases hadd
    · rw [if_neg h1, if_pos hsp] at hadd
      cases hadd; exact h
  · have hsp1 : E.IsUnspendable coin.out.scriptPubKey = false := by simpa using hsp
    obtain ⟨hnn, -, hlt, rfl⟩ := AddCoin_ok hadd hsp1
    refine ⟨h.nomod, h.sound, ?_, ?_, ?_⟩
    · intro k1 e he hf
      by_cases hk : k1 = o.hash
      · subst hk
        rw [AList.lookup_insert] at he
        cases he
        obtain ⟨hf1, hf2⟩ := store_isFresh_false hf
        cases hl : ch.cacheCoins.lookup o.hash with
        | none =>
          have hit : AddCoin.it ch o.hash = CCoinsCacheEntry.empty := by
            simp [AddCoin.it, hl]
          rw [hit] at hf2
          have hpo : po = true := by
            cases po
            · revert hf2
              simp [AddCoin.fresh, CCoinsCacheEntry.isDirty, CCoinsCacheEntry.empty,
                CCoins.empty, CCoins.IsSpent, DIRTY]
            · rfl
          subst hpo
          simp only [Op.admissible, hl, Option.isSome_none, Bool.false_or,
            CCoinsView.holds] at hadm
          exact Option.isSome_iff_exists.1 hadm
        | some e0 =>
          have hit : AddCoin.it ch o.hash = e0 := by simp [AddCoin.it, hl]
          rw [hit] at hf1
          exact h.known _ e0 hl hf1
      · rw [AList.lookup_insert_ne hk, emplace_lookup_ne ch hk] at he
        exact h.known k1 e he hf
    · intro k1 e he hd
      by_cases hk : k1 = o.hash
      · subst hk
        rw [AList.lookup_insert] at he
        cases he
        rw [store_isDirty] at hd
        cases hd
      · rw [AList.lookup_insert_ne hk, emplace_lookup_ne ch hk] at he
        exact h.clean k1 e he hd
    · intro k1 e he hd hs
      by_cases hk : k1 = o.hash
      · subst hk
        rw [AList.lookup_insert] at he
        cases he
        rw [IsSpent_of_IsAvailable (store_IsAvailable _ _ _ _ hlt hnn)] at hs
        cases hs
      · rw [AList.lookup_insert_ne hk, emplace_lookup_ne ch hk] at he
        exact h.pruned k1 e he hd hs

/-- The update of `spend_coin` keeps the child linked to its parent. -/
theorem Linked_update {E : Env} {ch p : CCoinsViewCache} {b : CCoinsView} (h : Linked ch p b)
    {o : COutPoint} {it : CCoinsCacheEntry} (hit : ch.cacheCoins.lookup o.hash = some it) :
    Linked (SpendCoin.update E ch it o) p b := by
  unfold SpendCoin.update
  split_ifs with hdrop
  · refine ⟨h.nomod, h.sound, ?_, ?_, ?_⟩
    · intro k1 e he hf
      by_cases hk : k1 = o.hash
      · subst hk; rw [AList.lookup_erase] at he; cases he
      · rw [AList.lookup_erase_ne hk] at he; exact h.known k1 e he hf
    · intro k1 e he hd
      by_cases hk : k1 = o.hash
      · subst hk; rw [AList.lookup_erase] at he; cases he
      · rw [AList.lookup_erase_ne hk] at he; exact h.clean k1 e he hd
    · intro k1 e he hd hs
      by_cases hk : k1 = o.hash
      · subst hk; rw [AList.lookup_erase] at he; cases he
      · rw [AList.lookup_erase_ne hk] at he; exact h.pruned k1 e he hd hs
  · refine ⟨h.nomod, h.sound, ?_, ?_, ?_⟩
    · intro k1 e he hf
      by_cases hk : k1 = o.hash
      · subst hk
        rw [AList.lookup_insert] at he
        cases he
        rw [isFresh_lor_DIRTY _ it.coins] at hf
        exact h.known _ it hit hf
      · rw [AList.lookup_insert_ne hk] at he; exact h.known k1 e he hf
    · intro k1 e he hd
      by_cases hk : k1 = o.hash
      · subst hk
        rw [AList.lookup_insert] at he
        cases he
        rw [isDirty_lor_DIRTY] at hd
        cases hd
      · rw [AList.lookup_insert_ne hk] at he; exact h.clean k1 e he hd
    · intro k1 e he hd hs
      by_cases hk : k1 = o.hash
      · subst hk
        rw [AList.lookup_insert] at he
        cases he
        rw [isFresh_lor_DIRTY _ it.coins]
        dsimp only at hs
        cases hfr : it.isFresh with
        | false => rfl
        | true => exact absurd (by simp [hs, hfr]) hdrop
      · rw [AList.lookup_insert_ne hk] at he; exact h.pruned k1 e he hd hs

/-- An admissible call that returns keeps the child linked to its parent. -/
theorem Linked_applyOp {E : Env} {ch p : CCoinsViewCache} {b : CCoinsView} (h : Linked ch p b)
    (op : Op) (hop : op.admissible ch (.cache p b) = true) {r : CCoinsViewCache × CCoinsView}
    (hr : applyOp E ch (.cache p b) op = .ok r) :
    ∃ p1 b1, r.2 = .cache p1 b1 ∧ Linked r.1 p1 b1 := by
  cases op with
  | add o coin po =>
    simp only [applyOp] at hr
    cases hadd : AddCoin E ch o coin po with
    | ok c1 =>
      rw [hadd] at hr
      cases hr
      exact ⟨p, b, rfl, Linked_add h hop hadd⟩
    | thrown a => rw [hadd] at hr; cases hr
    | abort => rw [hadd] at hr; cases hr
    | undefined => rw [hadd] at hr; cases hr
  | spend o =>
    simp only [applyOp] at hr
    cases hr
    obtain ⟨p1, b1, hv, hlink, hlook⟩ := Linked_fetch h o.hash
    cases hf : (FetchCoin ch (.cache p b) o.hash).1 with
    | none =>
      have : SpendCoin E ch (.cache p b) o =
          (none, (FetchCoin ch (.cache p b) o.hash).2.1, (FetchCoin ch (.cache p b) o.hash).2.2) :=
        SpendCoin_of_fetch_none (Prod.ext hf rfl)
      rw [this]
      exact ⟨p1, b1, hv, hlink⟩
    | some it =>
      have : SpendCoin E ch (.cache p b) o =
          (SpendCoin.moveout it o.n, SpendCoin.update E (FetchCoin ch (.cache p b) o.hash).2.1 it o,
            (FetchCoin ch (.cache p b) o.hash).2.2) :=
        SpendCoin_of_fetch (Prod.ext hf rfl)
      rw [this]
      exact ⟨p1, b1, hv, Linked_update hlink (hlook.trans hf)⟩
  | access o =>
    simp only [applyOp] at hr
    cases hr
    obtain ⟨p1, b1, hv, hlink, -⟩ := Linked_fetch h o.hash
    exact ⟨p1, b1, hv, hlink⟩

theorem Linked_applyOps {E : Env} (ops : List Op)
    {ch p : CCoinsViewCache} {b : CCoinsView} (h : Linked ch p b)
    (hops : admissibleRun E ops ch (.cache p b))
    {r : CCoinsViewCache × CCoinsView} (hr : applyOps E ops ch (.cache p b) = .ok r) :
    ∃ p1 b1, r.2 = .cache p1 b1 ∧ Linked r.1 p1 b1 := by
  induction ops generalizing ch p b with
  | nil =>
    simp only [applyOps] at hr
    cases hr
    exact ⟨p, b, rfl, h⟩
  | cons op rest ih =>
    simp only [applyOps] at hr
    simp only [admissibleRun] at hops
    cases hop : applyOp E ch (.cache p b) op with
    | ok r1 =>
      rw [hop] at hr
      obtain ⟨p1, b1, hv, hlink⟩ := Linked_applyOp h op hops.1 hop
      have hrest := hops.2
      rw [hop] at hrest
      dsimp only at hr hrest
      rw [hv] at hr hrest
      exact ih hlink hrest hr
    | thrown a => rw [hop] at hr; cases hr
    | abort => rw [hop] at hr; cases hr
    | undefined => rw [hop] at hr; cases hr

theorem coin_congr {e e1 : CCoinsCacheEntry} (h : e.coins = e1.coins) (n : Nat) :
    AccessCoin.coin (some e) n = AccessCoin.coin (some e1) n := by
  simp only [AccessCoin.coin, h]

theorem coin_of_spent {it : Option CCoinsCacheEntry}
    (h : ∀ e, it = some e → e.coins.IsSpent = true) (n : Nat) :
    AccessCoin.coin it n = coinEmpty := by
  cases it with
  | none => rfl
  | some e => simp [AccessCoin.coin, IsAvailable_of_IsSpent (h e rfl)]

theorem coin_map_fetched (it : Option CCoinsCacheEntry) (n : Nat) :
    AccessCoin.coin ((it.map CCoinsCacheEntry.coins).map fetched) n = AccessCoin.coin it n := by
  cases it with
  | none => rfl
  | some e => exact coin_congr rfl n

/-- What the child's `access_coin` reports, in terms of the maps of child and parent. -/
theorem child_access (ch p : CCoinsViewCache) (b : CCoinsView) (o : COutPoint) :
    (AccessCoin ch (.cache p b) o).1 =
      match ch.cacheCoins.lookup o.hash with
      | some C => AccessCoin.coin (some C) o.n
      | none => AccessCoin.coin (FetchCoin p b o.hash).1 o.n := by
  unfold AccessCoin
  dsimp only
  cases hl : ch.cacheCoins.lookup o.hash with
  | some C => rw [FetchCoin_hit hl]
  | none =>
    dsimp only
    obtain ⟨-, -, -, -, -, h6⟩ := FetchCoin_effect ch (.cache p b) o.hash
    rw [h6 hl, cache_GetCoin]
    exact coin_map_fetched _ _

/-- The flush of a linked child succeeds, and the parent then answers every
`access_coin` as the child did right before. -/
theorem Linked_flush {ch p : CCoinsViewCache} {b : CCoinsView} (h : Linked ch p b) :
    ∃ p2, Flush ch (.cache p b) = .ok (true, { ch with cacheCoins := ∅ }, .cache p2 b) ∧
      ∀ o, (AccessCoin p2 b o).1 = (AccessCoin ch (.cache p b) o).1 := by
  obtain ⟨m, hm, hall⟩ := BatchWrite_mergeRule p ch.cacheCoins ch.hashBlock h.nomod (by
    intro k C hC hd hP hs
    by_contra hf
    obtain ⟨P, hP1⟩ := h.known k C hC (by simpa using hf)
    rw [hP] at hP1
    cases hP1)
  refine ⟨{ p with cacheCoins := m, hashBlock := ch.hashBlock }, ?_, fun o => ?_⟩
  · simp only [Flush, CCoinsView.BatchWrite, hm]
  · rw [child_access]
    have hlook := hall o.hash
    obtain ⟨-, -, f3, -, f5, f6⟩ :=
      FetchCoin_effect { p with cacheCoins := m, hashBlock := ch.hashBlock } b o.hash
    have hacc : (AccessCoin { p with cacheCoins := m, hashBlock := ch.hashBlock } b o).1 =
        AccessCoin.coin
          (FetchCoin { p with cacheCoins := m, hashBlock := ch.hashBlock } b o.hash).1 o.n := rfl
    rw [hacc]
    cases hC : ch.cacheCoins.lookup o.hash with
    | none =>
      rw [hC] at hlook
      dsimp only
      have : (FetchCoin { p with cacheCoins := m, hashBlock := ch.hashBlock } b o.hash).1 =
          (FetchCoin p b o.hash).1 :=
        FetchCoinWith_fst _ p o.hash _ _ _ _ hlook rfl
      rw [this]
    | some C =>
      rw [hC] at hlook
      dsimp only
      cases hd : C.isDirty with
      | false =>
        obtain ⟨P, hP, hc⟩ := h.clean o.hash C hC hd
        have hmP : m.lookup o.hash = some P := by
          rw [hlook, hP]; simp [mergeRule, hd]
        rw [f5 P hmP]
        exact coin_congr hc _
      | true =>
        cases hP : p.cacheCoins.lookup o.hash with
        | none =>
          cases hs : C.coins.IsSpent with
          | true =>
            exfalso
            obtain ⟨P, hP1⟩ := h.known o.hash C hC (h.pruned o.hash C hC hd hs)
            rw [hP] at hP1
            cases hP1
          | false =>
            have hmP : m.lookup o.hash = some { coins := C.coins, flags := DIRTY ||| FRESH } := by
              rw [hlook, hP]; simp [mergeRule, hd, hs]
            rw [f5 _ hmP]
            exact coin_congr rfl _
        | some P =>
          by_cases hdrop : (P.isFresh && C.coins.IsSpent) = true
          · have hmP : m.lookup o.hash = none := by
              rw [hlook, hP]; simp [mergeRule, hd, hdrop]
            simp only [Bool.and_eq_true] at hdrop
            have hR : AccessCoin.coin (some C) o.n = coinEmpty :=
              coin_of_spent (fun e he => by cases he; exact hdrop.2) _
            have hL : AccessCoin.coin (Option.map fetched (b.GetCoin o.hash).1) o.n =
                coinEmpty := by
              apply coin_of_spent
              intro e he
              cases hg : (b.GetCoin o.hash).1 with
              | none => rw [hg] at he; cases he
              | some tmp =>
                rw [hg] at he
                cases he
                exact h.sound o.hash P tmp hP hdrop.1 hg
            rw [f6 hmP, hL, hR]
          · have hmP : m.lookup o.hash =
                some { coins := C.coins, flags := P.flags ||| DIRTY } := by
              rw [hlook, hP]; simp only [mergeRule, hd, Bool.not_true, Bool.false_eq_true,
                if_false, hdrop]
            rw [f5 _ hmP]
            exact coin_congr rfl _


theorem Linked_new {p : CCoinsViewCache} {b : CCoinsView} (hmod : p.hasModifier = false)
    (hsound : FreshSound p b) : Linked CCoinsViewCache.new p b :=
  ⟨hmod, hsound, fun _ _ he => (by cases he), fun _ _ he => (by cases he),
    fun _ _ he => (by cases he)⟩

/-- C2 as stated fails.  (a) Over a base that holds (7,0) unspent and an empty
parent, the child runs `add_coin((7,0), coin99, true)` and `spend_coin((7,0))`
and reports (7,0) as spent; the flush returns true and drops the pruned entry,
and the parent then answers the base's unspent coin.  (b) After a single
`add_coin((1,0), coin50, true)` the flush runs into the `assert` of
`batch_write`.  (c) Over a parent whose entry for 7 carries `FRESH` although
the base holds (7,0) unspent, the child runs `spend_coin((7,0))` and reports it
spent; the flush erases the parent's entry and the parent answers the base's
coin.  (d) Over a parent with a live modifier the flush aborts. -/
theorem flush_composes_counterexample :
    (∃ ch v p2,
      applyOps sampleEnv [.add ⟨7, 0⟩ coin99 true, .spend ⟨7, 0⟩] CCoinsViewCache.new
        (.cache CCoinsViewCache.new liveParent) = .ok (ch, v) ∧
      (AccessCoin ch v ⟨7, 0⟩).1 = coinEmpty ∧
      Flush ch v = .ok (true, { ch with cacheCoins := ∅ }, .cache p2 liveParent) ∧
      (AccessCoin p2 liveParent ⟨7, 0⟩).1 = coin50) ∧
    (∃ ch v,
      applyOps sampleEnv [.add ⟨1, 0⟩ coin50 true] CCoinsViewCache.new
        (.cache CCoinsViewCache.new .plain) = .ok (ch, v) ∧
      Flush ch v = .abort) ∧
    (∃ ch v p2,
      applyOps sampleEnv [.spend ⟨7, 0⟩] CCoinsViewCache.new
        (.cache staleFreshParent liveParent) = .ok (ch, v) ∧
      (AccessCoin ch v ⟨7, 0⟩).1 = coinEmpty ∧
      Flush ch v = .ok (true, { ch with cacheCoins := ∅ }, .cache p2 liveParent) ∧
      (AccessCoin p2 liveParent ⟨7, 0⟩).1 = coin50) ∧
    Flush CCoinsViewCache.new (.cache cacheModified .plain) = .abort :=
  ⟨⟨_, _, _, rfl, by decide, rfl, by decide⟩, ⟨_, _, rfl, rfl⟩,
    ⟨_, _, _, rfl, by decide, rfl, by decide⟩, rfl⟩

/-- C2 (amended): take a parent cache without a live modifier whose `FRESH`
flags are sound for its base view, and an initially empty child over it.
After any sequence of `add_coin`, `spend_coin` and `access_coin` calls on the
child, none of which fails and in which every `add_coin` with
`possible_overwrite = true` is made on a txid that the map of the child or of
the parent has an entry for at that moment, the child's `flush()` returns
true, and for every outpoint `o` the parent's `access_coin(o)` after the flush
equals the `access_coin(o)` the child reported right before the flush. -/
theorem flush_composes (E : Env) (p : CCoinsViewCache) (base : CCoinsView) (ops : List Op)
    (ch : CCoinsViewCache) (v : CCoinsView)
    (hmod : p.hasModifier = false) (hsound : FreshSound p base)
    (hops : admissibleRun E ops CCoinsViewCache.new (.cache p base))
    (hrun : applyOps E ops CCoinsViewCache.new (.cache p base) = .ok (ch, v)) :
    ∃ p1 b1 p2, v = .cache p1 b1 ∧
      Flush ch v = .ok (true, { ch with cacheCoins := ∅ }, .cache p2 b1) ∧
      ∀ o, (AccessCoin p2 b1 o).1 = (AccessCoin ch v o).1 := by
  obtain ⟨p1, b1, hv, hlink⟩ := Linked_applyOps ops (Linked_new hmod hsound) hops hrun
  dsimp only at hv hlink
  subst hv
  obtain ⟨p2, hflush, hacc⟩ := Linked_flush hlink
  exact ⟨p1, b1, p2, rfl, hflush, hacc⟩

/-- Witness of `flush_composes` (scenarios d and e): over an empty parent over
the plain view, the child adds a coin of value 7 at (3,0), overwrites it with
`possible_overwrite = true` by a coin of value 8, adds `coin50` at (4,0) and
spends it again; after the flush the parent returns the coin of value 8 for
(3,0) and the empty coin for (4,0). -/
theorem flush_composes_witness :
    ∃ ch v p1 b1 p2,
      applyOps sampleEnv sampleOps CCoinsViewCache.new (.cache CCoinsViewCache.new .plain) =
        .ok (ch, v) ∧
      v = .cache p1 b1 ∧
      Flush ch v = .ok (true, { ch with cacheCoins := ∅ }, .cache p2 b1) ∧
      (AccessCoin p2 b1 ⟨3, 0⟩).1 = ⟨⟨8, [81]⟩, 6, false⟩ ∧
      (AccessCoin p2 b1 ⟨4, 0⟩).1 = coinEmpty := by
  obtain ⟨p1, b1, p2, hv, hflush, hacc⟩ := flush_composes sampleEnv CCoinsViewCache.new .plain
    sampleOps _ _ rfl (by intro k P r h; cases h)
    ⟨by decide, by decide, by decide, by decide, trivial⟩ rfl
  exact ⟨_, _, p1, b1, p2, rfl, hv, hflush, (hacc _).trans (by decide), (hacc _).trans (by decide)⟩

/-! ## C4: memory accounting -/

/-- C4 fails on the code.  A fetch inserts a record of 40 bytes into the map
and leaves `cachedCoinsUsage` at 0; and after `add_coin` and a successful
`flush()` the map is empty while `cachedCoinsUsage` is still 40. -/
theorem memory_accounting_diverges :
    ((GetCoin CCoinsViewCache.new liveParent 7).2.1.cachedCoinsUsage = 0 ∧
      recomputedUsage sampleEnv (GetCoin CCoinsViewCache.new liveParent 7).2.1 = 40) ∧
    ∃ c1 c2 b2, AddCoin sampleEnv CCoinsViewCache.new ⟨1, 0⟩ coin50 false = .ok c1 ∧
      c1.cachedCoinsUsage = 40 ∧ recomputedUsage sampleEnv c1 = 40 ∧
      Flush c1 (.cache CCoinsViewCache.new .plain) = .ok (true, c2, b2) ∧
      c2.cachedCoinsUsage = 40 ∧ recomputedUsage sampleEnv c2 = 0 :=
  ⟨⟨by decide, by decide⟩, _, _, _, rfl, by decide, by decide, rfl, by decide, by decide⟩

/-! ## C11: `CCoins::Spend` -/

theorem rdropWhile_split (l : List CTxOut) :
    ∃ t, l = l.rdropWhile CTxOut.IsNull ++ t ∧ ∀ x ∈ t, x.IsNull = true := by
  induction l using List.reverseRecOn with
  | nil => exact ⟨[], by simp, by simp⟩
  | append_singleton l a ih =>
    by_cases ha : a.IsNull = true
    · obtain ⟨t, ht, hall⟩ := ih
      refine ⟨t ++ [a], ?_, ?_⟩
      · rw [List.rdropWhile_concat_pos _ _ _ ha, ← List.append_assoc, ← ht]
      · intro x hx
        rcases List.mem_append.1 hx with hx | hx
        · exact hall x hx
        · rw [List.mem_singleton.1 hx]; exact ha
    · exact ⟨[], by rw [List.rdropWhile_concat_neg _ _ _ ha]; simp, by simp⟩

/-- C11: `spend(n)` on a record returns false and leaves the record unchanged
when `n` is past the end or `outputs[n]` is null; otherwise it returns true,
keeps height and coinbase flag, and the outputs afterwards are the original
outputs with slot `n` set to null and every trailing null output removed: they
end in no null output, and what was cut off the end is null outputs only. -/
theorem Spend_spec (c : CCoins) (n : Nat) :
    ((c.vout.length ≤ n ∨ (c.vout.getD n CTxOut.null).IsNull = true) → c.Spend n = (false, c)) ∧
    (n < c.vout.length → (c.vout.getD n CTxOut.null).IsNull = false →
      (c.Spend n).1 = true ∧ (c.Spend n).2.nHeight = c.nHeight ∧
      (c.Spend n).2.fCoinBase = c.fCoinBase ∧
      (c.Spend n).2.vout = (c.vout.set n CTxOut.null).rdropWhile CTxOut.IsNull ∧
      (c.Spend n).2.Canonical ∧
      ∃ t, c.vout.set n CTxOut.null = (c.Spend n).2.vout ++ t ∧ ∀ x ∈ t, x.IsNull = true) := by
  constructor
  · intro h
    unfold CCoins.Spend
    rw [if_pos]
    simpa using h
  · intro hlt hnn
    have hsp : c.Spend n = (true, CCoins.Cleanup { c with vout := c.vout.set n CTxOut.null }) := by
      unfold CCoins.Spend
      rw [if_neg]
      simp only [hnn, Bool.or_false, decide_eq_true_eq]
      omega
    rw [hsp]
    refine ⟨rfl, rfl, rfl, rfl, Cleanup_Canonical _, ?_⟩
    exact rdropWhile_split (c.vout.set n CTxOut.null)

/-- Witness of `Spend_spec`: spending slot 1 of a record with outputs
`[coin50.out, coin99.out, null]` leaves `[coin50.out]`; spending slot 5 or the
null slot 2 changes nothing. -/
theorem Spend_spec_witness :
    (CCoins.Spend { fCoinBase := true, vout := [coin50.out, coin99.out, CTxOut.null], nHeight := 4 }
        1).2.vout = [coin50.out] ∧
    CCoins.Spend { fCoinBase := true, vout := [coin50.out, coin99.out, CTxOut.null], nHeight := 4 }
        5 = (false, { fCoinBase := true, vout := [coin50.out, coin99.out, CTxOut.null],
                      nHeight := 4 }) ∧
    CCoins.Spend { fCoinBase := true, vout := [coin50.out, coin99.out, CTxOut.null], nHeight := 4 }
        2 = (false, { fCoinBase := true, vout := [coin50.out, coin99.out, CTxOut.null],
                      nHeight := 4 }) :=
  ⟨((Spend_spec { fCoinBase := true, vout := [coin50.out, coin99.out, CTxOut.null], nHeight := 4 }
      1).2 (by decide) (by decide)).2.2.2.1.trans (by decide),
    (Spend_spec _ 5).1 (Or.inl (by decide)),
    (Spend_spec _ 2).1 (Or.inr (by decide))⟩

/-! ## C17: the read path of `fetch_coin` -/

theorem GetCacheSize_insert_new (c : CCoinsViewCache) (k : uint256) (e : CCoinsCacheEntry)
    (h : c.cacheCoins.lookup k = none) :
    GetCacheSize { c with cacheCoins := c.cacheCoins.insert k e } = GetCacheSize c + 1 := by
  have hk : k ∉ c.cacheCoins := AList.lookup_eq_none.1 h
  unfold GetCacheSize
  dsimp only
  rw [AList.insert_entries_of_neg hk]
  rfl

/-- C17: `fetch_coin(txid)` returns the entry of the map and changes nothing
when the map has one; returns absent and leaves the map unchanged when the map
has none and the parent's `get_coin` reports absent; and when the map has none
and the parent returns a record `r`, it inserts exactly one entry for `txid`,
holding `r`, with no flags when `r` has unspent outputs and with flags exactly
`FRESH` (not `DIRTY`) when `r` is pruned, and no other entry changes. -/
theorem fetch_coin_read_path (c : CCoinsViewCache) (base : CCoinsView) (txid : uint256) :
    (∀ e, c.cacheCoins.lookup txid = some e → FetchCoin c base txid = (some e, c, base)) ∧
    (c.cacheCoins.lookup txid = none → (base.GetCoin txid).1 = none →
      (FetchCoin c base txid).1 = none ∧ (FetchCoin c base txid).2.1 = c) ∧
    (∀ r, c.cacheCoins.lookup txid = none → (base.GetCoin txid).1 = some r →
      ∃ e, (FetchCoin c base txid).1 = some e ∧ e.coins = r ∧
        (r.IsSpent = false → e.flags = 0) ∧
        (r.IsSpent = true → e.flags = FRESH ∧ e.isDirty = false) ∧
        (FetchCoin c base txid).2.1.cacheCoins.lookup txid = some e ∧
        (∀ k, k ≠ txid →
          (FetchCoin c base txid).2.1.cacheCoins.lookup k = c.cacheCoins.lookup k) ∧
        GetCacheSize (FetchCoin c base txid).2.1 = GetCacheSize c + 1 ∧
        (FetchCoin c base txid).2.1.hasModifier = c.hasModifier ∧
        (FetchCoin c base txid).2.1.hashBlock = c.hashBlock ∧
        (FetchCoin c base txid).2.1.cachedCoinsUsage = c.cachedCoinsUsage) := by
  refine ⟨fun e he => FetchCoin_hit he, fun hl hb => ?_, fun r hl hb => ?_⟩
  · rw [FetchCoin_miss_none hl hb]
    exact ⟨rfl, rfl⟩
  · rw [FetchCoin_miss_some hl hb]
    refine ⟨fetched r, rfl, rfl, ?_, ?_, AList.lookup_insert _,
      fun k hk => AList.lookup_insert_ne hk, GetCacheSize_insert_new c txid _ hl, rfl, rfl, rfl⟩
    · intro hs
      simp [fetched, hs]
    · intro hs
      exact ⟨by simp [fetched, hs], fetched_isDirty r⟩

/-- Witness of `fetch_coin_read_path`: an empty cache over the backend that
holds transaction 7 fetches its record without flags; for transaction 8 it
reports absent and inserts nothing. -/
theorem fetch_coin_read_path_witness :
    (∃ e, (FetchCoin CCoinsViewCache.new liveParent 7).1 = some e ∧
      e.coins = { fCoinBase := false, vout := [coin50.out], nHeight := 10 } ∧ e.flags = 0 ∧
      GetCacheSize (FetchCoin CCoinsViewCache.new liveParent 7).2.1 = 1) ∧
    (FetchCoin CCoinsViewCache.new liveParent 8).1 = none ∧
    (FetchCoin CCoinsViewCache.new liveParent 8).2.1 = CCoinsViewCache.new := by
  obtain ⟨e, he, hc, hf, -, -, -, hsize, -⟩ :=
    (fetch_coin_read_path CCoinsViewCache.new liveParent 7).2.2
      { fCoinBase := false, vout := [coin50.out], nHeight := 10 } rfl rfl
  exact ⟨⟨e, he, hc, hf (by decide), hsize⟩,
    (fetch_coin_read_path CCoinsViewCache.new liveParent 8).2.1 rfl rfl⟩

/-! ## C16: acquiring a modifier -/

/-- C16: `modify_coins(txid)` on a cache with a live modifier fails its
assertion.  On a cache without one it returns with the modifier live, and the
map then has an entry for `txid` with `DIRTY` set: an entry that existed keeps
its record and its `FRESH` bit; a new entry holds the parent's record without
`FRESH` when the parent's `get_coin` finds one, and the empty (pruned) record
with `FRESH` when the parent has nothing. -/
theorem modify_coins_acquisition (c : CCoinsViewCache) (base : CCoinsView) (txid : uint256) :
    (c.hasModifier = true → ModifyCoins c base txid = .abort) ∧
    (c.hasModifier = false →
      ∃ c1 b1 e, ModifyCoins c base txid = .ok (c1, b1) ∧ c1.hasModifier = true ∧
        c1.cacheCoins.lookup txid = some e ∧ e.isDirty = true ∧
        (∀ k, k ≠ txid → c1.cacheCoins.lookup k = c.cacheCoins.lookup k) ∧
        (∀ e0, c.cacheCoins.lookup txid = some e0 →
          e.coins = e0.coins ∧ e.isFresh = e0.isFresh) ∧
        (c.cacheCoins.lookup txid = none →
          (∀ r, (base.GetCoin txid).1 = some r → e.coins = r ∧ e.isFresh = false) ∧
          ((base.GetCoin txid).1 = none →
            e.coins = CCoins.empty ∧ e.coins.IsSpent = true ∧ e.isFresh = true))) := by
  constructor
  · intro hm
    simp [ModifyCoins, hm]
  · intro hm
    unfold ModifyCoins
    rw [if_neg (by simp [hm])]
    cases hl : c.cacheCoins.lookup txid with
    | some e0 =>
      refine ⟨_, _, _, rfl, rfl, AList.lookup_insert _, isDirty_lor_DIRTY _ _,
        fun k hk => AList.lookup_insert_ne hk, ?_, fun h => (by cases h)⟩
      intro e1 he1
      cases he1
      exact ⟨rfl, isFresh_lor_DIRTY _ e0.coins _⟩
    | none =>
      cases hg : base.GetCoin txid with
      | mk r b1 =>
        cases r with
        | some coins =>
          refine ⟨_, _, _, rfl, rfl, AList.lookup_insert _, isDirty_lor_DIRTY _ _,
            fun k hk => AList.lookup_insert_ne hk, fun e0 h => (by cases h), fun _ => ⟨?_, ?_⟩⟩
          · intro r hr
            cases hr
            refine ⟨rfl, ?_⟩
            simp [CCoinsCacheEntry.isFresh, CCoinsCacheEntry.empty, DIRTY, FRESH]
          · intro h; cases h
        | none =>
          refine ⟨_, _, _, rfl, rfl, AList.lookup_insert _, ?_,
            fun k hk => AList.lookup_insert_ne hk, fun e0 h => (by cases h), fun _ => ⟨?_, ?_⟩⟩
          · simp [CCoinsCacheEntry.isDirty, CCoinsCacheEntry.isFresh, CCoinsCacheEntry.empty,
              DIRTY, FRESH]
          · intro r hr; cases hr
          · intro _
            refine ⟨rfl, rfl, ?_⟩
            simp [CCoinsCacheEntry.isFresh, CCoinsCacheEntry.empty, DIRTY, FRESH]

/-- Witness of `modify_coins_acquisition`: on the cache with a live modifier
the call aborts; on an empty cache over the backend holding transaction 7 it
creates a dirty entry with the backend's record, and for transaction 8 a dirty
fresh entry with the empty record. -/
theorem modify_coins_acquisition_witness :
    ModifyCoins cacheModified .plain 7 = .abort ∧
    (∃ c1 b1, ModifyCoins CCoinsViewCache.new liveParent 7 = .ok (c1, b1) ∧
      c1.cacheCoins.lookup 7 =
        some { coins := { fCoinBase := false, vout := [coin50.out], nHeight := 10 },
               flags := DIRTY }) ∧
    (∃ c1 b1, ModifyCoins CCoinsViewCache.new liveParent 8 = .ok (c1, b1) ∧
      c1.cacheCoins.lookup 8 = some { coins := CCoins.empty, flags := 3 }) := by
  refine ⟨(modify_coins_acquisition cacheModified .plain 7).1 rfl, ?_, ?_⟩
  · obtain ⟨c1, b1, e, h, -⟩ := (modify_coins_acquisition CCoinsViewCache.new liveParent 7).2 rfl
    exact ⟨c1, b1, h, by
      have h2 : ModifyCoins CCoinsViewCache.new liveParent 7 = .ok (_, _) := rfl
      rw [h2] at h
      cases h
      rfl⟩
  · obtain ⟨c1, b1, e, h, -⟩ := (modify_coins_acquisition CCoinsViewCache.new liveParent 8).2 rfl
    exact ⟨c1, b1, h, by
      have h2 : ModifyCoins CCoinsViewCache.new liveParent 8 = .ok (_, _) := rfl
      rw [h2] at h
      cases h
      rfl⟩

/-! ## C13: `access_by_txid` -/

theorem AccessCoin_snd (c : CCoinsViewCache) (base : CCoinsView) (o : COutPoint) :
    (AccessCoin c base o).2 = (FetchCoin c base o.hash).2 := rfl

theorem AccessCoin_fst (c : CCoinsViewCache) (base : CCoinsView) (o : COutPoint) :
    (AccessCoin c base o).1 = AccessCoin.coin (FetchCoin c base o.hash).1 o.n := rfl

/-- An `access_coin` leaves a state in which every outpoint of the same txid reads as before. -/
theorem AccessCoin_post (c : CCoinsViewCache) (base : CCoinsView) (txid : uint256) (n k : Nat) :
    (AccessCoin (AccessCoin c base ⟨txid, n⟩).2.1 (AccessCoin c base ⟨txid, n⟩).2.2
      ⟨txid, k⟩).1 = (AccessCoin c base ⟨txid, k⟩).1 := by
  rw [AccessCoin_fst, AccessCoin_fst, AccessCoin_snd]
  dsimp only
  rw [FetchCoin_idem]

theorem scan_spec (E : Env) (c : CCoinsViewCache) (base : CCoinsView) (txid : uint256)
    (hmax : E.MAX_OUTPUTS_PER_BLOCK < UINT32_MOD) (fuel n : Nat) (c1 : CCoinsViewCache)
    (b1 : CCoinsView) (hfuel : E.MAX_OUTPUTS_PER_BLOCK + 1 ≤ n + fuel)
    (hn : n ≤ E.MAX_OUTPUTS_PER_BLOCK)
    (hsame : ∀ k, (AccessCoin c1 b1 ⟨txid, k⟩).1 = (AccessCoin c base ⟨txid, k⟩).1)
    (hprev : ∀ k, k < n → (AccessCoin c base ⟨txid, k⟩).1.IsSpent = true) :
    ∃ r, AccessByTxid.scan E txid fuel n c1 b1 = some r ∧
      (∀ m, m < E.MAX_OUTPUTS_PER_BLOCK → (AccessCoin c base ⟨txid, m⟩).1.IsSpent = false →
        (∀ k, k < m → (AccessCoin c base ⟨txid, k⟩).1.IsSpent = true) →
        r.1 = (AccessCoin c base ⟨txid, m⟩).1) ∧
      ((∀ m, m < E.MAX_OUTPUTS_PER_BLOCK → (AccessCoin c base ⟨txid, m⟩).1.IsSpent = true) →
        r.1 = coinEmpty) := by
  induction fuel generalizing n c1 b1 with
  | zero => omega
  | succ fuel ih =>
    unfold AccessByTxid.scan
    by_cases hlt : n < E.MAX_OUTPUTS_PER_BLOCK
    · rw [if_pos hlt]
      by_cases hs : (AccessCoin c1 b1 ⟨txid, n⟩).1.IsSpent = true
      · rw [if_neg (by simp [hs])]
        have hmod : (n + 1) % UINT32_MOD = n + 1 := Nat.mod_eq_of_lt (by omega)
        rw [hmod]
        refine ih (n + 1) _ _ (by omega) (by omega) ?_ ?_
        · intro k
          rw [AccessCoin_post, hsame]
        · intro k hk
          by_cases hkn : k = n
          · subst hkn; rw [← hsame]; exact hs
          · exact hprev k (by omega)
      · have hs1 : (AccessCoin c1 b1 ⟨txid, n⟩).1.IsSpent = false := by simpa using hs
        rw [if_pos (by simp [hs1])]
        refine ⟨_, rfl, ?_, ?_⟩
        · intro m hm hmu hmprev
          have hmn : m = n := by
            by_contra hne
            rcases Nat.lt_or_gt_of_ne hne with h | h
            · rw [hprev m h] at hmu; cases hmu
            · have hc := hmprev n h
              rw [← hsame n, hs1] at hc
              cases hc
          subst hmn
          exact hsame m
        · intro hall
          have hc := hall n hlt
          rw [← hsame n, hs1] at hc
          cases hc
    · rw [if_neg hlt]
      refine ⟨_, rfl, ?_, fun _ => rfl⟩
      intro m hm hmu _
      rw [hprev m (by omega)] at hmu
      cases hmu

/-- C13: when `MAX_OUTPUTS_PER_BLOCK` fits an `unsigned int`, `access_by_txid`
returns within `MAX_OUTPUTS_PER_BLOCK` probes; it returns
`access_coin((txid, n))` for the least `n < MAX_OUTPUTS_PER_BLOCK` at which
that coin is not spent, and the empty coin when there is no such index. -/
theorem access_by_txid_spec (E : Env) (c : CCoinsViewCache) (base : CCoinsView) (txid : uint256)
    (hmax : E.MAX_OUTPUTS_PER_BLOCK < UINT32_MOD) :
    ∃ r, AccessByTxid E c base txid = some r ∧
      (∀ n, n < E.MAX_OUTPUTS_PER_BLOCK → (AccessCoin c base ⟨txid, n⟩).1.IsSpent = false →
        (∀ k, k < n → (AccessCoin c base ⟨txid, k⟩).1.IsSpent = true) →
        r.1 = (AccessCoin c base ⟨txid, n⟩).1) ∧
      ((∀ n, n < E.MAX_OUTPUTS_PER_BLOCK → (AccessCoin c base ⟨txid, n⟩).1.IsSpent = true) →
        r.1 = coinEmpty) :=
  scan_spec E c base txid hmax (E.MAX_OUTPUTS_PER_BLOCK + 1) 0 c base (by omega) (by omega)
    (fun _ => rfl) (fun k hk => by omega)




/-- Witness of `access_by_txid_spec`: over the record `[null, coin99.out]` of
transaction 9 the scan returns the coin at index 1; for a txid nobody knows it
returns the empty coin. -/
theorem access_by_txid_spec_witness :
    (∃ r, AccessByTxid sampleEnv cacheWith9 .plain 9 = some r ∧ r.1 = coin99) ∧
    (∃ r, AccessByTxid sampleEnv CCoinsViewCache.new .plain 8 = some r ∧ r.1 = coinEmpty) := by
  constructor
  · obtain ⟨r, hr, h1, -⟩ := access_by_txid_spec sampleEnv cacheWith9 .plain 9 (by decide)
    refine ⟨r, hr, (h1 1 (by decide) (by decide) ?_).trans (by decide)⟩
    intro k hk
    have hk0 : k = 0 := by omega
    subst hk0
    decide
  · obtain ⟨r, hr, -, h2⟩ :=
      access_by_txid_spec sampleEnv CCoinsViewCache.new .plain 8 (by decide)
    exact ⟨r, hr, h2 (fun n _ => rfl)⟩

/-! ## C12: the mask size -/

theorem maskByteSet_iff (c : CCoins) (b : Nat) :
    c.maskByteSet b = true ↔ ∃ j, j < 8 ∧ c.IsAvailable (2 + 8 * b + j) = true := by
  simp [CCoins.maskByteSet, List.any_eq_true]

theorem IsAvailable_lt {c : CCoins} {k : Nat} (h : c.IsAvailable k = true) : k < c.vout.length := by
  unfold CCoins.IsAvailable at h
  simp only [Bool.and_eq_true, decide_eq_true_eq] at h
  exact h.1

theorem inner_spec (c : CCoins) (b : Nat) (fuel i : Nat) (fZero : Bool) (hi : i ≤ 8)
    (hfuel : 9 ≤ i + fuel) :
    ∃ r, CalcMaskSize.inner c.vout b fuel i fZero = some r ∧
      (r = true ↔
        (fZero = true ∧ ∀ j, i ≤ j → j < 8 → c.IsAvailable (2 + 8 * b + j) = false)) := by
  induction fuel generalizing i fZero with
  | zero => omega
  | succ fuel ih =>
    unfold CalcMaskSize.inner
    by_cases hc : i < 8 ∧ 2 + b * 8 + i < c.vout.length
    · rw [if_pos hc]
      obtain ⟨r, hr, hiff⟩ := ih (i + 1)
        (if !(c.vout.getD (2 + b * 8 + i) CTxOut.null).IsNull then false else fZero)
        (by omega) (by omega)
      refine ⟨r, hr, hiff.trans ?_⟩
      have hav : c.IsAvailable (2 + 8 * b + i) =
          !(c.vout.getD (2 + b * 8 + i) CTxOut.null).IsNull := by
        rw [IsAvailable_eq, show 2 + 8 * b + i = 2 + b * 8 + i by omega]
      constructor
      · rintro ⟨h1, h2⟩
        cases hn : (c.vout.getD (2 + b * 8 + i) CTxOut.null).IsNull with
        | false =>
          rw [hn] at h1
          simp at h1
        | true =>
          rw [hn] at h1
          simp only [Bool.not_true, Bool.false_eq_true, if_false] at h1
          refine ⟨h1, fun j hij hj => ?_⟩
          by_cases hji : j = i
          · subst hji; rw [hav, hn]; rfl
          · exact h2 j (by omega) hj
      · rintro ⟨h1, h2⟩
        have hi0 := h2 i (le_refl i) hc.1
        rw [hav] at hi0
        have hn : (c.vout.getD (2 + b * 8 + i) CTxOut.null).IsNull = true := by
          simpa using hi0
        rw [hn]
        simp only [Bool.not_true, Bool.false_eq_true, if_false]
        exact ⟨h1, fun j hij hj => h2 j (by omega) hj⟩
    · rw [if_neg hc]
      refine ⟨fZero, rfl, ⟨fun h => ⟨h, fun j hij hj => ?_⟩, fun h => h.1⟩⟩
      by_contra hav
      have hlt := IsAvailable_lt (by simpa using hav : c.IsAvailable (2 + 8 * b + j) = true)
      omega

theorem inner_byte (c : CCoins) (b : Nat) :
    CalcMaskSize.inner c.vout b 9 0 true = some (!c.maskByteSet b) := by
  obtain ⟨r, hr, hiff⟩ := inner_spec c b 9 0 true (by omega) (by omega)
  rw [hr]
  congr 1
  cases hs : c.maskByteSet b with
  | true =>
    obtain ⟨j, hj, hav⟩ := (maskByteSet_iff c b).1 hs
    cases hrv : r with
    | false => rfl
    | true =>
      have := (hiff.1 hrv).2 j (Nat.zero_le j) hj
      rw [hav] at this
      cases this
  | false =>
    refine hiff.2 ⟨rfl, fun j _ hj => ?_⟩
    by_contra hav
    have : c.maskByteSet b = true :=
      (maskByteSet_iff c b).2 ⟨j, hj, by simpa using hav⟩
    rw [hs] at this
    cases this

theorem maskByteSet_false_of_le (c : CCoins) (b : Nat) (h : c.vout.length ≤ 2 + b * 8) :
    c.maskByteSet b = false := by
  by_contra hs
  obtain ⟨j, -, hav⟩ := (maskByteSet_iff c b).1 (by simpa using hs)
  have := IsAvailable_lt hav
  omega

theorem outer_spec (c : CCoins) (fuel b last nz : Nat) (hb : b ≤ c.vout.length)
    (hfuel : c.vout.length + 1 ≤ b + fuel) :
    ∃ r, CalcMaskSize.outer c.vout fuel b last nz = some r ∧
      r.2 = nz + (List.range' b (c.vout.length - b)).countP c.maskByteSet ∧
      ((∀ b1, b ≤ b1 → c.maskByteSet b1 = false) → r.1 = last) ∧
      (∀ bm, b ≤ bm → c.maskByteSet bm = true →
        (∀ b1, bm < b1 → c.maskByteSet b1 = false) → r.1 = bm + 1) := by
  induction fuel generalizing b last nz with
  | zero => omega
  | succ fuel ih =>
    unfold CalcMaskSize.outer
    by_cases hc : 2 + b * 8 < c.vout.length
    · rw [if_pos hc, inner_byte]
      dsimp only
      have hrange : List.range' b (c.vout.length - b) =
          b :: List.range' (b + 1) (c.vout.length - (b + 1)) := by
        rw [show c.vout.length - b = (c.vout.length - (b + 1)) + 1 by omega]
        rfl
      cases hs : c.maskByteSet b with
      | true =>
        simp only [Bool.not_true, Bool.not_false, if_true]
        obtain ⟨r, hr, hcount, hnone, hlast⟩ := ih (b + 1) (b + 1) (nz + 1) (by omega) (by omega)
        refine ⟨r, hr, ?_, ?_, ?_⟩
        · rw [hcount, hrange, List.countP_cons_of_pos _ _ hs]; omega
        · intro hall
          rw [hall b (le_refl b)] at hs
          cases hs
        · intro bm hbm hsm hgt
          by_cases heq : bm = b
          · subst heq
            exact hnone (fun b1 hb1 => hgt b1 (by omega))
          · exact hlast bm (by omega) hsm hgt
      | false =>
        simp only [Bool.not_false, Bool.not_true, Bool.false_eq_true, if_false]
        obtain ⟨r, hr, hcount, hnone, hlast⟩ := ih (b + 1) last nz (by omega) (by omega)
        refine ⟨r, hr, ?_, ?_, ?_⟩
        · rw [hcount, hrange, List.countP_cons_of_neg _ _ (by simp [hs])]
        · intro hall
          exact hnone (fun b1 hb1 => hall b1 (by omega))
        · intro bm hbm hsm hgt
          have hne : bm ≠ b := by
            rintro rfl
            rw [hs] at hsm
            cases hsm
          exact hlast bm (by omega) hsm hgt
    · rw [if_neg hc]
      have hfalse : ∀ b1, b ≤ b1 → c.maskByteSet b1 = false := fun b1 hb1 =>
        maskByteSet_false_of_le c b1 (by omega)
      refine ⟨_, rfl, ?_, fun _ => rfl, ?_⟩
      · have : (List.range' b (c.vout.length - b)).countP c.maskByteSet = 0 := by
          rw [List.countP_eq_zero]
          intro x hx
          rw [List.mem_range'_1] at hx
          simp [hfalse x hx.1]
        rw [this]; rfl
      · intro bm hbm hsm _
        rw [hfalse bm hbm] at hsm
        cases hsm


theorem CalcMaskSize_outer (c : CCoins) :
    ∃ mb nz, c.CalcMaskSize 0 0 = some (mb, nz) ∧
      nz = (List.range c.vout.length).countP c.maskByteSet ∧
      ((∀ b, c.maskByteSet b = false) → mb = 0) ∧
      (∀ bm, c.maskByteSet bm = true → (∀ b1, bm < b1 → c.maskByteSet b1 = false) →
        mb = bm + 1) := by
  obtain ⟨r, hr, hcount, hnone, hlast⟩ :=
    outer_spec c (c.vout.length + 1) 0 0 0 (Nat.zero_le _) (by omega)
  refine ⟨r.1, r.2, ?_, ?_, ?_, ?_⟩
  · simp [CCoins.CalcMaskSize, hr]
  · rw [hcount, List.range_eq_range']
    simp
  · intro h
    exact hnone (fun b1 _ => h b1)
  · intro bm hs hgt
    exact hlast bm (Nat.zero_le _) hs hgt

theorem countP_range_stable (S : Nat → Bool) (L N : Nat) (hS : ∀ b, L ≤ b → S b = false)
    (hN : L ≤ N) : (List.range N).countP S = (List.range L).countP S := by
  induction N with
  | zero =>
    have : L = 0 := by omega
    subst this; rfl
  | succ N ih =>
    by_cases h : L = N + 1
    · subst h; rfl
    · rw [List.range_succ, List.countP_append, ih (by omega)]
      simp [hS N (by omega)]

theorem IsAvailable_drop_two {c c1 : CCoins} (h : c1.vout.drop 2 = c.vout.drop 2) (k : Nat)
    (hk : 2 ≤ k) : c1.IsAvailable k = c.IsAvailable k := by
  rw [IsAvailable_eq, IsAvailable_eq, List.getD_eq_getElem?_getD, List.getD_eq_getElem?_getD]
  have h1 : c1.vout[k]? = (c1.vout.drop 2)[k - 2]? := by
    rw [List.getElem?_drop]; congr 1; omega
  have h2 : c.vout[k]? = (c.vout.drop 2)[k - 2]? := by
    rw [List.getElem?_drop]; congr 1; omega
  rw [h1, h2, h]

theorem maskByteSet_drop_two {c c1 : CCoins} (h : c1.vout.drop 2 = c.vout.drop 2) (b : Nat) :
    c1.maskByteSet b = c.maskByteSet b := by
  unfold CCoins.maskByteSet
  congr 1
  funext j
  exact IsAvailable_drop_two h _ (by omega)

theorem maskByteSet_false_of_length_le (c : CCoins) (b : Nat) (h : c.vout.length ≤ b) :
    c.maskByteSet b = false :=
  maskByteSet_false_of_le c b (by omega)

/-- The pair `CalcMaskSize` returns is fixed by which mask bytes have a set bit. -/
theorem CalcMaskSize_congr (c c1 : CCoins) (h : ∀ b, c1.maskByteSet b = c.maskByteSet b) :
    c1.CalcMaskSize 0 0 = c.CalcMaskSize 0 0 := by
  obtain ⟨mb, nz, hr, hnz, hnone, hlast⟩ := CalcMaskSize_outer c
  obtain ⟨mb1, nz1, hr1, hnz1, hnone1, hlast1⟩ := CalcMaskSize_outer c1
  have hfun : c1.maskByteSet = c.maskByteSet := funext h
  rw [hfun] at hnz1 hnone1 hlast1
  rw [hr, hr1]
  have hnzeq : nz1 = nz := by
    rw [hnz, hnz1]
    rw [← countP_range_stable c.maskByteSet c.vout.length (max c.vout.length c1.vout.length)
        (fun b hb => maskByteSet_false_of_length_le c b hb) (le_max_left _ _),
      ← countP_range_stable c.maskByteSet c1.vout.length (max c.vout.length c1.vout.length)
        (fun b hb => by rw [← h b]; exact maskByteSet_false_of_length_le c1 b hb)
        (le_max_right _ _)]
  have hmbeq : mb1 = mb := by
    by_cases hall : ∀ b, c.maskByteSet b = false
    · rw [hnone hall, hnone1 hall]
    · have hex : ∃ b, c.maskByteSet b = true := by
        by_contra hne
        exact hall (fun b => by
          cases hs : c.maskByteSet b with
          | false => rfl
          | true => exact absurd ⟨b, hs⟩ hne)
      obtain ⟨b0, hb0⟩ := hex
      have hb0lt : b0 ≤ c.vout.length := by
        by_contra hgt
        rw [maskByteSet_false_of_length_le c b0 (by omega)] at hb0
        cases hb0
      have hspec := Nat.findGreatest_spec (P := fun b => c.maskByteSet b = true) hb0lt hb0
      have hgt : ∀ b1, Nat.findGreatest (fun b => c.maskByteSet b = true) c.vout.length < b1 →
          c.maskByteSet b1 = false := by
        intro b1 hb1
        by_cases hle : b1 ≤ c.vout.length
        · have := Nat.findGreatest_is_greatest hb1 hle
          simpa using this
        · exact maskByteSet_false_of_length_le c b1 (by omega)
      rw [hlast _ hspec hgt, hlast1 _ hspec hgt]
  rw [hnzeq, hmbeq]

/-- C12: `CalcMaskSize` called with both counters at 0 returns a pair
`(mask_bytes, nonzero_bytes)`.  With bit `j` of byte `b` standing for output
`2 + 8 * b + j`, set when that output exists and is not null, `nonzero_bytes`
is the number of bytes with a set bit; `mask_bytes` is 0 when no output of
index 2 or more is unspent, and `(m - 2) / 8 + 1` for the highest unspent index
`m ≥ 2`; and records that agree from output 2 on get the same pair. -/
theorem CalcMaskSize_spec (c : CCoins) :
    ∃ mb nz, c.CalcMaskSize 0 0 = some (mb, nz) ∧
      nz = (List.range c.vout.length).countP c.maskByteSet ∧
      ((∀ k, 2 ≤ k → c.IsAvailable k = false) → mb = 0) ∧
      (∀ m, 2 ≤ m → c.IsAvailable m = true → (∀ k, m < k → c.IsAvailable k = false) →
        mb = (m - 2) / 8 + 1) ∧
      (∀ c1 : CCoins, c1.vout.drop 2 = c.vout.drop 2 →
        c1.CalcMaskSize 0 0 = c.CalcMaskSize 0 0) := by
  obtain ⟨mb, nz, hr, hnz, hnone, hlast⟩ := CalcMaskSize_outer c
  refine ⟨mb, nz, hr, hnz, ?_, ?_, ?_⟩
  · intro hall
    apply hnone
    intro b
    by_contra hs
    obtain ⟨j, -, hav⟩ := (maskByteSet_iff c b).1 (by simpa using hs)
    rw [hall _ (by omega)] at hav
    cases hav
  · intro m hm hav hgt
    apply hlast
    · refine (maskByteSet_iff c _).2 ⟨(m - 2) % 8, Nat.mod_lt _ (by omega), ?_⟩
      rw [show 2 + 8 * ((m - 2) / 8) + (m - 2) % 8 = m by omega]
      exact hav
    · intro b1 hb1
      by_contra hs
      obtain ⟨j, -, hav1⟩ := (maskByteSet_iff c b1).1 (by simpa using hs)
      rw [hgt _ (by omega)] at hav1
      cases hav1
  · intro c1 h
    exact CalcMaskSize_congr c c1 (maskByteSet_drop_two h)


/-- Witness of `CalcMaskSize_spec`: for the record with unspent outputs 0, 3
and 10 out of eleven, the mask takes 2 bytes, both nonzero. -/
theorem CalcMaskSize_spec_witness :
    sampleRecord.CalcMaskSize 0 0 = some (2, 2) := by
  obtain ⟨mb, nz, hr, hnz, -, hlast, -⟩ := CalcMaskSize_spec sampleRecord
  have hmb : mb = (10 - 2) / 8 + 1 := hlast 10 (by decide) (by decide) (by
    intro k hk
    by_contra hav
    have := IsAvailable_lt (by simpa using hav : sampleRecord.IsAvailable k = true)
    have hlen : sampleRecord.vout.length = 11 := rfl
    omega)
  have hnz2 : nz = 2 := hnz.trans (by decide)
  rw [hr, hmb, hnz2]

/-! ## Reading through a cache -/

theorem AccessCoins_fst (c : CCoinsViewCache) (base : CCoinsView) (txid : uint256) :
    (AccessCoins c base txid).1 = (FetchCoin c base txid).1.map CCoinsCacheEntry.coins := by
  unfold AccessCoins
  split <;> rename_i heq <;> rw [heq] <;> rfl

theorem AccessCoins_snd (c : CCoinsViewCache) (base : CCoinsView) (txid : uint256) :
    (AccessCoins c base txid).2 = (FetchCoin c base txid).2 := by
  unfold AccessCoins
  split <;> rename_i heq <;> rw [heq]

theorem coin_of_map {it it1 : Option CCoinsCacheEntry}
    (h : it.map CCoinsCacheEntry.coins = it1.map CCoinsCacheEntry.coins) (n : Nat) :
    AccessCoin.coin it n = AccessCoin.coin it1 n := by
  cases it with
  | none =>
    cases it1 with
    | none => rfl
    | some e1 => cases h
  | some e =>
    cases it1 with
    | none => cases h
    | some e1 => exact coin_congr (Option.some.inj h) n

theorem SameObs_fetch {c1 c : CCoinsViewCache} {b1 b : CCoinsView} (h : SameObs c1 b1 c b)
    (k : uint256) : SameObs (FetchCoin c1 b1 k).2.1 (FetchCoin c1 b1 k).2.2 c b := by
  intro k1
  have hs := View_GetCoin_stable (.cache c1 b1) k k1
  rw [cache_GetCoin, cache_GetCoin, cache_GetCoin] at hs
  exact hs.trans (h k1)

theorem SameObs_AccessCoin {c1 c : CCoinsViewCache} {b1 b : CCoinsView} (h : SameObs c1 b1 c b)
    (o : COutPoint) : (AccessCoin c1 b1 o).1 = (AccessCoin c b o).1 :=
  coin_of_map (h o.hash) o.n

theorem SameObs_AccessCoins {c1 c : CCoinsViewCache} {b1 b : CCoinsView} (h : SameObs c1 b1 c b)
    (k : uint256) : (AccessCoins c1 b1 k).1 = (AccessCoins c b k).1 := by
  rw [AccessCoins_fst, AccessCoins_fst]
  exact h k

theorem AccessCoin_of_record (c : CCoinsViewCache) (b : CCoinsView) (o : COutPoint) :
    (AccessCoin c b o).1 =
      match (AccessCoins c b o.hash).1 with
      | none => coinEmpty
      | some coins =>
        if coins.IsAvailable o.n then
          { out := coins.vout.getD o.n CTxOut.null, nHeight := coins.nHeight,
            fCoinBase := coins.fCoinBase }
        else coinEmpty := by
  rw [AccessCoins_fst, AccessCoin_fst]
  cases (FetchCoin c b o.hash).1 with
  | none => rfl
  | some e =>
    simp only [AccessCoin.coin, Option.map_some']
    cases e.coins.IsAvailable o.n <;> rfl

theorem coinEmpty_IsSpent : coinEmpty.IsSpent = true := by decide

theorem available_not_null {coins : CCoins} {n : Nat} (h : coins.IsAvailable n = true) :
    (coins.vout.getD n CTxOut.null).IsNull = false := by
  rw [IsAvailable_eq] at h
  simpa using h

/-! ## C19: the frame of `add_coin` -/

theorem FetchCoin_of_lookup {c1 c : CCoinsViewCache} (base : CCoinsView) {k : uint256}
    (h : c1.cacheCoins.lookup k = c.cacheCoins.lookup k) :
    (FetchCoin c1 base k).1 = (FetchCoin c base k).1 := by
  cases hl : c.cacheCoins.lookup k with
  | some e =>
    rw [hl] at h
    rw [FetchCoin_hit h, FetchCoin_hit hl]
  | none =>
    rw [hl] at h
    cases hb : (base.GetCoin k).1 with
    | none => rw [FetchCoin_miss_none h hb, FetchCoin_miss_none hl hb]
    | some tmp => rw [FetchCoin_miss_some h hb, FetchCoin_miss_some hl hb]

theorem resize_getD (v : List CTxOut) (k i : Nat) (hk : v.length ≤ k) :
    (resize v k).getD i CTxOut.null = v.getD i CTxOut.null := by
  unfold resize
  rw [List.take_of_length_le hk, List.getD_eq_getElem?_getD, List.getD_eq_getElem?_getD]
  by_cases hi : i < v.length
  · rw [List.getElem?_append_left hi]
  · have hi1 : v.length ≤ i := Nat.le_of_not_lt hi
    rw [List.getElem?_append_right hi1, List.getElem?_eq_none hi1]
    by_cases h2 : i - v.length < k - v.length
    · rw [List.getElem?_replicate_of_lt h2]; rfl
    · rw [List.getElem?_eq_none (by simpa using h2)]

theorem grow_getD (v : List CTxOut) (n i : Nat) (hlt : n < (AddCoin.grow v n).length) :
    (AddCoin.grow v n).getD i CTxOut.null = v.getD i CTxOut.null := by
  unfold AddCoin.grow at hlt ⊢
  by_cases hle : v.length ≤ n
  · rw [if_pos hle] at hlt ⊢
    apply resize_getD
    by_contra hk
    have hk1 : (n + 1) % UINT32_MOD < v.length := Nat.lt_of_not_le hk
    unfold resize at hlt
    simp only [List.length_append, List.length_take, List.length_replicate] at hlt
    omega
  · rw [if_neg hle]

theorem store_getD_ne (it : CCoinsCacheEntry) (n i : Nat) (coin : Coin) (po : Bool)
    (hlt : n < (AddCoin.grow it.coins.vout n).length) (hne : i ≠ n) :
    (AddCoin.store it n coin po).coins.vout.getD i CTxOut.null =
      it.coins.vout.getD i CTxOut.null := by
  rw [← grow_getD it.coins.vout n i hlt]
  simp only [AddCoin.store, List.getD_eq_getElem?_getD]
  rw [List.getElem?_set_ne (Ne.symm hne)]

theorem coin_store_ne (it : CCoinsCacheEntry) (n i : Nat) (coin : Coin) (po : Bool)
    (hlt : n < (AddCoin.grow it.coins.vout n).length) (hne : i ≠ n) :
    AccessCoin.coin (some (AddCoin.store it n coin po)) i =
      if (AccessCoin.coin (some it) i).IsSpent then coinEmpty
      else { AccessCoin.coin (some it) i with
              nHeight := coin.nHeight, fCoinBase := coin.fCoinBase } := by
  have hg := store_getD_ne it n i coin po hlt hne
  unfold AccessCoin.coin
  dsimp only
  rw [IsAvailable_eq, IsAvailable_eq, hg]
  cases hnull : (it.coins.vout.getD i CTxOut.null).IsNull with
  | true => simp [coinEmpty_IsSpent]
  | false =>
    simp only [Bool.not_false, Bool.not_true, Bool.false_eq_true, if_false, Coin.IsSpent,
      hnull, AddCoin.store]

/-- C19 as stated fails twice.  (a) The cache holds (7,0) at height 10;
`add_coin((7,1), coin99, false)`, a coin of height 11, does not fail, and
`access_coin((7,0))` then returns the same output with height 11.  (b) The
cache is empty over a parent that holds (7,0) as unspent; after the same call
`access_coin((7,0))` returns the empty coin, where it returned the parent's
coin before. -/
theorem add_coin_frame_counterexample :
    (∃ c1, AddCoin sampleEnv cacheWith7 ⟨7, 1⟩ coin99 false = .ok c1 ∧
      (AccessCoin cacheWith7 .plain ⟨7, 0⟩).1 = coin50 ∧
      (AccessCoin c1 .plain ⟨7, 0⟩).1 = { coin50 with nHeight := 11 }) ∧
    (∃ c1, AddCoin sampleEnv CCoinsViewCache.new ⟨7, 1⟩ coin99 false = .ok c1 ∧
      (AccessCoin CCoinsViewCache.new liveParent ⟨7, 0⟩).1 = coin50 ∧
      (AccessCoin c1 liveParent ⟨7, 0⟩).1 = coinEmpty) :=
  ⟨⟨_, rfl, by decide, by decide⟩, ⟨_, rfl, by decide, by decide⟩⟩

theorem coin_of_IsSpent {it : Option CCoinsCacheEntry} {n : Nat}
    (h : (AccessCoin.coin it n).IsSpent = true) : AccessCoin.coin it n = coinEmpty := by
  cases it with
  | none => rfl
  | some e =>
    unfold AccessCoin.coin at h ⊢
    dsimp only at h ⊢
    cases hav : e.coins.IsAvailable n with
    | false => simp
    | true =>
      rw [hav] at h
      simp only [Bool.not_true, Bool.false_eq_true, if_false, Coin.IsSpent] at h
      rw [available_not_null hav] at h
      cases h

/-- C19 (amended): for every cache state, parent view, outpoint `o`, unspent
spendable coin and flag `possible_overwrite` for which `add_coin` does not
fail: for every outpoint `o1` of another txid, `access_coin(o1)` returns the
same coin after the call as before.  For every outpoint `o1` of the same txid
with a different index: when `access_coin(o1)` was spent before the call, it
returns the same (empty) coin after it; and when the cache's map held an entry
for that txid before the call, `access_coin(o1)` is spent after the call
exactly when it was before, and otherwise returns the same output with the
height and the coinbase flag of the coin added, which is the same coin when
these are the height and the coinbase flag it had. -/
theorem add_coin_frame (E : Env) (c c1 : CCoinsViewCache) (base : CCoinsView) (o o1 : COutPoint)
    (coin : Coin) (possible_overwrite : Bool)
    (hsp : E.IsUnspendable coin.out.scriptPubKey = false)
    (hadd : AddCoin E c o coin possible_overwrite = .ok c1) :
    (o1.hash ≠ o.hash → (AccessCoin c1 base o1).1 = (AccessCoin c base o1).1) ∧
    (o1.hash = o.hash → o1.n ≠ o.n → (AccessCoin c base o1).1.IsSpent = true →
      (AccessCoin c1 base o1).1 = (AccessCoin c base o1).1) ∧
    (o1.hash = o.hash → o1.n ≠ o.n → (c.cacheCoins.lookup o.hash).isSome = true →
      (AccessCoin c1 base o1).1 =
        if (AccessCoin c base o1).1.IsSpent then coinEmpty
        else { (AccessCoin c base o1).1 with
                nHeight := coin.nHeight, fCoinBase := coin.fCoinBase }) ∧
    (o1.hash = o.hash → o1.n ≠ o.n → (c.cacheCoins.lookup o.hash).isSome = true →
      (AccessCoin c base o1).1.nHeight = coin.nHeight →
      (AccessCoin c base o1).1.fCoinBase = coin.fCoinBase →
      (AccessCoin c1 base o1).1 = (AccessCoin c base o1).1) := by
  obtain ⟨-, -, hlt, rfl⟩ := AddCoin_ok hadd hsp
  have hl : o1.hash = o.hash → ∀ m : CCoinsMap, (m.insert o.hash
      (AddCoin.store (AddCoin.it c o.hash) o.n coin possible_overwrite)).lookup o1.hash =
      some (AddCoin.store (AddCoin.it c o.hash) o.n coin possible_overwrite) := by
    intro hh m
    rw [hh]
    exact AList.lookup_insert _
  have hentry : o1.hash = o.hash → o1.n ≠ o.n → (c.cacheCoins.lookup o.hash).isSome = true →
      (AccessCoin { c with
          cacheCoins := (AddCoin.emplace c o.hash).insert o.hash
            (AddCoin.store (AddCoin.it c o.hash) o.n coin possible_overwrite),
          cachedCoinsUsage := addSize (AddCoin.usage1 E c o.hash)
            (E.DynamicMemoryUsage
              (AddCoin.store (AddCoin.it c o.hash) o.n coin possible_overwrite).coins) }
        base o1).1 =
        if (AccessCoin c base o1).1.IsSpent then coinEmpty
        else { (AccessCoin c base o1).1 with
                nHeight := coin.nHeight, fCoinBase := coin.fCoinBase } := by
    intro hh hn hsome
    obtain ⟨e, he⟩ := Option.isSome_iff_exists.1 hsome
    have he1 : c.cacheCoins.lookup o1.hash = some e := by rw [hh]; exact he
    have hit : AddCoin.it c o.hash = e := by simp [AddCoin.it, he]
    rw [AccessCoin_of_lookup base he1]
    rw [AccessCoin_of_lookup base (hl hh _), coin_store_ne _ _ _ _ _ hlt hn, hit]
  refine ⟨?_, ?_, hentry, ?_⟩
  · intro hne
    unfold AccessCoin
    dsimp only
    rw [FetchCoin_of_lookup base (c := c)]
    dsimp only
    rw [AList.lookup_insert_ne hne, emplace_lookup_ne c hne]
  · intro hh hn hspent
    have hbefore : (AccessCoin c base o1).1 = coinEmpty := by
      rw [AccessCoin_fst] at hspent ⊢
      exact coin_of_IsSpent hspent
    cases hlk : c.cacheCoins.lookup o.hash with
    | some e =>
      rw [hentry hh hn (by rw [hlk]; rfl), hspent, if_pos rfl, hbefore]
    | none =>
      have hit : AddCoin.it c o.hash = CCoinsCacheEntry.empty := by simp [AddCoin.it, hlk]
      rw [AccessCoin_of_lookup base (hl hh _), coin_store_ne _ _ _ _ _ hlt hn, hit, hbefore]
      rfl
  · intro hh hn hsome hheight hcb
    rw [hentry hh hn hsome]
    cases hs : (AccessCoin c base o1).1.IsSpent with
    | true =>
      rw [if_pos rfl]
      rw [AccessCoin_fst] at hs ⊢
      exact (coin_of_IsSpent hs).symm
    | false =>
      rw [if_neg (by simp), ← hheight, ← hcb]

/-- Witness of `add_coin_frame`: the cache holds (7,0) at height 10 and
`coin99` of height 11 is added at (7,1); (9,0) reads as before, (7,2) stays
spent and (7,0) keeps its output with height 11.  On the empty cache over the
plain view, (7,0) stays spent when `coin99` is added at (7,1). -/
theorem add_coin_frame_witness :
    (∃ c1, AddCoin sampleEnv cacheWith7 ⟨7, 1⟩ coin99 false = .ok c1 ∧
      (AccessCoin c1 .plain ⟨9, 0⟩).1 = (AccessCoin cacheWith7 .plain ⟨9, 0⟩).1 ∧
      (AccessCoin c1 .plain ⟨7, 2⟩).1 = (AccessCoin cacheWith7 .plain ⟨7, 2⟩).1 ∧
      (AccessCoin c1 .plain ⟨7, 0⟩).1 = { coin50 with nHeight := 11 }) ∧
    (∃ c1, AddCoin sampleEnv CCoinsViewCache.new ⟨7, 1⟩ coin99 false = .ok c1 ∧
      (AccessCoin c1 .plain ⟨7, 0⟩).1 = (AccessCoin CCoinsViewCache.new .plain ⟨7, 0⟩).1) := by
  obtain ⟨c1, h1⟩ : ∃ c1, AddCoin sampleEnv cacheWith7 ⟨7, 1⟩ coin99 false = .ok c1 := ⟨_, rfl⟩
  obtain ⟨c2, h2⟩ : ∃ c2, AddCoin sampleEnv CCoinsViewCache.new ⟨7, 1⟩ coin99 false = .ok c2 :=
    ⟨_, rfl⟩
  exact ⟨⟨c1, h1,
    (add_coin_frame sampleEnv cacheWith7 c1 .plain ⟨7, 1⟩ ⟨9, 0⟩ coin99 false (by decide) h1).1
      (by decide),
    (add_coin_frame sampleEnv cacheWith7 c1 .plain ⟨7, 1⟩ ⟨7, 2⟩ coin99 false (by decide) h1).2.1
      rfl (by decide) (by decide),
    ((add_coin_frame sampleEnv cacheWith7 c1 .plain ⟨7, 1⟩ ⟨7, 0⟩ coin99 false (by decide)
      h1).2.2.1 rfl (by decide) (by decide)).trans (by decide)⟩,
    ⟨c2, h2,
      (add_coin_frame sampleEnv CCoinsViewCache.new c2 .plain ⟨7, 1⟩ ⟨7, 0⟩ coin99 false
        (by decide) h2).2.1 rfl (by decide) (by decide)⟩⟩

/-! ## C18: soundness of `FRESH` -/

theorem GetCoin_snd (c : CCoinsViewCache) (base : CCoinsView) (txid : uint256) :
    (GetCoin c base txid).2 = (FetchCoin c base txid).2 := by
  unfold GetCoin
  split <;> rename_i heq <;> rw [heq]

theorem HaveCoin_snd (c : CCoinsViewCache) (base : CCoinsView) (txid : uint256) :
    (HaveCoin c base txid).2 = (FetchCoin c base txid).2 := by
  unfold HaveCoin
  split <;> rename_i heq <;> rw [heq]

theorem HaveCoinAt_snd (c : CCoinsViewCache) (base : CCoinsView) (o : COutPoint) :
    (HaveCoinAt c base o).2 = (FetchCoin c base o.hash).2 := by
  unfold HaveCoinAt
  split <;> rename_i heq <;> rw [heq]

theorem Mirrors_fetch {c : CCoinsViewCache} {b b0 : CCoinsView} (h : Mirrors c b b0)
    (k : uint256) : Mirrors (FetchCoin c b k).2.1 (FetchCoin c b k).2.2 b0 := by
  obtain ⟨-, h2, h3, h4, h5, h6⟩ := FetchCoin_effect c b k
  refine ⟨FetchCoin_sound k h.sound, ?_, fun k1 => (h2 k1).trans (h.same k1)⟩
  intro k1 e he hd
  rw [h2]
  by_cases hk : k1 = k
  · subst hk
    cases hl : c.cacheCoins.lookup k1 with
    | some e0 =>
      rw [h3, h5 e0 hl] at he
      cases he
      exact h.clean k1 _ hl hd
    | none =>
      rw [h3, h6 hl] at he
      cases hg : (b.GetCoin k1).1 with
      | none => rw [hg] at he; cases he
      | some tmp =>
        rw [hg] at he
        cases he
        rfl
  · rw [h4 k1 hk] at he
    exact h.clean k1 e he hd

theorem store_isFresh (it : CCoinsCacheEntry) (n : Nat) (coin : Coin) (po : Bool) :
    (AddCoin.store it n coin po).isFresh = (it.isFresh || AddCoin.fresh it po) := by
  cases hs : (AddCoin.store it n coin po).isFresh with
  | false =>
    obtain ⟨h1, h2⟩ := store_isFresh_false hs
    rw [h1, h2]; rfl
  | true =>
    by_contra hne
    have h1 : it.isFresh = false ∧ AddCoin.fresh it po = false := by
      cases hf : it.isFresh <;> cases hg : AddCoin.fresh it po <;> simp [hf, hg] at hne ⊢
    have h2 : (AddCoin.store it n coin po).isFresh = false := by
      unfold AddCoin.store
      unfold CCoinsCacheEntry.isFresh at h1 ⊢
      dsimp only
      rw [h1.2]
      simp only [Bool.false_eq_true, if_false, Nat.or_zero, land_FRESH_lor_DIRTY]
      exact h1.1
    rw [hs] at h2
    cases h2

theorem holdsLive_false {b : CCoinsView} {k : uint256} {r : CCoins}
    (h : b.holdsLive k = false) (hr : (b.GetCoin k).1 = some r) : r.IsSpent = true := by
  unfold CCoinsView.holdsLive at h
  rw [hr] at h
  simpa using h

theorem Mirrors_add {E : Env} {c c1 : CCoinsViewCache} {b b0 : CCoinsView} (h : Mirrors c b b0)
    {o : COutPoint} {coin : Coin} {po : Bool}
    (hg : (Call.add o coin po).guarded E c b = true)
    (hadd : AddCoin E c o coin po = .ok c1) : Mirrors c1 b b0 := by
  by_cases hsp : E.IsUnspendable coin.out.scriptPubKey = true
  · have hc : c1 = c := by
      unfold AddCoin at hadd
      by_cases h1 : coin.IsSpent = true
      · rw [if_pos h1] at hadd; cases hadd
      · rw [if_neg h1, if_pos hsp] at hadd
        cases hadd
        rfl
    rw [hc]
    exact h
  · have hsp1 : E.IsUnspendable coin.out.scriptPubKey = false := by simpa using hsp
    obtain ⟨-, -, -, rfl⟩ := AddCoin_ok hadd hsp1
    have hl : ∀ k, k ≠ o.hash →
        ((AddCoin.emplace c o.hash).insert o.hash
          (AddCoin.store (AddCoin.it c o.hash) o.n coin po)).lookup k = c.cacheCoins.lookup k :=
      fun k hk => by rw [AList.lookup_insert_ne hk, emplace_lookup_ne c hk]
    refine ⟨?_, ?_, h.same⟩
    · intro k P r hP hf hr
      dsimp only at hP
      by_cases hk : k = o.hash
      · subst hk
        rw [AList.lookup_insert] at hP
        cases hP
        rw [store_isFresh] at hf
        cases hl1 : c.cacheCoins.lookup o.hash with
        | some e =>
          have hit : AddCoin.it c o.hash = e := by simp [AddCoin.it, hl1]
          rw [hit] at hf
          rcases Bool.or_eq_true_iff.1 hf with hf1 | hf2
          · exact h.sound _ e r hl1 hf1 hr
          · unfold AddCoin.fresh at hf2
            simp only [Bool.and_eq_true, Bool.not_eq_true'] at hf2
            have hc := h.clean _ e hl1 hf2.2.2
            rw [hc] at hr
            cases hr
            exact hf2.2.1
        | none =>
          have hit : AddCoin.it c o.hash = CCoinsCacheEntry.empty := by simp [AddCoin.it, hl1]
          rw [hit] at hf
          rcases Bool.or_eq_true_iff.1 hf with hf1 | hf2
          · exact absurd hf1 (by decide)
          · unfold AddCoin.fresh at hf2
            simp only [Bool.and_eq_true, Bool.not_eq_true'] at hf2
            have hpo : po = false := hf2.1
            subst hpo
            have hg1 : (E.IsUnspendable coin.out.scriptPubKey ||
                (c.cacheCoins.lookup o.hash).isSome || !b.holdsLive o.hash) = true := hg
            rw [hsp1, hl1] at hg1
            simp only [Option.isSome_none, Bool.or_self, Bool.false_or, Bool.not_eq_true'] at hg1
            exact holdsLive_false hg1 hr
      · rw [hl k hk] at hP
        exact h.sound k P r hP hf hr
    · intro k e he hd
      dsimp only at he
      by_cases hk : k = o.hash
      · subst hk
        rw [AList.lookup_insert] at he
        cases he
        rw [store_isDirty] at hd
        cases hd
      · rw [hl k hk] at he
        exact h.clean k e he hd


theorem update_lookup_ne (E : Env) (c : CCoinsViewCache) (it : CCoinsCacheEntry) (o : COutPoint)
    {k : uint256} (hk : k ≠ o.hash) :
    (SpendCoin.update E c it o).cacheCoins.lookup k = c.cacheCoins.lookup k := by
  unfold SpendCoin.update
  split_ifs
  · exact AList.lookup_erase_ne hk
  · exact AList.lookup_insert_ne hk

theorem Mirrors_spend (E : Env) {c : CCoinsViewCache} {b b0 : CCoinsView} (h : Mirrors c b b0)
    (o : COutPoint) : Mirrors (SpendCoin E c b o).2.1 (SpendCoin E c b o).2.2 b0 := by
  have hm := Mirrors_fetch h o.hash
  obtain ⟨-, -, h3, -⟩ := FetchCoin_effect c b o.hash
  cases hf : FetchCoin c b o.hash with
  | mk it r =>
    cases r with
    | mk c1 b1 =>
      rw [hf] at hm h3
      dsimp only at hm h3
      cases it with
      | none =>
        rw [SpendCoin_of_fetch_none hf]
        exact hm
      | some it =>
        rw [SpendCoin_of_fetch hf]
        dsimp only
        refine ⟨?_, ?_, hm.same⟩
        · intro k P r hP hfr hr
          by_cases hk : k = o.hash
          · subst hk
            rw [update_lookup] at hP
            split_ifs at hP
            cases hP
            rw [isFresh_lor_DIRTY _ it.coins] at hfr
            exact hm.sound _ it r h3 hfr hr
          · rw [update_lookup_ne E c1 it o hk] at hP
            exact hm.sound k P r hP hfr hr
        · intro k e he hd
          by_cases hk : k = o.hash
          · subst hk
            rw [update_lookup] at he
            split_ifs at he
            cases he
            rw [isDirty_lor_DIRTY] at hd
            cases hd
          · rw [update_lookup_ne E c1 it o hk] at he
            exact hm.clean k e he hd

theorem Mirrors_release {c1 c2 : CCoinsViewCache} {b1 b0 : CCoinsView} {txid : uint256}
    {coins : CCoins} {c : CCoinsViewCache} {e : CCoinsCacheEntry}
    (h : Mirrors c b1 b0)
    (hother : ∀ k, k ≠ txid → c1.cacheCoins.lookup k = c.cacheCoins.lookup k)
    (he : c1.cacheCoins.lookup txid = some e) (hd : e.isDirty = true)
    (hfresh : e.isFresh = true → ∀ r, (b1.GetCoin txid).1 = some r → r.IsSpent = true)
    (hrel : CCoinsModifier.release (CCoinsModifier.assign c1 txid coins) txid = .ok c2) :
    Mirrors c2 b1 b0 := by
  unfold CCoinsModifier.assign at hrel
  rw [he] at hrel
  unfold CCoinsModifier.release at hrel
  dsimp only at hrel
  rw [AList.lookup_insert] at hrel
  dsimp only at hrel
  have hfl : ∀ x : CCoins, CCoinsCacheEntry.isFresh { coins := x, flags := e.flags } = e.isFresh :=
    fun _ => rfl
  have hdl : ∀ x : CCoins, CCoinsCacheEntry.isDirty { coins := x, flags := e.flags } = e.isDirty :=
    fun _ => rfl
  by_cases hmod : c1.hasModifier = true
  · rw [if_neg (by simp [hmod])] at hrel
    by_cases hcond : (CCoinsCacheEntry.isFresh { coins := coins, flags := e.flags } &&
        coins.Cleanup.IsSpent) = true
    · rw [if_pos hcond] at hrel
      cases hrel
      refine ⟨?_, ?_, h.same⟩
      · intro k P r hP hf hr
        dsimp only at hP
        by_cases hk : k = txid
        · subst hk
          rw [AList.lookup_erase] at hP
          cases hP
        · rw [AList.lookup_erase_ne hk, AList.lookup_insert_ne hk, hother k hk] at hP
          exact h.sound k P r hP hf hr
      · intro k e1 he1 hd1
        dsimp only at he1
        by_cases hk : k = txid
        · subst hk
          rw [AList.lookup_erase] at he1
          cases he1
        · rw [AList.lookup_erase_ne hk, AList.lookup_insert_ne hk, hother k hk] at he1
          exact h.clean k e1 he1 hd1
    · rw [if_neg hcond] at hrel
      cases hrel
      refine ⟨?_, ?_, h.same⟩
      · intro k P r hP hf hr
        dsimp only at hP
        by_cases hk : k = txid
        · subst hk
          rw [AList.lookup_insert] at hP
          cases hP
          rw [hfl] at hf
          exact hfresh hf r hr
        · rw [AList.lookup_insert_ne hk, AList.lookup_insert_ne hk, hother k hk] at hP
          exact h.sound k P r hP hf hr
      · intro k e1 he1 hd1
        dsimp only at he1
        by_cases hk : k = txid
        · subst hk
          rw [AList.lookup_insert] at he1
          cases he1
          rw [hdl, hd] at hd1
          cases hd1
        · rw [AList.lookup_insert_ne hk, AList.lookup_insert_ne hk, hother k hk] at he1
          exact h.clean k e1 he1 hd1
  · rw [if_pos (by simpa using hmod)] at hrel
    cases hrel


theorem ModifyCoins_effect {c c1 : CCoinsViewCache} {base b1 : CCoinsView} {txid : uint256}
    (h : ModifyCoins c base txid = .ok (c1, b1)) :
    ∃ e, c1.cacheCoins.lookup txid = some e ∧ e.isDirty = true ∧
      (∀ k, k ≠ txid → c1.cacheCoins.lookup k = c.cacheCoins.lookup k) ∧
      (b1 = base ∨ b1 = (base.GetCoin txid).2) ∧
      (e.isFresh = true →
        (∃ e0, c.cacheCoins.lookup txid = some e0 ∧ e0.isFresh = true) ∨
          (base.GetCoin txid).1 = none) := by
  unfold ModifyCoins at h
  by_cases hm : c.hasModifier = true
  · rw [if_pos hm] at h; cases h
  · rw [if_neg hm] at h
    cases hl : c.cacheCoins.lookup txid with
    | some e0 =>
      rw [hl] at h
      cases h
      refine ⟨_, AList.lookup_insert _, isDirty_lor_DIRTY _ _,
        fun k hk => AList.lookup_insert_ne hk, Or.inl rfl, fun hf => Or.inl ⟨e0, rfl, ?_⟩⟩
      rw [isFresh_lor_DIRTY _ e0.coins] at hf
      exact hf
    | none =>
      rw [hl] at h
      cases hg : base.GetCoin txid with
      | mk r b2 =>
        rw [hg] at h
        cases r with
        | some coins =>
          cases h
          refine ⟨_, AList.lookup_insert _, isDirty_lor_DIRTY _ _,
            fun k hk => AList.lookup_insert_ne hk, Or.inr rfl, fun hf => ?_⟩
          simp [CCoinsCacheEntry.isFresh, CCoinsCacheEntry.empty, DIRTY, FRESH] at hf
        | none =>
          dsimp only at h
          rw [if_neg (by decide)] at h
          cases h
          exact ⟨_, AList.lookup_insert _, isDirty_lor_DIRTY _ _,
            fun k hk => AList.lookup_insert_ne hk, Or.inr rfl, fun _ => Or.inr rfl⟩

theorem Mirrors_base {c : CCoinsViewCache} {b b0 : CCoinsView} (h : Mirrors c b b0)
    (k : uint256) : Mirrors c (b.GetCoin k).2 b0 := by
  refine ⟨?_, ?_, fun k1 => (View_GetCoin_stable b k k1).trans (h.same k1)⟩
  · intro k1 P r hP hf hr
    rw [View_GetCoin_stable] at hr
    exact h.sound k1 P r hP hf hr
  · intro k1 e he hd
    rw [View_GetCoin_stable]
    exact h.clean k1 e he hd

theorem Mirrors_modify {E : Env} {c c2 : CCoinsViewCache} {b b0 b2 : CCoinsView}
    (h : Mirrors c b b0) {txid : uint256} {coins : CCoins}
    (hcall : applyCall E c b (.modify txid coins) = .ok (c2, b2)) : Mirrors c2 b2 b0 := by
  dsimp only [applyCall] at hcall
  cases hmc : ModifyCoins c b txid with
  | ok r =>
    rw [hmc] at hcall
    dsimp only at hcall
    cases hrel : CCoinsModifier.release (CCoinsModifier.assign r.1 txid coins) txid with
    | ok c3 =>
      rw [hrel] at hcall
      cases hcall
      have hmc1 : ModifyCoins c b txid = .ok (r.1, r.2) := hmc
      obtain ⟨e, he, hd, hother, hb, hfr⟩ := ModifyCoins_effect hmc1
      have hm1 : Mirrors c r.2 b0 := by
        rcases hb with hb | hb
        · rw [hb]; exact h
        · rw [hb]; exact Mirrors_base h txid
      have hsame : (r.2.GetCoin txid).1 = (b.GetCoin txid).1 :=
        (hm1.same txid).trans (h.same txid).symm
      refine Mirrors_release hm1 hother he hd ?_ hrel
      intro hf r1 hr1
      rw [hsame] at hr1
      rcases hfr hf with ⟨e0, he0, hf0⟩ | hnone
      · exact h.sound txid e0 r1 he0 hf0 hr1
      · rw [hnone] at hr1; cases hr1
    | thrown c3 => rw [hrel] at hcall; cases hcall
    | abort => rw [hrel] at hcall; cases hcall
    | undefined => rw [hrel] at hcall; cases hcall
  | thrown r => rw [hmc] at hcall; cases hcall
  | abort => rw [hmc] at hcall; cases hcall
  | undefined => rw [hmc] at hcall; cases hcall

theorem Mirrors_call {E : Env} {c c2 : CCoinsViewCache} {b b0 b2 : CCoinsView}
    (h : Mirrors c b b0) (call : Call) (hg : call.guarded E c b = true)
    (hcall : applyCall E c b call = .ok (c2, b2)) : Mirrors c2 b2 b0 := by
  cases call with
  | get txid =>
    have h1 : (GetCoin c b txid).2 = (c2, b2) := Result.ok.inj hcall
    rw [GetCoin_snd] at h1
    have hm := Mirrors_fetch h txid
    rw [h1] at hm
    exact hm
  | access o =>
    have h1 : (AccessCoin c b o).2 = (c2, b2) := Result.ok.inj hcall
    rw [AccessCoin_snd] at h1
    have hm := Mirrors_fetch h o.hash
    rw [h1] at hm
    exact hm
  | haveCoin txid =>
    have h1 : (HaveCoin c b txid).2 = (c2, b2) := Result.ok.inj hcall
    rw [HaveCoin_snd] at h1
    have hm := Mirrors_fetch h txid
    rw [h1] at hm
    exact hm
  | haveCoinAt o =>
    have h1 : (HaveCoinAt c b o).2 = (c2, b2) := Result.ok.inj hcall
    rw [HaveCoinAt_snd] at h1
    have hm := Mirrors_fetch h o.hash
    rw [h1] at hm
    exact hm
  | add o coin po =>
    dsimp only [applyCall] at hcall
    cases hadd : AddCoin E c o coin po with
    | ok c1 =>
      rw [hadd] at hcall
      cases hcall
      exact Mirrors_add h hg hadd
    | thrown c1 => rw [hadd] at hcall; cases hcall
    | abort => rw [hadd] at hcall; cases hcall
    | undefined => rw [hadd] at hcall; cases hcall
  | spend o =>
    have h1 : (SpendCoin E c b o).2 = (c2, b2) := Result.ok.inj hcall
    have hm := Mirrors_spend E h o
    rw [h1] at hm
    exact hm
  | modify txid coins => exact Mirrors_modify h hcall

theorem Mirrors_calls {E : Env} (calls : List Call) {c c2 : CCoinsViewCache}
    {b b0 b2 : CCoinsView} (h : Mirrors c b b0) (hg : guardedRun E calls c b = true)
    (hrun : applyCalls E calls c b = .ok (c2, b2)) : Mirrors c2 b2 b0 := by
  induction calls generalizing c b with
  | nil =>
    cases hrun
    exact h
  | cons call rest ih =>
    unfold guardedRun at hg
    unfold applyCalls at hrun
    rw [Bool.and_eq_true] at hg
    cases hc : applyCall E c b call with
    | ok r =>
      rw [hc] at hrun hg
      exact ih (Mirrors_call h call hg.1 hc) hg.2 hrun
    | thrown r => rw [hc] at hrun; cases hrun
    | abort => rw [hc] at hrun; cases hrun
    | undefined => rw [hc] at hrun; cases hrun

theorem Mirrors_new (b : CCoinsView) : Mirrors CCoinsViewCache.new b b :=
  ⟨fun _ _ _ h => (by cases h), fun _ _ h => (by cases h), fun _ => rfl⟩

/-- C18 as stated fails: on the empty cache over a parent that holds output
(7,0) as unspent, `add_coin((7,0), coin99, false)` returns and leaves an entry
for txid 7 with `FRESH` set, while the parent's `get_coin(7)` returns a record
that is not pruned. -/
theorem fresh_soundness_counterexample :
    ∃ c b e, applyCalls sampleEnv [.add ⟨7, 0⟩ coin99 false] CCoinsViewCache.new liveParent =
        .ok (c, b) ∧
      c.cacheCoins.lookup 7 = some e ∧ e.isFresh = true ∧
      (liveParent.GetCoin 7).1 =
        some { fCoinBase := false, vout := [coin50.out], nHeight := 10 } ∧
      CCoins.IsSpent { fCoinBase := false, vout := [coin50.out], nHeight := 10 } = false :=
  ⟨_, _, _, rfl, rfl, by decide, by decide, by decide⟩

/-- C18 (amended): for every cache over a parent view whose contents do not
change, in every state reachable from the empty cache by a sequence of
`get_coin` / `access_coin` / `have_coin`, `add_coin`, `spend_coin` and
`modify_coins`-with-release calls that all return, and in which no `add_coin`
of a spendable coin with `possible_overwrite = false` is made on a txid that
has no entry in the map while the parent holds it as live, every map entry
that has `FRESH` set belongs to a txid for which the parent's `get_coin` is
absent or returns a pruned record. -/
theorem fresh_soundness (E : Env) (base : CCoinsView) (calls : List Call)
    (c : CCoinsViewCache) (b : CCoinsView)
    (hguard : guardedRun E calls CCoinsViewCache.new base = true)
    (hrun : applyCalls E calls CCoinsViewCache.new base = .ok (c, b)) :
    ∀ k e, c.cacheCoins.lookup k = some e → e.isFresh = true →
      (base.GetCoin k).1 = none ∨ ∃ r, (base.GetCoin k).1 = some r ∧ r.IsSpent = true := by
  have hm := Mirrors_calls calls (Mirrors_new base) hguard hrun
  intro k e he hf
  cases hr : (base.GetCoin k).1 with
  | none => exact Or.inl rfl
  | some r =>
    refine Or.inr ⟨r, rfl, ?_⟩
    rw [← hm.same k] at hr
    exact hm.sound k e r he hf hr


/-- Witness of `fresh_soundness`: the sample sequence of calls on the empty
cache over the parent holding (7,0) returns and is guarded; the state reached
has a `FRESH` entry for txid 3, which the parent does not hold. -/
theorem fresh_soundness_witness :
    ∃ c b, applyCalls sampleEnv sampleCalls CCoinsViewCache.new liveParent = .ok (c, b) ∧
      guardedRun sampleEnv sampleCalls CCoinsViewCache.new liveParent = true ∧
      (c.cacheCoins.lookup 3).map CCoinsCacheEntry.isFresh = some true ∧
      (liveParent.GetCoin 3).1 = none ∧
      ∀ k e, c.cacheCoins.lookup k = some e → e.isFresh = true →
        (liveParent.GetCoin k).1 = none ∨
          ∃ r, (liveParent.GetCoin k).1 = some r ∧ r.IsSpent = true :=
  ⟨_, _, rfl, rfl, by decide, by decide,
    fresh_soundness sampleEnv liveParent sampleCalls _ _ rfl rfl⟩

/-! ## C20: the assertion of `batch_write` under `flush` -/

theorem BatchWriteEntry_abort {m : CCoinsMap} {txid : uint256} {it : CCoinsCacheEntry}
    (hd : it.isDirty = true) (hl : m.lookup txid = none) (hs : it.coins.IsSpent = false)
    (hf : it.isFresh = false) : BatchWriteEntry m txid it = .abort := by
  unfold BatchWriteEntry
  rw [if_pos hd, hl]
  dsimp only
  rw [if_pos (by simp [hs]), if_neg (by simp [hf])]

/-- C20 fails on the code: on the empty child over a parent cache whose map has
no entry for the txid of `o`, a single `add_coin(o, coin, true)` of an unspent
spendable coin returns and leaves an entry that is `DIRTY`, not pruned and
without `FRESH`, and the following `flush()` fails the assertion of
`batch_write`. -/
theorem flush_reaches_assert (E : Env) (p : CCoinsViewCache) (base : CCoinsView)
    (o : COutPoint) (coin : Coin) (hns : coin.IsSpent = false)
    (hsp : E.IsUnspendable coin.out.scriptPubKey = false) (hn : o.n + 1 < UINT32_MOD)
    (hp : p.cacheCoins.lookup o.hash = none) :
    ∃ c1, applyOps E [.add o coin true] CCoinsViewCache.new (.cache p base) =
        .ok (c1, .cache p base) ∧
      (∃ e, c1.cacheCoins.lookup o.hash = some e ∧ e.isDirty = true ∧
        e.coins.IsSpent = false ∧ e.isFresh = false) ∧
      Flush c1 (.cache p base) = .abort := by
  have hit : AddCoin.it CCoinsViewCache.new o.hash = CCoinsCacheEntry.empty := rfl
  have hlen : (AddCoin.grow CCoinsCacheEntry.empty.coins.vout o.n).length = o.n + 1 := by
    have h0 : CCoinsCacheEntry.empty.coins.vout = [] := rfl
    simp [AddCoin.grow, resize, h0, Nat.mod_eq_of_lt hn]
  have hlt : o.n < (AddCoin.grow (AddCoin.it CCoinsViewCache.new o.hash).coins.vout o.n).length := by
    rw [hit, hlen]
    exact Nat.lt_succ_self _
  have hadd := AddCoin_eq_ok E CCoinsViewCache.new o coin true hns hsp rfl hlt
  rw [hit] at hadd hlt
  have hnn : coin.out.IsNull = false := hns
  have hd := store_isDirty CCoinsCacheEntry.empty o.n coin true
  have hs : (AddCoin.store CCoinsCacheEntry.empty o.n coin true).coins.IsSpent = false :=
    IsSpent_of_IsAvailable (store_IsAvailable _ _ _ _ hlt hnn)
  have hf : (AddCoin.store CCoinsCacheEntry.empty o.n coin true).isFresh = false := by
    rw [store_isFresh]; rfl
  have hentries : ((AddCoin.emplace CCoinsViewCache.new o.hash).insert o.hash
      (AddCoin.store CCoinsCacheEntry.empty o.n coin true)).entries =
      [⟨o.hash, AddCoin.store CCoinsCacheEntry.empty o.n coin true⟩] := by
    have he : AddCoin.emplace CCoinsViewCache.new o.hash =
        (∅ : CCoinsMap).insert o.hash CCoinsCacheEntry.empty := rfl
    rw [he, AList.insert_insert]
    rfl
  obtain ⟨c1, hc1, hadd1⟩ : ∃ c1 : CCoinsViewCache,
      c1.cacheCoins = (AddCoin.emplace CCoinsViewCache.new o.hash).insert o.hash
        (AddCoin.store CCoinsCacheEntry.empty o.n coin true) ∧
      AddCoin E CCoinsViewCache.new o coin true = .ok c1 := ⟨_, rfl, hadd⟩
  refine ⟨c1, by simp only [applyOps, applyOp, hadd1],
    ⟨_, by rw [hc1]; exact AList.lookup_insert _, hd, hs, hf⟩, ?_⟩
  unfold Flush
  dsimp only [CCoinsView.BatchWrite, CCoinsViewCache.BatchWrite]
  rw [hc1, hentries]
  by_cases hm : p.hasModifier = true
  · rw [if_pos hm]
  · rw [if_neg hm]
    simp only [BatchWriteLoop, BatchWriteEntry_abort hd hp hs hf]

/-- Witness of `flush_reaches_assert`: `add_coin((8,0), coin50, true)` on the
empty child over the empty parent cache, then `flush()`. -/
theorem flush_reaches_assert_witness :
    ∃ c1, applyOps sampleEnv [.add ⟨8, 0⟩ coin50 true] CCoinsViewCache.new
        (.cache CCoinsViewCache.new .plain) = .ok (c1, .cache CCoinsViewCache.new .plain) ∧
      (∃ e, c1.cacheCoins.lookup 8 = some e ∧ e.isDirty = true ∧
        e.coins.IsSpent = false ∧ e.isFresh = false) ∧
      Flush c1 (.cache CCoinsViewCache.new .plain) = .abort :=
  flush_reaches_assert sampleEnv CCoinsViewCache.new .plain ⟨8, 0⟩ coin50 (by decide) (by decide)
    (by decide) rfl

/-! ## C14: `get_value_in` -/

theorem SameObs_refl (c : CCoinsViewCache) (b : CCoinsView) : SameObs c b c b := fun _ => rfl

theorem wrap64_of_range {x : Int} (h1 : -9223372036854775808 ≤ x) (h2 : x < 9223372036854775808) :
    wrap64 x = x := by
  unfold wrap64
  omega

theorem wrap64_wrap64 (x : Int) : wrap64 (wrap64 x) = wrap64 x := by
  unfold wrap64
  omega

theorem wrap64_add (x y : Int) : wrap64 (wrap64 x + y) = wrap64 (x + y) := by
  unfold wrap64
  omega

theorem GetOutputFor_of_unspent {c1 c : CCoinsViewCache} {b1 b : CCoinsView}
    (h : SameObs c1 b1 c b) (input : CTxIn)
    (hu : (AccessCoin c b input.prevout).1.IsSpent = false) :
    GetOutputFor c1 b1 input =
      .ok ((AccessCoin c b input.prevout).1.out, (FetchCoin c1 b1 input.prevout.hash).2.1,
        (FetchCoin c1 b1 input.prevout.hash).2.2) := by
  rw [AccessCoin_of_record] at hu ⊢
  unfold GetOutputFor
  rw [AccessCoins_snd, SameObs_AccessCoins h]
  cases hr : (AccessCoins c b input.prevout.hash).1 with
  | none =>
    rw [hr] at hu
    simp [coinEmpty_IsSpent] at hu
  | some coins =>
    rw [hr] at hu
    dsimp only at hu ⊢
    cases hav : coins.IsAvailable input.prevout.n with
    | false =>
      rw [hav] at hu
      simp [coinEmpty_IsSpent] at hu
    | true => simp

theorem GetOutputFor_of_spent {c1 c : CCoinsViewCache} {b1 b : CCoinsView}
    (h : SameObs c1 b1 c b) (input : CTxIn)
    (hu : (AccessCoin c b input.prevout).1.IsSpent = true) :
    GetOutputFor c1 b1 input = .abort := by
  rw [AccessCoin_of_record] at hu
  unfold GetOutputFor
  rw [SameObs_AccessCoins h]
  cases hr : (AccessCoins c b input.prevout.hash).1 with
  | none => rfl
  | some coins =>
    rw [hr] at hu
    dsimp only at hu ⊢
    cases hav : coins.IsAvailable input.prevout.n with
    | false => simp
    | true =>
      rw [hav] at hu
      simp only [if_true, Coin.IsSpent] at hu
      rw [available_not_null hav] at hu
      cases hu

theorem GetValueIn_loop_ok (c : CCoinsViewCache) (b : CCoinsView) (vin : List CTxIn)
    (nResult : Int) (c1 : CCoinsViewCache) (b1 : CCoinsView) (h : SameObs c1 b1 c b)
    (hall : ∀ input ∈ vin, (AccessCoin c b input.prevout).1.IsSpent = false)
    (hres : wrap64 nResult = nResult) :
    ∃ c2 b2, GetValueIn.loop vin nResult c1 b1 =
      .ok (wrap64 (nResult +
          (vin.map fun input => (AccessCoin c b input.prevout).1.out.nValue).sum),
        c2, b2) := by
  induction vin generalizing nResult c1 b1 with
  | nil => exact ⟨c1, b1, by simp [GetValueIn.loop, hres]⟩
  | cons input rest ih =>
    unfold GetValueIn.loop
    rw [GetOutputFor_of_unspent h input (hall input (List.mem_cons_self _ _))]
    dsimp only
    obtain ⟨c2, b2, h2⟩ := ih (wrap64 (nResult + (AccessCoin c b input.prevout).1.out.nValue)) _ _
      (SameObs_fetch h input.prevout.hash) (fun x hx => hall x (List.mem_cons_of_mem _ hx))
      (wrap64_wrap64 _)
    refine ⟨c2, b2, ?_⟩
    rw [h2, List.map_cons, List.sum_cons, wrap64_add, add_assoc]

theorem GetValueIn_loop_abort (c : CCoinsViewCache) (b : CCoinsView) (vin : List CTxIn)
    (nResult : Int) (c1 : CCoinsViewCache) (b1 : CCoinsView) (h : SameObs c1 b1 c b)
    (hex : ∃ input ∈ vin, (AccessCoin c b input.prevout).1.IsSpent = true) :
    GetValueIn.loop vin nResult c1 b1 = .abort := by
  induction vin generalizing nResult c1 b1 with
  | nil =>
    obtain ⟨x, hx, -⟩ := hex
    cases hx
  | cons input rest ih =>
    unfold GetValueIn.loop
    cases hs : (AccessCoin c b input.prevout).1.IsSpent with
    | true => rw [GetOutputFor_of_spent h input hs]
    | false =>
      rw [GetOutputFor_of_unspent h input hs]
      dsimp only
      apply ih _ _ _ (SameObs_fetch h input.prevout.hash)
      obtain ⟨x, hx, hxs⟩ := hex
      rcases List.mem_cons.1 hx with rfl | hx
      · rw [hs] at hxs; cases hxs
      · exact ⟨x, hx, hxs⟩

/-- C14 as stated fails twice.  (a) For a transaction that is no coinbase and
spends (8,0), which the cache does not hold, `get_value_in` fails the `assert`
of `GetOutputFor`, while the claimed sum of `access_coin(..).out.value` is the
number -1 (the value of the empty coin).  (b) For a transaction spending two
available outputs of value `2^62` each, the 64-bit sum overflows and
`get_value_in` returns `-2^63`, while the claimed sum is `2^63`. -/
theorem get_value_in_counterexample :
    (sampleEnv.IsCoinBase txSpending8 = false ∧
      GetValueIn sampleEnv CCoinsViewCache.new .plain txSpending8 = .abort ∧
      (txSpending8.vin.map fun input =>
        (AccessCoin CCoinsViewCache.new .plain input.prevout).1.out.nValue).sum = -1) ∧
    (sampleEnv.IsCoinBase txSpending6 = false ∧
      GetValueIn sampleEnv cacheWith6 .plain txSpending6 =
        .ok (-9223372036854775808, cacheWith6, .plain) ∧
      (txSpending6.vin.map fun input =>
        (AccessCoin cacheWith6 .plain input.prevout).1.out.nValue).sum = 9223372036854775808) :=
  ⟨⟨by decide, rfl, by decide⟩, by decide, rfl, by decide⟩

/-- C14 (amended): `get_value_in(tx)` returns 0 when `tx` is a coinbase; when
it is not, every input's outpoint is available and the sum over the inputs of
`access_coin(input.prevout).out.value` lies in the range of the signed 64-bit
amount, it returns that sum (in general it returns the sum brought into that
range modulo `2^64`); and when it is not a coinbase and some input's outpoint
is not available, the call fails the assertion. -/
theorem get_value_in_spec (E : Env) (c : CCoinsViewCache) (base : CCoinsView)
    (tx : CTransaction) :
    (E.IsCoinBase tx = true → GetValueIn E c base tx = .ok (0, c, base)) ∧
    (E.IsCoinBase tx = false →
      (∀ input ∈ tx.vin, (AccessCoin c base input.prevout).1.IsSpent = false) →
      ∃ r c1 b1, GetValueIn E c base tx = .ok (r, c1, b1) ∧
        r = wrap64 (tx.vin.map fun input => (AccessCoin c base input.prevout).1.out.nValue).sum ∧
        (-9223372036854775808 ≤
            (tx.vin.map fun input => (AccessCoin c base input.prevout).1.out.nValue).sum →
          (tx.vin.map fun input => (AccessCoin c base input.prevout).1.out.nValue).sum <
            9223372036854775808 →
          r = (tx.vin.map fun input => (AccessCoin c base input.prevout).1.out.nValue).sum)) ∧
    (E.IsCoinBase tx = false →
      (∃ input ∈ tx.vin, (AccessCoin c base input.prevout).1.IsSpent = true) →
      GetValueIn E c base tx = .abort) := by
  refine ⟨fun h => by simp [GetValueIn, h], fun h hall => ?_, fun h hex => ?_⟩
  · obtain ⟨c1, b1, h1⟩ :=
      GetValueIn_loop_ok c base tx.vin 0 c base (SameObs_refl c base) hall rfl
    rw [zero_add] at h1
    refine ⟨_, c1, b1, ?_, rfl, fun hlo hhi => wrap64_of_range hlo hhi⟩
    simp only [GetValueIn, h, Bool.false_eq_true, if_false, h1]
  · simp only [GetValueIn, h, Bool.false_eq_true, if_false]
    exact GetValueIn_loop_abort c base tx.vin 0 c base (SameObs_refl c base) hex

/-- Witness of `get_value_in_spec`: over the cache holding (5,0) with value
100, the transaction spending (5,0) has input value 100, a coinbase has 0, and
the transaction spending the unknown (8,0) aborts. -/
theorem get_value_in_spec_witness :
    (∃ c1 b1, GetValueIn sampleEnv cacheWith5 .plain txSpending5 = .ok (100, c1, b1)) ∧
    GetValueIn sampleEnv cacheWith5 .plain txCoinbase = .ok (0, cacheWith5, .plain) ∧
    GetValueIn sampleEnv cacheWith5 .plain txSpending8 = .abort := by
  have h := get_value_in_spec sampleEnv cacheWith5 .plain txSpending5
  have h8 := get_value_in_spec sampleEnv cacheWith5 .plain txSpending8
  obtain ⟨r, c1, b1, h1, -, hr⟩ := h.2.1 (by decide) (by decide)
  have hr1 := hr (by decide) (by decide)
  rw [hr1] at h1
  exact ⟨⟨c1, b1, h1.trans rfl⟩,
    (get_value_in_spec sampleEnv cacheWith5 .plain txCoinbase).1 (by decide),
    h8.2.2 (by decide) (by decide)⟩

/-! ## C15: `get_priority` -/

theorem roundDouble_of_le {x : Int} (h : x.natAbs ≤ 9007199254740992) : roundDouble x = x := by
  unfold roundDouble
  rw [if_pos h]

theorem wrap64_of_le {x : Int} (h : x.natAbs ≤ 9007199254740992) : wrap64 x = x := by
  apply wrap64_of_range <;> omega

theorem age_of_record {c : CCoinsViewCache} {b : CCoinsView} {o : COutPoint} {coins : CCoins}
    (hr : (AccessCoins c b o.hash).1 = some coins) (nHeight : Int) :
    (AccessCoin c b o).1.age nHeight =
        (if !coins.IsAvailable o.n then 0
         else if (coins.nHeight : Int) < nHeight then
           (coins.vout.getD o.n CTxOut.null).nValue * (nHeight - (coins.nHeight : Int))
         else 0) ∧
      (AccessCoin c b o).1.inChainValue nHeight =
        (if !coins.IsAvailable o.n then 0
         else if (coins.nHeight : Int) < nHeight then
           (coins.vout.getD o.n CTxOut.null).nValue
         else 0) := by
  rw [AccessCoin_of_record, hr]
  dsimp only
  cases hav : coins.IsAvailable o.n with
  | false => simp [Coin.age, Coin.inChainValue, coinEmpty_IsSpent]
  | true =>
    have hn := available_not_null hav
    by_cases hlt : (coins.nHeight : Int) < nHeight
    · simp only [Coin.age, Coin.inChainValue, Coin.IsSpent, hn, hlt, if_true, Bool.not_true,
        Bool.not_false, Bool.false_eq_true, if_false, decide_True, Bool.and_self, and_self]
    · simp only [Coin.age, Coin.inChainValue, Coin.IsSpent, hn, hlt, if_true, Bool.not_true,
        Bool.not_false, Bool.false_eq_true, if_false, decide_False, Bool.and_false, and_self]

theorem GetPriority_loop_ok (c : CCoinsViewCache) (b : CCoinsView) (nHeight : Int)
    (vin : List CTxIn) (dResult inChainInputValue : Int) (c1 : CCoinsViewCache)
    (b1 : CCoinsView) (h : SameObs c1 b1 c b)
    (hall : ∀ txin ∈ vin, (AccessCoins c b txin.prevout.hash).1 ≠ none) :
    ∃ d v c2 b2, GetPriority.loop nHeight vin dResult inChainInputValue c1 b1 =
        .ok (d, v, c2, b2) ∧
      ((∀ txin ∈ vin, wrap64 ((AccessCoin c b txin.prevout).1.age nHeight) =
            (AccessCoin c b txin.prevout).1.age nHeight ∧
          roundDouble ((AccessCoin c b txin.prevout).1.age nHeight) =
            (AccessCoin c b txin.prevout).1.age nHeight) →
        (∀ k, roundDouble (dResult +
            ((vin.take k).map fun txin => (AccessCoin c b txin.prevout).1.age nHeight).sum) =
          dResult +
            ((vin.take k).map fun txin => (AccessCoin c b txin.prevout).1.age nHeight).sum) →
        d = dResult + (vin.map fun txin => (AccessCoin c b txin.prevout).1.age nHeight).sum) ∧
      (wrap64 inChainInputValue = inChainInputValue →
        v = wrap64 (inChainInputValue +
          (vin.map fun txin => (AccessCoin c b txin.prevout).1.inChainValue nHeight).sum)) := by
  induction vin generalizing dResult inChainInputValue c1 b1 with
  | nil =>
    exact ⟨dResult, inChainInputValue, c1, b1, by simp [GetPriority.loop],
      fun _ _ => by simp, fun hv => by simp [hv]⟩
  | cons txin rest ih =>
    have hrest : ∀ x ∈ rest, (AccessCoins c b x.prevout.hash).1 ≠ none :=
      fun x hx => hall x (List.mem_cons_of_mem _ hx)
    have hs := SameObs_fetch h txin.prevout.hash
    rw [← AccessCoins_snd] at hs
    cases hr : (AccessCoins c b txin.prevout.hash).1 with
    | none => exact absurd hr (hall txin (List.mem_cons_self _ _))
    | some coins =>
      obtain ⟨ha, hv⟩ := age_of_record hr nHeight
      unfold GetPriority.loop
      rw [SameObs_AccessCoins h, hr]
      dsimp only
      have hskip : (AccessCoin c b txin.prevout).1.age nHeight = 0 →
          (AccessCoin c b txin.prevout).1.inChainValue nHeight = 0 →
          ∃ d v c2 b2, GetPriority.loop nHeight rest dResult inChainInputValue
              (AccessCoins c1 b1 txin.prevout.hash).2.1
              (AccessCoins c1 b1 txin.prevout.hash).2.2 = .ok (d, v, c2, b2) ∧
            ((∀ x ∈ txin :: rest, wrap64 ((AccessCoin c b x.prevout).1.age nHeight) =
                  (AccessCoin c b x.prevout).1.age nHeight ∧
                roundDouble ((AccessCoin c b x.prevout).1.age nHeight) =
                  (AccessCoin c b x.prevout).1.age nHeight) →
              (∀ k, roundDouble (dResult +
                  (((txin :: rest).take k).map fun x =>
                    (AccessCoin c b x.prevout).1.age nHeight).sum) =
                dResult +
                  (((txin :: rest).take k).map fun x =>
                    (AccessCoin c b x.prevout).1.age nHeight).sum) →
              d = dResult +
                ((txin :: rest).map fun x => (AccessCoin c b x.prevout).1.age nHeight).sum) ∧
            (wrap64 inChainInputValue = inChainInputValue →
              v = wrap64 (inChainInputValue +
                ((txin :: rest).map fun x =>
                  (AccessCoin c b x.prevout).1.inChainValue nHeight).sum)) := by
        intro ha0 hv0
        obtain ⟨d, v, c2, b2, h2, hd, hvv⟩ := ih dResult inChainInputValue _ _ hs hrest
        refine ⟨d, v, c2, b2, h2, fun hex hpre => ?_, fun hw => ?_⟩
        · rw [List.map_cons, List.sum_cons, ha0, zero_add]
          apply hd (fun x hx => hex x (List.mem_cons_of_mem _ hx))
          intro k
          have hk := hpre (k + 1)
          rw [List.take_succ_cons, List.map_cons, List.sum_cons, ha0, zero_add] at hk
          exact hk
        · rw [List.map_cons, List.sum_cons, hv0, zero_add]
          exact hvv hw
      by_cases hav : (!coins.IsAvailable txin.prevout.n) = true
      · rw [if_pos hav] at ha hv ⊢
        exact hskip ha hv
      · rw [if_neg hav] at ha hv ⊢
        by_cases hlt : (coins.nHeight : Int) < nHeight
        · rw [if_pos hlt] at ha hv ⊢
          rw [← ha, ← hv]
          obtain ⟨d, v, c2, b2, h2, hd, hvv⟩ := ih
            (roundDouble (dResult +
              roundDouble (wrap64 ((AccessCoin c b txin.prevout).1.age nHeight))))
            (wrap64 (inChainInputValue + (AccessCoin c b txin.prevout).1.inChainValue nHeight))
            _ _ hs hrest
          refine ⟨d, v, c2, b2, h2, fun hex hpre => ?_, fun _ => ?_⟩
          · obtain ⟨hw, hrd⟩ := hex txin (List.mem_cons_self _ _)
            have h1 := hpre 1
            rw [List.take_succ_cons, List.take_zero, List.map_cons, List.map_nil, List.sum_cons,
              List.sum_nil, add_zero] at h1
            have hacc : roundDouble (dResult +
                roundDouble (wrap64 ((AccessCoin c b txin.prevout).1.age nHeight))) =
                dResult + (AccessCoin c b txin.prevout).1.age nHeight := by
              rw [hw, hrd, h1]
            rw [hacc] at hd
            rw [List.map_cons, List.sum_cons, ← add_assoc]
            apply hd (fun x hx => hex x (List.mem_cons_of_mem _ hx))
            intro k
            have hk := hpre (k + 1)
            rw [List.take_succ_cons, List.map_cons, List.sum_cons, ← add_assoc] at hk
            exact hk
          · rw [hvv (wrap64_wrap64 _), wrap64_add, List.map_cons, List.sum_cons, add_assoc]
        · rw [if_neg hlt] at ha hv ⊢
          exact hskip ha hv

theorem GetPriority_loop_abort (c : CCoinsViewCache) (b : CCoinsView) (nHeight : Int)
    (vin : List CTxIn) (dResult inChainInputValue : Int) (c1 : CCoinsViewCache)
    (b1 : CCoinsView) (h : SameObs c1 b1 c b)
    (hex : ∃ txin ∈ vin, (AccessCoins c b txin.prevout.hash).1 = none) :
    GetPriority.loop nHeight vin dResult inChainInputValue c1 b1 = .abort := by
  induction vin generalizing dResult inChainInputValue c1 b1 with
  | nil =>
    obtain ⟨x, hx, -⟩ := hex
    cases hx
  | cons txin rest ih =>
    have hs := SameObs_fetch h txin.prevout.hash
    rw [← AccessCoins_snd] at hs
    unfold GetPriority.loop
    rw [SameObs_AccessCoins h]
    cases hr : (AccessCoins c b txin.prevout.hash).1 with
    | none => rfl
    | some coins =>
      have hrest : ∃ x ∈ rest, (AccessCoins c b x.prevout.hash).1 = none := by
        obtain ⟨x, hx, hxs⟩ := hex
        rcases List.mem_cons.1 hx with rfl | hx
        · rw [hr] at hxs; cases hxs
        · exact ⟨x, hx, hxs⟩
      dsimp only
      split_ifs
      · exact ih _ _ _ _ hs hrest
      · exact ih _ _ _ _ hs hrest
      · exact ih _ _ _ _ hs hrest


/-- C15 as stated fails four times.  (a) A coinstake whose input (5,0) is
available, of value 100 and of height 2 < 10: `get_priority` returns at the
`IsCoinGenerated` guard with `in_chain_input_value = 0` and hands no age sum to
`compute_priority`, while the claimed sums are 100 and 800.  (b) A transaction
spending (8,0), of which the cache holds no record: the call fails
`assert(coins)`, while the claim lets an unavailable input contribute zero.
(c) One input of value `10^15 + 1` at height 0, `h = 11`: the product
11000000000000011 is no `double`, and the age sum handed over is
11000000000000012.  (d) Two inputs of value `2^62` at height 0, `h = 1`: the
64-bit `in_chain_input_value` overflows to `-2^63`, while the claimed sum is
`2^63`. -/
theorem get_priority_counterexample :
    (GetPriority sampleEnv cacheWith5 .plain txCoinstake 10 =
        .ok (.zero, 0, cacheWith5, .plain) ∧
      (txCoinstake.vin.map fun txin =>
        (AccessCoin cacheWith5 .plain txin.prevout).1.inChainValue 10).sum = 100 ∧
      (txCoinstake.vin.map fun txin =>
        (AccessCoin cacheWith5 .plain txin.prevout).1.age 10).sum = 800) ∧
    (sampleEnv.IsCoinGenerated txSpending8 = false ∧
      GetPriority sampleEnv CCoinsViewCache.new .plain txSpending8 10 = .abort) ∧
    (sampleEnv.IsCoinGenerated txSpending6c = false ∧
      GetPriority sampleEnv cacheWith6 .plain txSpending6c 11 =
        .ok (.computed 11000000000000012, 1000000000000001, cacheWith6, .plain) ∧
      (txSpending6c.vin.map fun txin =>
        (AccessCoin cacheWith6 .plain txin.prevout).1.age 11).sum = 11000000000000011) ∧
    (sampleEnv.IsCoinGenerated txSpending6 = false ∧
      GetPriority sampleEnv cacheWith6 .plain txSpending6 1 =
        .ok (.computed 9223372036854775808, -9223372036854775808, cacheWith6, .plain) ∧
      (txSpending6.vin.map fun txin =>
        (AccessCoin cacheWith6 .plain txin.prevout).1.inChainValue 1).sum =
          9223372036854775808) :=
  ⟨⟨rfl, by decide, by decide⟩, ⟨by decide, rfl⟩, ⟨by decide, rfl, by decide⟩,
    by decide, rfl, by decide⟩

/-- C15 (amended): for every cache, height `h` and transaction `tx` that is not
coin-generated and whose inputs all name a txid of which the cache (through its
parent) holds a record, `get_priority` returns.  `in_chain_input_value` is then
the sum of the values of exactly those inputs whose outpoint is available and
whose coin height is `< h`, whenever that sum lies in the range of the signed
64-bit amount (in general, that sum brought into the range modulo `2^64`).  The
age sum handed to `tx.compute_priority` is the sum over the same inputs of
`value * (h - coin.height)`, whenever each product fits the signed 64-bit
amount and each product and each running sum, in the order of the inputs, is a
number a `double` holds exactly; numbers of magnitude up to `2^53` are such.
Spent inputs and inputs with `coin.height >= h` contribute zero to both.  For a
coin-generated `tx` the call returns 0.0 with `in_chain_input_value = 0`, and
when some input names a txid without a record the call fails its assertion. -/
theorem get_priority_spec (E : Env) (c : CCoinsViewCache) (base : CCoinsView)
    (tx : CTransaction) (nHeight : Int) :
    (E.IsCoinGenerated tx = true → GetPriority E c base tx nHeight = .ok (.zero, 0, c, base)) ∧
    (E.IsCoinGenerated tx = false →
      (∀ txin ∈ tx.vin, (AccessCoins c base txin.prevout.hash).1 ≠ none) →
      ∃ d v c1 b1, GetPriority E c base tx nHeight = .ok (.computed d, v, c1, b1) ∧
        ((∀ txin ∈ tx.vin, wrap64 ((AccessCoin c base txin.prevout).1.age nHeight) =
              (AccessCoin c base txin.prevout).1.age nHeight ∧
            roundDouble ((AccessCoin c base txin.prevout).1.age nHeight) =
              (AccessCoin c base txin.prevout).1.age nHeight) →
          (∀ k, k ≤ tx.vin.length →
            roundDouble (((tx.vin.take k).map fun txin =>
                (AccessCoin c base txin.prevout).1.age nHeight).sum) =
              ((tx.vin.take k).map fun txin =>
                (AccessCoin c base txin.prevout).1.age nHeight).sum) →
          d = (tx.vin.map fun txin => (AccessCoin c base txin.prevout).1.age nHeight).sum) ∧
        v = wrap64 (tx.vin.map fun txin =>
          (AccessCoin c base txin.prevout).1.inChainValue nHeight).sum ∧
        (-9223372036854775808 ≤ (tx.vin.map fun txin =>
            (AccessCoin c base txin.prevout).1.inChainValue nHeight).sum →
          (tx.vin.map fun txin =>
            (AccessCoin c base txin.prevout).1.inChainValue nHeight).sum < 9223372036854775808 →
          v = (tx.vin.map fun txin =>
            (AccessCoin c base txin.prevout).1.inChainValue nHeight).sum)) ∧
    (E.IsCoinGenerated tx = false →
      (∃ txin ∈ tx.vin, (AccessCoins c base txin.prevout.hash).1 = none) →
      GetPriority E c base tx nHeight = .abort) ∧
    (∀ x : Int, x.natAbs ≤ 9007199254740992 → wrap64 x = x ∧ roundDouble x = x) ∧
    (∀ coin : Coin, (¬ (coin.IsSpent = false ∧ (coin.nHeight : Int) < nHeight)) →
      coin.age nHeight = 0 ∧ coin.inChainValue nHeight = 0) ∧
    (∀ coin : Coin, coin.IsSpent = false → (coin.nHeight : Int) < nHeight →
      coin.age nHeight = coin.out.nValue * (nHeight - (coin.nHeight : Int)) ∧
      coin.inChainValue nHeight = coin.out.nValue) := by
  refine ⟨fun h => by simp [GetPriority, h], fun h hall => ?_, fun h hex => ?_,
    fun x hx => ⟨wrap64_of_le hx, roundDouble_of_le hx⟩, fun coin hn => ?_,
    fun coin hs hlt => ?_⟩
  · obtain ⟨d, v, c1, b1, h1, hd, hv⟩ :=
      GetPriority_loop_ok c base nHeight tx.vin 0 0 c base (SameObs_refl c base) hall
    have hv1 := hv rfl
    rw [zero_add] at hv1
    refine ⟨d, v, c1, b1, ?_, fun hex hpre => ?_, hv1, fun hlo hhi => ?_⟩
    · simp only [GetPriority, h, Bool.false_eq_true, if_false, h1]
    · have hd1 := hd hex (fun k => by
        rw [zero_add]
        by_cases hk : k ≤ tx.vin.length
        · exact hpre k hk
        · rw [List.take_of_length_le (Nat.le_of_not_le hk)]
          have hfull := hpre tx.vin.length (Nat.le_refl _)
          rw [List.take_length] at hfull
          exact hfull)
      rw [zero_add] at hd1
      exact hd1
    · rw [hv1]
      exact wrap64_of_range hlo hhi
  · simp only [GetPriority, h, Bool.false_eq_true, if_false]
    rw [GetPriority_loop_abort c base nHeight tx.vin 0 0 c base (SameObs_refl c base) hex]
  · cases hs : coin.IsSpent with
    | true => simp [Coin.age, Coin.inChainValue, hs]
    | false =>
      have hlt : ¬ (coin.nHeight : Int) < nHeight := fun hlt => hn ⟨hs, hlt⟩
      simp [Coin.age, Coin.inChainValue, hs, hlt]
  · simp [Coin.age, Coin.inChainValue, hs, hlt]

/-- Witness of `get_priority_spec`, scenario f of the specification: one input
(5,0) with value 100 at height 2, called with height 10, gives
`in_chain_input_value = 100` and the age sum 800. -/
theorem get_priority_spec_witness :
    (∃ c1 b1, GetPriority sampleEnv cacheWith5 .plain txSpending5 10 =
      .ok (.computed 800, 100, c1, b1)) ∧
    GetPriority sampleEnv cacheWith5 .plain txCoinbase 10 = .ok (.zero, 0, cacheWith5, .plain) ∧
    GetPriority sampleEnv CCoinsViewCache.new .plain txSpending8 10 = .abort := by
  have h := get_priority_spec sampleEnv cacheWith5 .plain txSpending5 10
  obtain ⟨d, v, c1, b1, h1, hd, -, hv⟩ := h.2.1 (by decide) (by decide)
  have hd1 := hd (by decide) (by decide)
  have hv1 := hv (by decide) (by decide)
  rw [hd1, hv1] at h1
  exact ⟨⟨c1, b1, h1.trans rfl⟩,
    (get_priority_spec sampleEnv cacheWith5 .plain txCoinbase 10).1 (by decide),
    (get_priority_spec sampleEnv CCoinsViewCache.new .plain txSpending8 10).2.2.1
      (by decide) (by decide)⟩

end Coins
